import Mathlib

/-!
# Controller state-machine chain (`lib/controller/Controller.js`, `lib/controller/router.js`)

A shallow embedding of the controller chain: the controllers live in a heap
indexed by natural numbers (object identity), the `child`/`parent` accessors
are heap transformers that can throw, and `state` is the promise pipeline
`childLeave → myLeave → myEnter → childEnter`, run sequentially with fuel
(the JavaScript recursion follows child links and need not terminate on a
cyclic heap).
-/

namespace Dealport

/-! ## Values -/

deriving instance DecidableEq for Except

/-- An object used as a state (for instance `IDWithOptionalTitle` of `router.js`).
`ref` is the object identity (what `===` compares), `stateName` and `id` are
its properties (`id = none` is `undefined`), and `hasIsStateEqual` says whether
the object has an `isStateEqual` method; the method, when present, is the one
of `router.js`, `this.id === other.id`. -/
structure StateObj where
  ref : Nat
  stateName : String
  id : Option String
  hasIsStateEqual : Bool
  deriving DecidableEq, Repr

/-- A state value as `state(...)` receives it: `null`, `undefined` (the first
element of an empty chain), a string, or a state object. -/
inductive State where
  | null
  | undefined
  | str (s : String)
  | obj (o : StateObj)
  deriving DecidableEq, Repr

/-- JavaScript truthiness of a state value: `if (state)`. -/
def State.truthy : State → Bool
  | .null => false
  | .undefined => false
  | .str s => s != ""
  | .obj _ => true

/-- Is `typeof state === 'object'` for a truthy state. -/
def State.isObject : State → Bool
  | .obj _ => true
  | _ => false

/-- The truthiness of `state.isStateEqual`: strings and objects without the
method have none. -/
def State.hasIsStateEqual : State → Bool
  | .obj o => o.hasIsStateEqual
  | _ => false

/-- The `id` property of a state value (`undefined` is `none`). -/
def State.idProp : State → Option String
  | .obj o => o.id
  | _ => none

/-- Strict equality `stateA === stateB`: primitives by value, objects by
identity. -/
def State.strictEq : State → State → Bool
  | .null, .null => true
  | .undefined, .undefined => true
  | .str a, .str b => a == b
  | .obj a, .obj b => a.ref == b.ref
  | _, _ => false

/-- String conversion of a state inside an error message. -/
def State.toStr : State → String
  | .null => "null"
  | .undefined => "undefined"
  | .str s => s
  | .obj _ => "[object Object]"

/-- A JavaScript value as it can be assigned to `child` or `parent`. An
`object` is one without an `isController` property. -/
inductive Val where
  | null
  | undefined
  | bool (b : Bool)
  | num (n : Int)
  | str (s : String)
  | object (ref : Nat)
  | controller (i : Nat)
  deriving DecidableEq, Repr

/-- JavaScript truthiness of an assigned value. -/
def Val.truthy : Val → Bool
  | .null => false
  | .undefined => false
  | .bool b => b
  | .num n => n != 0
  | .str s => s != ""
  | .object _ => true
  | .controller _ => true

/-- The test `value.isController === true`. -/
def Val.isController : Val → Bool
  | .controller _ => true
  | _ => false

/-- The controller a link holds after `value` is stored in it. Every read of
`__child__` / `__parent__` in the source is a truthiness test followed by a
dereference, so a stored falsy value is kept as `none`. -/
def Val.asLink : Val → Option Nat
  | .controller i => some i
  | _ => none

/-! ## Controllers and the heap -/

/-- The fields of a controller: `cls` picks the subclass (the table of hook
methods), the rest are `currentState`, `__child__` and `__parent__`. -/
structure Controller where
  cls : Nat
  currentState : State
  child : Option Nat
  parent : Option Nat
  deriving DecidableEq, Repr

/-- The constructor `Controller(context)`: no state, no child, no parent. -/
def Controller.new (cls : Nat) : Controller :=
  { cls := cls, currentState := .null, child := none, parent := none }

/-- One invocation of a hook method `this[method](...)`, recorded for the
ordering properties. -/
structure Event where
  ctl : Nat
  method : String
  deriving DecidableEq, Repr

/-- The heap: the controllers by identity, the next identity `new` hands out,
and the hook invocations so far (oldest first). -/
structure Heap where
  ctl : Nat → Controller
  next : Nat
  trace : List Event

/-- Assignment `i.__child__ = v`. -/
def Heap.setChildField (h : Heap) (i : Nat) (v : Option Nat) : Heap :=
  { h with ctl := fun j => if j = i then { h.ctl i with child := v } else h.ctl j }

/-- Assignment `i.__parent__ = v`. -/
def Heap.setParentField (h : Heap) (i : Nat) (v : Option Nat) : Heap :=
  { h with ctl := fun j => if j = i then { h.ctl i with parent := v } else h.ctl j }

/-- Assignment `i.currentState = s`. -/
def Heap.setCurrentState (h : Heap) (i : Nat) (s : State) : Heap :=
  { h with ctl := fun j => if j = i then { h.ctl i with currentState := s } else h.ctl j }

/-- Construction `new Sub(context)` of a controller of subclass `cls`; its
identity is `h.next`. -/
def Heap.alloc (h : Heap) (cls : Nat) : Heap :=
  { h with ctl := fun j => if j = h.next then Controller.new cls else h.ctl j,
           next := h.next + 1 }

/-- Record a hook invocation. -/
def Heap.record (h : Heap) (e : Event) : Heap :=
  { h with trace := h.trace ++ [e] }

/-- A heap of newly constructed controllers of subclass `0`, the first `n`
of them allocated. -/
def Heap.init (n : Nat) : Heap :=
  { ctl := fun _ => Controller.new 0, next := n, trace := [] }

/-! ## The `child` and `parent` accessors -/

/-- The body of the `child` setter after its guard (Controller.js 44-54):
detach the current child, store the new link, attach the new child. -/
def linkChild (this : Nat) (v : Option Nat) (h : Heap) : Heap :=
  let h1 := match (h.ctl this).child with
    | some c => h.setParentField c none
    | none => h
  let h2 := h1.setChildField this v
  match (h2.ctl this).child with
  | some c => h2.setParentField c (some this)
  | none => h2

/-- The body of the `parent` setter after its guard (Controller.js 70-80). -/
def linkParent (this : Nat) (v : Option Nat) (h : Heap) : Heap :=
  let h1 := match (h.ctl this).parent with
    | some p => h.setChildField p none
    | none => h
  let h2 := h1.setParentField this v
  match (h2.ctl this).parent with
  | some p => h2.setChildField p (some this)
  | none => h2

/-- The setter of `child` (Controller.js 37-55). -/
def setChild (this : Nat) (value : Val) (h : Heap) : Except String Heap :=
  if value.truthy && !value.isController then
    .error "value should be a Controller or null"
  else
    .ok (linkChild this value.asLink h)

/-- The setter of `parent` (Controller.js 63-81). -/
def setParent (this : Nat) (value : Val) (h : Heap) : Except String Heap :=
  if value.truthy && !value.isController then
    .error "value should be a Controller or null"
  else
    .ok (linkParent this value.asLink h)

/-! ## Hook methods -/

/-- What a hook method hands back to its caller: it returns normally (no
value, a plain value, or a promise that fulfils), returns a promise that
rejects, returns a promise that never settles, or throws. -/
inductive HookRet where
  | value
  | rejects (msg : String)
  | pending
  | throws (msg : String)
  deriving DecidableEq, Repr

/-- Modelled from the spec: the `enter<State>` / `leave<State>` methods of the
concrete Controller subclasses, which are not part of the library ("supply
enter/leave hook methods and, during enter, may attach a new child
controller"). A hook optionally constructs a controller of subclass
`newChild` and assigns it to `this.child`, then hands back `ret`. -/
structure Hook where
  newChild : Option Nat
  ret : HookRet
  deriving DecidableEq, Repr

/-- Run a hook on `this`. -/
def Hook.run (f : Hook) (this : Nat) (h : Heap) : Heap × HookRet :=
  match f.newChild with
  | some cls => (linkChild this (some h.next) (h.alloc cls), f.ret)
  | none => (h, f.ret)

/-- The methods of each subclass: `M cls name` is `this[name]` for a
controller of subclass `cls`, `none` when it is not a function. -/
abbrev Methods := Nat → String → Option Hook

/-! ## State names and state equality -/

/-- The upper-case mappings to a single character among the characters
`U+0080` to `U+FFFF` (Unicode 14.0, `UnicodeData.txt`), in runs
`(lo, hi, step, to)`: every `step`-th character from `lo` up to `hi` maps to
`to` plus its distance from `lo`. -/
def upperRuns : List (Nat × Nat × Nat × Nat) :=
  [(181, 181, 1, 924), (224, 246, 1, 192), (248, 254, 1, 216), (255, 255, 1, 376),
   (257, 303, 2, 256), (305, 305, 1, 73), (307, 311, 2, 306), (314, 328, 2, 313),
   (331, 375, 2, 330), (378, 382, 2, 377), (383, 383, 1, 83), (384, 384, 1, 579),
   (387, 389, 2, 386), (392, 392, 1, 391), (396, 396, 1, 395), (402, 402, 1, 401),
   (405, 405, 1, 502), (409, 409, 1, 408), (410, 410, 1, 573), (414, 414, 1, 544),
   (417, 421, 2, 416), (424, 424, 1, 423), (429, 429, 1, 428), (432, 432, 1, 431),
   (436, 438, 2, 435), (441, 441, 1, 440), (445, 445, 1, 444), (447, 447, 1, 503),
   (453, 453, 1, 452), (454, 454, 1, 452), (456, 456, 1, 455), (457, 457, 1, 455),
   (459, 459, 1, 458), (460, 460, 1, 458), (462, 476, 2, 461), (477, 477, 1, 398),
   (479, 495, 2, 478), (498, 498, 1, 497), (499, 499, 1, 497), (501, 501, 1, 500),
   (505, 543, 2, 504), (547, 563, 2, 546), (572, 572, 1, 571), (575, 576, 1, 11390),
   (578, 578, 1, 577), (583, 591, 2, 582), (592, 592, 1, 11375), (593, 593, 1, 11373),
   (594, 594, 1, 11376), (595, 595, 1, 385), (596, 596, 1, 390), (598, 599, 1, 393),
   (601, 601, 1, 399), (603, 603, 1, 400), (604, 604, 1, 42923), (608, 608, 1, 403),
   (609, 609, 1, 42924), (611, 611, 1, 404), (613, 613, 1, 42893), (614, 614, 1, 42922),
   (616, 616, 1, 407), (617, 617, 1, 406), (618, 618, 1, 42926), (619, 619, 1, 11362),
   (620, 620, 1, 42925), (623, 623, 1, 412), (625, 625, 1, 11374), (626, 626, 1, 413),
   (629, 629, 1, 415), (637, 637, 1, 11364), (640, 640, 1, 422), (642, 642, 1, 42949),
   (643, 643, 1, 425), (647, 647, 1, 42929), (648, 648, 1, 430), (649, 649, 1, 580),
   (650, 651, 1, 433), (652, 652, 1, 581), (658, 658, 1, 439), (669, 669, 1, 42930),
   (670, 670, 1, 42928), (837, 837, 1, 921), (881, 883, 2, 880), (887, 887, 1, 886),
   (891, 893, 1, 1021), (940, 940, 1, 902), (941, 943, 1, 904), (945, 961, 1, 913),
   (962, 962, 1, 931), (963, 971, 1, 931), (972, 972, 1, 908), (973, 974, 1, 910),
   (976, 976, 1, 914), (977, 977, 1, 920), (981, 981, 1, 934), (982, 982, 1, 928),
   (983, 983, 1, 975), (985, 1007, 2, 984), (1008, 1008, 1, 922), (1009, 1009, 1, 929),
   (1010, 1010, 1, 1017), (1011, 1011, 1, 895), (1013, 1013, 1, 917), (1016, 1016, 1, 1015),
   (1019, 1019, 1, 1018), (1072, 1103, 1, 1040), (1104, 1119, 1, 1024), (1121, 1153, 2, 1120),
   (1163, 1215, 2, 1162), (1218, 1230, 2, 1217), (1231, 1231, 1, 1216), (1233, 1327, 2, 1232),
   (1377, 1414, 1, 1329), (4304, 4346, 1, 7312), (4349, 4351, 1, 7357), (5112, 5117, 1, 5104),
   (7296, 7296, 1, 1042), (7297, 7297, 1, 1044), (7298, 7298, 1, 1054), (7299, 7300, 1, 1057),
   (7301, 7301, 1, 1058), (7302, 7302, 1, 1066), (7303, 7303, 1, 1122), (7304, 7304, 1, 42570),
   (7545, 7545, 1, 42877), (7549, 7549, 1, 11363), (7566, 7566, 1, 42950), (7681, 7829, 2, 7680),
   (7835, 7835, 1, 7776), (7841, 7935, 2, 7840), (7936, 7943, 1, 7944), (7952, 7957, 1, 7960),
   (7968, 7975, 1, 7976), (7984, 7991, 1, 7992), (8000, 8005, 1, 8008), (8017, 8023, 2, 8025),
   (8032, 8039, 1, 8040), (8048, 8049, 1, 8122), (8050, 8053, 1, 8136), (8054, 8055, 1, 8154),
   (8056, 8057, 1, 8184), (8058, 8059, 1, 8170), (8060, 8061, 1, 8186), (8112, 8113, 1, 8120),
   (8126, 8126, 1, 921), (8144, 8145, 1, 8152), (8160, 8161, 1, 8168), (8165, 8165, 1, 8172),
   (8526, 8526, 1, 8498), (8560, 8575, 1, 8544), (8580, 8580, 1, 8579), (9424, 9449, 1, 9398),
   (11312, 11359, 1, 11264), (11361, 11361, 1, 11360), (11365, 11365, 1, 570),
   (11366, 11366, 1, 574), (11368, 11372, 2, 11367), (11379, 11379, 1, 11378),
   (11382, 11382, 1, 11381), (11393, 11491, 2, 11392), (11500, 11502, 2, 11499),
   (11507, 11507, 1, 11506), (11520, 11557, 1, 4256), (11559, 11559, 1, 4295),
   (11565, 11565, 1, 4301), (42561, 42605, 2, 42560), (42625, 42651, 2, 42624),
   (42787, 42799, 2, 42786), (42803, 42863, 2, 42802), (42874, 42876, 2, 42873),
   (42879, 42887, 2, 42878), (42892, 42892, 1, 42891), (42897, 42899, 2, 42896),
   (42900, 42900, 1, 42948), (42903, 42921, 2, 42902), (42933, 42947, 2, 42932),
   (42952, 42954, 2, 42951), (42961, 42961, 1, 42960), (42967, 42969, 2, 42966),
   (42998, 42998, 1, 42997), (43859, 43859, 1, 42931), (43888, 43967, 1, 5024),
   (65345, 65370, 1, 65313)]

/-- The upper-case mappings to several characters (Unicode 14.0,
`SpecialCasing.txt`, the mappings without a condition): `ß` to `SS`, `ŉ` to
`ʼN`, the ligature `ﬁ` to `FI`, and so on. -/
def upperSpecial : List (Nat × List Nat) :=
  [(223, [83, 83]), (329, [700, 78]), (496, [74, 780]), (912, [921, 776, 769]),
   (944, [933, 776, 769]), (1415, [1333, 1362]), (7830, [72, 817]), (7831, [84, 776]),
   (7832, [87, 778]), (7833, [89, 778]), (7834, [65, 702]), (8016, [933, 787]),
   (8018, [933, 787, 768]), (8020, [933, 787, 769]), (8022, [933, 787, 834]),
   (8064, [7944, 921]), (8065, [7945, 921]), (8066, [7946, 921]), (8067, [7947, 921]),
   (8068, [7948, 921]), (8069, [7949, 921]), (8070, [7950, 921]), (8071, [7951, 921]),
   (8072, [7944, 921]), (8073, [7945, 921]), (8074, [7946, 921]), (8075, [7947, 921]),
   (8076, [7948, 921]), (8077, [7949, 921]), (8078, [7950, 921]), (8079, [7951, 921]),
   (8080, [7976, 921]), (8081, [7977, 921]), (8082, [7978, 921]), (8083, [7979, 921]),
   (8084, [7980, 921]), (8085, [7981, 921]), (8086, [7982, 921]), (8087, [7983, 921]),
   (8088, [7976, 921]), (8089, [7977, 921]), (8090, [7978, 921]), (8091, [7979, 921]),
   (8092, [7980, 921]), (8093, [7981, 921]), (8094, [7982, 921]), (8095, [7983, 921]),
   (8096, [8040, 921]), (8097, [8041, 921]), (8098, [8042, 921]), (8099, [8043, 921]),
   (8100, [8044, 921]), (8101, [8045, 921]), (8102, [8046, 921]), (8103, [8047, 921]),
   (8104, [8040, 921]), (8105, [8041, 921]), (8106, [8042, 921]), (8107, [8043, 921]),
   (8108, [8044, 921]), (8109, [8045, 921]), (8110, [8046, 921]), (8111, [8047, 921]),
   (8114, [8122, 921]), (8115, [913, 921]), (8116, [902, 921]), (8118, [913, 834]),
   (8119, [913, 834, 921]), (8124, [913, 921]), (8130, [8138, 921]), (8131, [919, 921]),
   (8132, [905, 921]), (8134, [919, 834]), (8135, [919, 834, 921]), (8140, [919, 921]),
   (8146, [921, 776, 768]), (8147, [921, 776, 769]), (8150, [921, 834]), (8151, [921, 776, 834]),
   (8162, [933, 776, 768]), (8163, [933, 776, 769]), (8164, [929, 787]), (8166, [933, 834]),
   (8167, [933, 776, 834]), (8178, [8186, 921]), (8179, [937, 921]), (8180, [911, 921]),
   (8182, [937, 834]), (8183, [937, 834, 921]), (8188, [937, 921]), (64256, [70, 70]),
   (64257, [70, 73]), (64258, [70, 76]), (64259, [70, 70, 73]), (64260, [70, 70, 76]),
   (64261, [83, 84]), (64262, [83, 84]), (64275, [1348, 1350]), (64276, [1348, 1333]),
   (64277, [1348, 1339]), (64278, [1358, 1350]), (64279, [1348, 1341])]

/-- The call `toUpperCase()` on the one-character string `charAt(0)` of a state
name whose first character is `c`: the Unicode upper-case mapping, which is
not tied to a locale and may give several characters. A character outside the
Basic Multilingual Plane takes two UTF-16 code units; `charAt(0)` is then the
first of them, a surrogate, which has no upper case, and `slice(1)` starts
with the second: the character comes out unchanged. -/
def toUpperCase (c : Char) : List Char :=
  let n := c.toNat
  if n < 128 then [c.toUpper]
  else if 65536 ≤ n then [c]
  else
    match upperSpecial.lookup n with
    | some l => l.map Char.ofNat
    | none =>
      match upperRuns.find? (fun e => e.1 ≤ n && n ≤ e.2.1 && (n - e.1) % e.2.2.1 == 0) with
      | some e => [Char.ofNat (e.2.2.2 + (n - e.1))]
      | none => [c]

/-- The expression `state.charAt(0).toUpperCase() + state.slice(1)`. -/
def upperFirst (s : String) : String :=
  match s.data with
  | [] => ""
  | c :: cs => String.mk (toUpperCase c ++ cs)

/-- The static `Controller.stateMethodName(pfx, state)` (Controller.js 91-101).
For `null` and `undefined` the property access or `toString()` is a type
error. -/
def stateMethodName (pfx : String) (state : State) : Except String String :=
  match state with
  | .null => .error "TypeError: Cannot read properties of null"
  | .undefined => .error "TypeError: Cannot read properties of undefined"
  | .str s => .ok (pfx ++ upperFirst s)
  | .obj o => .ok (pfx ++ upperFirst o.stateName)

/-- The static `Controller.statesEqual(stateA, stateB)` (Controller.js 103-118);
`stateA.isStateEqual(stateB)` is `this.id === other.id` of `router.js`. -/
def statesEqual (stateA stateB : State) : Except String Bool :=
  if stateA.truthy && stateB.truthy && stateA.isObject then
    if !stateA.hasIsStateEqual || !stateB.hasIsStateEqual then
      .error "If a state is an object, it must implement a isStateEqual(other) method"
    else
      .ok (stateA.idProp == stateB.idProp)
  else
    .ok (stateA.strictEq stateB)

/-! ## The transition pipeline -/

/-- How the promise returned by `state(...)` ends: it resolves, rejects, never
settles; `threw` is an exception thrown by the call itself before any promise
exists, `outOfFuel` is the model running out of recursion depth. -/
inductive Outcome where
  | resolved
  | rejected (msg : String)
  | threw (msg : String)
  | pending
  | outOfFuel
  deriving DecidableEq, Repr

/-- What `.then(cb)` makes of the value a callback returned or threw. -/
def HookRet.await : HookRet → Outcome
  | .value => .resolved
  | .rejects m => .rejected m
  | .pending => .pending
  | .throws m => .rejected m

/-- A call made inside a `.then` callback: an exception it throws rejects the
promise of the callback. -/
def Outcome.inThen : Outcome → Outcome
  | .threw m => .rejected m
  | o => o

/-- One `.then(next)` step of the pipeline: `next` runs only when everything
before it resolved. -/
def andThen (r : Heap × Outcome) (next : Heap → Heap × Outcome) : Heap × Outcome :=
  match r.2 with
  | .resolved => next r.1
  | o => (r.1, o)

/-- The method `enter(state)` (Controller.js 222-234). -/
def enter (M : Methods) (this : Nat) (state : State) (h : Heap) : Heap × HookRet :=
  let h1 := h.setCurrentState this state
  match stateMethodName "enter" state with
  | .error e => (h1, .throws e)
  | .ok method =>
    match M (h1.ctl this).cls method with
    | none => (h1, .throws ("State method " ++ method ++ " does not exist"))
    | some f => f.run this (h1.record ⟨this, method⟩)

/-- The method `leave()` (Controller.js 244-256): what the hook returns is
dropped, only an exception gets out. -/
def leave (M : Methods) (this : Nat) (h : Heap) : Heap × HookRet :=
  match stateMethodName "leave" (h.ctl this).currentState with
  | .error e => (h, .throws e)
  | .ok method =>
    match M (h.ctl this).cls method with
    | none => (h, .value)
    | some f =>
      let r := f.run this (h.record ⟨this, method⟩)
      match r.2 with
      | .throws e => (r.1, .throws e)
      | _ => (r.1, .value)

/-- The closure `childLeave` of `state` (Controller.js 137-143); `recur` is
`state` itself. -/
def childLeave (recur : Nat → List State → Heap → Heap × Outcome)
    (this : Nat) (h : Heap) : Heap × Outcome :=
  match (h.ctl this).child with
  | some c => let r := recur c [.null] h; (r.1, r.2.inThen)
  | none => (h, .resolved)

/-- The closure `myLeave` of `state` (Controller.js 145-159): the `finally`
block clears `currentState` and `child` whether `leave()` returned or threw. -/
def myLeave (M : Methods) (this : Nat) (h : Heap) : Heap × Outcome :=
  if (h.ctl this).currentState.truthy then
    let r := leave M this h
    (linkChild this none (r.1.setCurrentState this .null), r.2.await)
  else
    (h, .resolved)

/-- The closure `myEnter` of `state` (Controller.js 161-168). -/
def myEnter (M : Methods) (this : Nat) (state : State) (h : Heap) : Heap × Outcome :=
  if state.truthy then
    let r := enter M this state (h.setCurrentState this state)
    (r.1, r.2.await)
  else
    (h, .resolved)

/-- The message of the error `childEnter` throws when a further state is
requested and no child exists. -/
def noChildMsg (args : List State) : String :=
  "Attempting to set child state \"" ++ ((args.drop 1).headD .undefined).toStr
    ++ "\", but no child controller has been set by the state \""
    ++ (args.headD .undefined).toStr ++ "\"."

/-- The message of the error `childEnter` throws when a child exists and no
further state is requested. -/
def missingChildStateMsg (args : List State) : String :=
  "Attempting to set state \"" ++ (args.headD .undefined).toStr
    ++ "\", but the state for the child controller is missing"

/-- The closure `childEnter` of `state` (Controller.js 170-188). -/
def childEnter (recur : Nat → List State → Heap → Heap × Outcome)
    (this : Nat) (args : List State) (h : Heap) : Heap × Outcome :=
  if args.length > 1 then
    match (h.ctl this).child with
    | none => (h, .rejected (noChildMsg args))
    | some c => let r := recur c (args.drop 1) h; (r.1, r.2.inThen)
  else
    match (h.ctl this).child with
    | some _ => (h, .rejected (missingChildStateMsg args))
    | none => (h, .resolved)

/-- The method `state(chain)` (Controller.js 133-208), the chain given as a
list (a single state `s` is the chain `[s]`); the requested state is the
first element, `undefined` for the empty chain. -/
def state (M : Methods) : Nat → Nat → List State → Heap → Heap × Outcome
  | 0, _, _, h => (h, .outOfFuel)
  | fuel + 1, this, args, h =>
    match statesEqual (h.ctl this).currentState (args.headD .undefined) with
    | .error e => (h, .threw e)
    | .ok true => childEnter (state M fuel) this args h
    | .ok false =>
      andThen (andThen (andThen (childLeave (state M fuel) this h)
        (myLeave M this)) (myEnter M this (args.headD .undefined)))
        (childEnter (state M fuel) this args)

/-- The method `getChildrenStateList()` (Controller.js 277-289); `none` when
the loop has not ended within the fuel. -/
def getChildrenStateList (h : Heap) : Nat → Nat → Option (List State)
  | 0, _ => none
  | fuel + 1, this =>
    match (h.ctl this).child with
    | none => some [(h.ctl this).currentState]
    | some c => (getChildrenStateList h fuel c).map ((h.ctl this).currentState :: ·)

/-! ## Walking the links -/

/-- The method `getRootController()` (Controller.js 262-271): follow `parent`
while there is one; `none` when the loop has not ended within the fuel. -/
def getRootController (h : Heap) : Nat → Nat → Option Nat
  | 0, _ => none
  | fuel + 1, cont =>
    match (h.ctl cont).parent with
    | some p => getRootController h fuel p
    | none => some cont

/-- The loop of `getParentsStateList()` (Controller.js 300-304): `unshift` the
state of `cont`, then go to its parent. -/
def getParentsStateListLoop (h : Heap) : Nat → Nat → List State → Option (List State)
  | 0, _, _ => none
  | fuel + 1, cont, states =>
    match (h.ctl cont).parent with
    | some p => getParentsStateListLoop h fuel p ((h.ctl cont).currentState :: states)
    | none => some ((h.ctl cont).currentState :: states)

/-- The method `getParentsStateList()` (Controller.js 295-307). -/
def getParentsStateList (h : Heap) (fuel this : Nat) : Option (List State) :=
  getParentsStateListLoop h fuel this []

/-! ## The router (`router.js`) -/

/-- The replacement `.replace(/^\/|\/$/g, '')` on the characters of the
pathname: a leading slash is removed, then a trailing one. -/
def stripSlashes (cs : List Char) : List Char :=
  let rest := match cs with
    | '/' :: r => r
    | _ => cs
  match rest.reverse with
  | '/' :: r => r.reverse
  | _ => rest

/-- The call `.split('/')` on the characters: the pieces between slashes, one
empty piece for the empty string. -/
def splitOnSlash : List Char → List (List Char)
  | [] => [[]]
  | c :: cs =>
    if c = '/' then [] :: splitOnSlash cs
    else
      match splitOnSlash cs with
      | [] => [[c]]
      | piece :: pieces => (c :: piece) :: pieces

/-- White space as `String.prototype.trim` sees it (ECMAScript WhiteSpace and
LineTerminator code points). -/
def isJsWhitespace (c : Char) : Bool :=
  let n := c.toNat
  (9 ≤ n && n ≤ 13) || n == 32 || n == 160 || n == 5760 || (8192 ≤ n && n ≤ 8202) ||
    n == 8232 || n == 8233 || n == 8239 || n == 8287 || n == 12288 || n == 65279

/-- The call `url.trim()`. -/
def jsTrim (s : String) : String :=
  String.mk (((s.data.dropWhile isJsWhitespace).reverse.dropWhile isJsWhitespace).reverse)

/-- The function `parse(url)` (router.js 37-50). `pathname` stands for Node's
`url.parse(..., true).pathname`, which the repository takes from the `url`
module: the path it finds in a URL, `none` (null) when it finds none, in which
case `.replace` is a type error. -/
def parse (pathname : String → Option String) (url : String) : Except String (List State) :=
  match pathname (jsTrim url) with
  | none => .error "TypeError: Cannot read properties of null"
  | some path =>
    let parts := splitOnSlash (stripSlashes path.data)
    if (parts.headD []).isEmpty && parts.length == 1 then
      .ok [.str "page", .str "home"]
    else
      .ok [.str "404"]

/-- The function `stringify(states)` (router.js 53-64); `none` is `null`. -/
def stringify (states : List State) : Option String :=
  if (states.headD .undefined).strictEq (.str "page") then
    if ((states.drop 1).headD .undefined).strictEq (.str "home") && states.length == 2 then
      some "/"
    else
      none
  else
    none

/-! ## The anchor editor (`EditablePlainAnchor.js`) -/

/-- The test `/^https?:\/\//.test(url)` on the characters of `url`. -/
def httpSchemeTest (cs : List Char) : Bool :=
  match cs with
  | 'h' :: 't' :: 't' :: 'p' :: rest =>
    match rest with
    | ':' :: '/' :: '/' :: _ => true
    | 's' :: ':' :: '/' :: '/' :: _ => true
    | _ => false
  | _ => false

/-- The setter of `hrefValue` (EditablePlainAnchor.js 78-86) on a string: the
value it passes to `this.attr('href', ...)`. -/
def hrefValue (url : String) : String :=
  if url != "" && !httpSchemeTest url.data then "http://" ++ url else url

/-! ## Sequences of assignments -/

/-- One assignment statement `x.child = y` or `x.parent = y`. -/
inductive Assign where
  | child (x : Nat) (y : Val)
  | parent (x : Nat) (y : Val)
  deriving DecidableEq, Repr

/-- Run one assignment. -/
def Assign.run : Assign → Heap → Except String Heap
  | .child x y, h => setChild x y h
  | .parent x y, h => setParent x y h

/-- Run a sequence of assignments, stopping at the first that throws. -/
def runAssigns : List Assign → Heap → Except String Heap
  | [], h => .ok h
  | a :: rest, h =>
    match a.run h with
    | .ok h1 => runAssigns rest h1
    | .error e => .error e

/-- Parent/child consistency: `a.child === b` exactly when `b.parent === a`. -/
def Consistent (h : Heap) : Prop :=
  ∀ a b : Nat, (h.ctl a).child = some b ↔ (h.ctl b).parent = some a

/-! ## Sample configurations -/

/-- A subclass table without any hook method. -/
def noHooks : Methods := fun _ _ => none

/-- Three subclasses: `0` has `enterA` (constructs a child of subclass `1`),
`enterSolo` (no child) and `leaveX`; `1` has `enterB` (constructs a child of
subclass `2`) and `leaveY`; `2` has `enterC` and `leaveZ`. -/
def sampleHooks : Methods := fun cls name =>
  if cls = 0 then
    if name = "enterA" then some ⟨some 1, .value⟩
    else if name = "enterSolo" then some ⟨none, .value⟩
    else if name = "leaveX" then some ⟨none, .value⟩
    else none
  else if cls = 1 then
    if name = "enterB" then some ⟨some 2, .value⟩
    else if name = "leaveY" then some ⟨none, .value⟩
    else none
  else if cls = 2 then
    if name = "enterC" then some ⟨none, .value⟩
    else if name = "leaveZ" then some ⟨none, .value⟩
    else none
  else none

/-- The table `sampleHooks` with one more method for subclass `2`: `enter`,
the name that `stateMethodName('enter', '')` gives. -/
def sampleHooksEnter : Methods := fun cls name =>
  if cls = 2 ∧ name = "enter" then some ⟨none, .value⟩ else sampleHooks cls name

/-- A chain of three controllers `0 → 1 → 2` of subclasses `0`, `1`, `2` in
the states `x`, `y`, `z`. -/
def sampleChain : Heap :=
  { ctl := fun i =>
      if i = 0 then { cls := 0, currentState := .str "x", child := some 1, parent := none }
      else if i = 1 then { cls := 1, currentState := .str "y", child := some 2, parent := some 0 }
      else if i = 2 then { cls := 2, currentState := .str "z", child := none, parent := some 1 }
      else Controller.new 0,
    next := 3, trace := [] }

/-- Two controllers after `c0.child = c1`. -/
def linkedPair : Heap := linkChild 0 (some 1) (Heap.init 2)

/-- Three controllers after `c0.child = c1; c2.child = c1`. -/
def twoParents : Heap := linkChild 2 (some 1) (linkChild 0 (some 1) (Heap.init 3))

/-- A state object without an `isStateEqual` method. -/
def plainObject : StateObj := { ref := 0, stateName := "a", id := none, hasIsStateEqual := false }

/-- A subclass table whose `leaveBad` hook throws. -/
def throwingHooks : Methods := fun _ name =>
  if name = "leaveBad" then some ⟨none, .throws "boom"⟩
  else if name = "enterNext" then some ⟨none, .value⟩
  else none

/-- One controller in the state `bad`, without a child. -/
def badLeaf : Heap := (Heap.init 1).setCurrentState 0 (.str "bad")

/-- A subclass table in which every method name is a hook that does
nothing. -/
def allHooks : Methods := fun _ _ => some ⟨none, .value⟩

/-- A subclass table whose `leaveX` hook returns a promise that never settles,
as does its `enterP` hook; `enterA` returns normally. -/
def pendingHooks : Methods := fun _ name =>
  if name = "leaveX" then some ⟨none, .pending⟩
  else if name = "enterP" then some ⟨none, .pending⟩
  else if name = "enterA" then some ⟨none, .value⟩
  else none

/-- One controller of subclass `0` in the state `x`, without a child. -/
def soloLeaf : Heap := (Heap.init 1).setCurrentState 0 (.str "x")

/-- The object `{abc: 5, stateName: 'enterFoo'}` of the `@example` of
`stateMethodName`. -/
def exampleObject : StateObj :=
  { ref := 0, stateName := "enterFoo", id := none, hasIsStateEqual := false }

/-- A state object named `solo` without an `isStateEqual` method. -/
def soloObject : StateObj :=
  { ref := 1, stateName := "solo", id := none, hasIsStateEqual := false }

/-! ## Vocabulary of the statements -/

/-- The chain of descendants of `x`: `x.child` is the head of the list, its
child the next element, and the last one has no child. -/
def IsChain (h : Heap) : Nat → List Nat → Prop
  | x, [] => (h.ctl x).child = none
  | x, c :: rest => (h.ctl x).child = some c ∧ IsChain h c rest

/-- A finite chain of distinct, already constructed controllers hangs below
`x`: `x` and its descendants `p`. -/
def WellFormed (h : Heap) (x : Nat) (p : List Nat) : Prop :=
  IsChain h x p ∧ (x :: p).Nodup ∧ ∀ y ∈ x :: p, y < h.next

/-- Two controller records agree on subclass, state and child (the fields
`state` reads; `__parent__` is only ever written). -/
def SameCore (a b : Controller) : Prop :=
  a.cls = b.cls ∧ a.currentState = b.currentState ∧ a.child = b.child

/-- The step from `h` to `k` constructs controllers, records hook invocations
and otherwise touches only the controllers in `S`: every other controller
that existed keeps subclass, state and child, and every recorded invocation is
on a controller of `S` or on a new one. -/
def Frame (h k : Heap) (S : List Nat) : Prop :=
  h.next ≤ k.next ∧
  (∀ z, z < h.next → z ∉ S → SameCore (k.ctl z) (h.ctl z)) ∧
  ∃ evs, k.trace = h.trace ++ evs ∧ ∀ e ∈ evs, e.ctl ∈ S ∨ h.next ≤ e.ctl

/-- A state identifier as the data model describes it: a non-empty string,
or an object that implements `isStateEqual`. -/
def State.valid : State → Bool
  | .str s => s != ""
  | .obj o => o.hasIsStateEqual
  | _ => false

/-- The chain below `x` has exactly the depth of the requested chain, and
each controller on it is in a state equal to the requested one (for the
requested states that are state identifiers). -/
def Matches (h : Heap) : Nat → List State → Prop
  | x, [] => (h.ctl x).child = none
  | x, s :: rest =>
    (s.valid = true → statesEqual (h.ctl x).currentState s = .ok true) ∧
    match rest with
    | [] => (h.ctl x).child = none
    | _ :: _ => ∃ c, (h.ctl x).child = some c ∧ Matches h c rest

/-- What the recursive calls are assumed to do (the induction hypothesis). -/
def RecurSpec (recur : Nat → List State → Heap → Heap × Outcome) : Prop :=
  ∀ (c : Nat) (args : List State) (h : Heap) (q : List Nat), WellFormed h c q →
    Frame h (recur c args h).1 (c :: q) ∧
    ((recur c args h).2 = .resolved → Matches (recur c args h).1 c args)

/-- The invocation of the leave hook of `y` that leaving its current state
records: none when `y` has no state or its subclass has no such method. -/
def leaveEvent (M : Methods) (h : Heap) (y : Nat) : List Event :=
  if (h.ctl y).currentState.truthy then
    match stateMethodName "leave" (h.ctl y).currentState with
    | .ok name => if (M (h.ctl y).cls name).isSome then [⟨y, name⟩] else []
    | .error _ => []
  else []

/-- The leave invocations of a chain listed from the top: deepest first. -/
def leaveTrace (M : Methods) (h : Heap) : List Nat → List Event
  | [] => []
  | y :: ys => leaveTrace M h ys ++ leaveEvent M h y

/-- The leave hook of the current state of `y`, if there is one, does not
throw. -/
def LeaveOk (M : Methods) (h : Heap) (y : Nat) : Prop :=
  ∀ name f, stateMethodName "leave" (h.ctl y).currentState = .ok name →
    M (h.ctl y).cls name = some f → ∀ e, f.ret ≠ .throws e

/-- An active child chain below `x`: well formed, every descendant is in a
state, and no leave hook of a descendant throws. -/
def ChildrenReady (M : Methods) (h : Heap) (x : Nat) (p : List Nat) : Prop :=
  WellFormed h x p ∧ ∀ y ∈ p, (h.ctl y).currentState.truthy = true ∧ LeaveOk M h y

/-- A controller ready for a transition: an active child chain, a leave hook
that does not throw, and no child while it has no state. -/
def Ready (M : Methods) (h : Heap) (x : Nat) (p : List Nat) : Prop :=
  ChildrenReady M h x p ∧ LeaveOk M h x ∧ ((h.ctl x).currentState.truthy = false → p = [])

/-- The controllers of `S` have no state and no child in `k`, and the
subclass they had in `h`. -/
def Cleared (h k : Heap) (S : List Nat) : Prop :=
  ∀ y ∈ S, (k.ctl y).currentState = .null ∧ (k.ctl y).child = none ∧
    (k.ctl y).cls = (h.ctl y).cls

/-- The heap `k` reached from `h` once the chain below `x` and `x` itself have
left their states: the leave hooks ran deepest first, `x` has no state and no
child, its former descendants are cleared. -/
def AfterLeave (M : Methods) (h : Heap) (x : Nat) (p : List Nat) (k : Heap) : Prop :=
  k.trace = h.trace ++ leaveTrace M h (x :: p) ∧
  (k.ctl x).child = none ∧ (k.ctl x).cls = (h.ctl x).cls ∧
  (k.ctl x).currentState.truthy = false ∧ x < k.next ∧
  Cleared h k p ∧ Frame h k (x :: p)

/-- A chain whose links agree in both directions: each controller's child is
the next one of the list and that one's parent is the controller; the last
one has no child. -/
def Linked (h : Heap) : Nat → List Nat → Prop
  | x, [] => (h.ctl x).child = none
  | x, c :: rest => (h.ctl x).child = some c ∧ (h.ctl c).parent = some x ∧ Linked h c rest

/-- A consistent chain `root → ... → leaf`: the root has no parent and the
links below it agree in both directions. -/
def ConsistentChain (h : Heap) (root : Nat) (p : List Nat) : Prop :=
  (h.ctl root).parent = none ∧ Linked h root p

/-- The states of a list of controllers. -/
def statesOf (h : Heap) (nodes : List Nat) : List State :=
  nodes.map (fun y => (h.ctl y).currentState)

/-- The invariant of the data model: a controller without a state has no
child. -/
def ChildOnlyWithState (h : Heap) : Prop :=
  ∀ y, (h.ctl y).currentState = .null → (h.ctl y).child = none

/-- Every child link points at a constructed controller. -/
def ChildrenAllocated (h : Heap) : Prop :=
  ∀ y c, (h.ctl y).child = some c → c < h.next

/-- Both of the above. -/
def Tidy (h : Heap) : Prop := ChildOnlyWithState h ∧ ChildrenAllocated h

/-- The recursive calls keep a heap tidy and construct only new controllers
(the induction hypothesis of the invariant). -/
def KeepsTidy (recur : Nat → List State → Heap → Heap × Outcome) : Prop :=
  ∀ (c : Nat) (args : List State) (h : Heap), Tidy h → c < h.next →
    Tidy (recur c args h).1 ∧ h.next ≤ (recur c args h).1.next

/-- A controller without links. -/
def Unlinked (h : Heap) (y : Nat) : Prop :=
  (h.ctl y).child = none ∧ (h.ctl y).parent = none

/-- The parent links descend along a rank: following them ends. -/
def ParentRanked (h : Heap) : Prop :=
  ∃ r : Nat → Nat, ∀ x q, (h.ctl x).parent = some q → r q < r x

/-- The child links descend along a rank: following them ends. -/
def ChildRanked (h : Heap) : Prop :=
  ∃ d : Nat → Nat, ∀ x c, (h.ctl x).child = some c → d c < d x

/-- Neither the parent links nor the child links run in a cycle. -/
def NoCycles (h : Heap) : Prop := ParentRanked h ∧ ChildRanked h

/-- One step along a parent link. -/
def ParentStep (h : Heap) (a b : Nat) : Prop := (h.ctl a).parent = some b

/-- One step along a child link. -/
def ChildStep (h : Heap) (a b : Nat) : Prop := (h.ctl a).child = some b

/-- An assignment that closes no cycle in the heap it runs in. `x.child = y`
detaches the previous child of `x`, then adds the child link `x → y` and the
parent link `y → x`: `x` must not be reached from `y` along child links, nor
`y` from `x` along the parent links that remain once the previous child is
detached (for `y = x` both are). `x.parent = y` detaches `x` from its previous
parent, then adds the parent link `x → y` and the child link `y → x`. An
assignment of anything but a controller adds no link. -/
def Assign.ClosesNoCycle (h : Heap) : Assign → Prop
  | .child x v => ∀ y, v = .controller y →
      ¬ Relation.ReflTransGen (ChildStep h) y x ∧
      ¬ Relation.ReflTransGen (ParentStep (linkChild x none h)) x y
  | .parent x v => ∀ y, v = .controller y →
      ¬ Relation.ReflTransGen (ParentStep h) y x ∧
      ¬ Relation.ReflTransGen (ChildStep (linkParent x none h)) x y

/-- No assignment of the sequence closes a cycle in the heap it runs in. -/
def NoCycleRun : List Assign → Heap → Prop
  | [], _ => True
  | a :: rest, h => a.ClosesNoCycle h ∧ ∀ k, a.run h = .ok k → NoCycleRun rest k

/-- One controller after `c0.child = c0`. -/
def selfLoop : Heap := linkChild 0 (some 0) (Heap.init 1)

/-! ## Field access after a heap update -/

section access
variable (h : Heap) (i j : Nat)

@[simp]
theorem setParentField_next (v : Option Nat) : (h.setParentField i v).next = h.next := rfl
@[simp]
theorem setParentField_trace (v : Option Nat) : (h.setParentField i v).trace = h.trace := rfl
@[simp]
theorem setParentField_child (v : Option Nat) :
    ((h.setParentField i v).ctl j).child = (h.ctl j).child := by
  unfold Heap.setParentField; dsimp only; split <;> simp_all
@[simp]
theorem setParentField_cur (v : Option Nat) :
    ((h.setParentField i v).ctl j).currentState = (h.ctl j).currentState := by
  unfold Heap.setParentField; dsimp only; split <;> simp_all
@[simp]
theorem setParentField_cls (v : Option Nat) :
    ((h.setParentField i v).ctl j).cls = (h.ctl j).cls := by
  unfold Heap.setParentField; dsimp only; split <;> simp_all

@[simp]
theorem setChildField_next (v : Option Nat) : (h.setChildField i v).next = h.next := rfl
@[simp]
theorem setChildField_trace (v : Option Nat) : (h.setChildField i v).trace = h.trace := rfl
@[simp]
theorem setChildField_child (v : Option Nat) :
    ((h.setChildField i v).ctl j).child = if j = i then v else (h.ctl j).child := by
  unfold Heap.setChildField; dsimp only; split <;> simp_all
@[simp]
theorem setChildField_cur (v : Option Nat) :
    ((h.setChildField i v).ctl j).currentState = (h.ctl j).currentState := by
  unfold Heap.setChildField; dsimp only; split <;> simp_all
@[simp]
theorem setChildField_cls (v : Option Nat) :
    ((h.setChildField i v).ctl j).cls = (h.ctl j).cls := by
  unfold Heap.setChildField; dsimp only; split <;> simp_all

@[simp]
theorem setCurrentState_next (s : State) : (h.setCurrentState i s).next = h.next := rfl
@[simp]
theorem setCurrentState_trace (s : State) : (h.setCurrentState i s).trace = h.trace := rfl
@[simp]
theorem setCurrentState_child (s : State) :
    ((h.setCurrentState i s).ctl j).child = (h.ctl j).child := by
  unfold Heap.setCurrentState; dsimp only; split <;> simp_all
@[simp]
theorem setCurrentState_cur (s : State) :
    ((h.setCurrentState i s).ctl j).currentState
      = if j = i then s else (h.ctl j).currentState := by
  unfold Heap.setCurrentState; dsimp only; split <;> simp_all
@[simp]
theorem setCurrentState_cls (s : State) :
    ((h.setCurrentState i s).ctl j).cls = (h.ctl j).cls := by
  unfold Heap.setCurrentState; dsimp only; split <;> simp_all

@[simp]
theorem alloc_next (k : Nat) : (h.alloc k).next = h.next + 1 := rfl
@[simp]
theorem alloc_trace (k : Nat) : (h.alloc k).trace = h.trace := rfl
@[simp]
theorem alloc_ctl (k : Nat) :
    (h.alloc k).ctl j = if j = h.next then Controller.new k else h.ctl j := rfl

@[simp]
theorem record_next (e : Event) : (h.record e).next = h.next := rfl
@[simp]
theorem record_trace (e : Event) : (h.record e).trace = h.trace ++ [e] := rfl
@[simp]
theorem record_ctl (e : Event) : (h.record e).ctl j = h.ctl j := rfl

@[simp]
theorem linkChild_next (v : Option Nat) : (linkChild i v h).next = h.next := by
  unfold linkChild; dsimp only; split <;> split <;> simp
@[simp]
theorem linkChild_trace (v : Option Nat) : (linkChild i v h).trace = h.trace := by
  unfold linkChild; dsimp only; split <;> split <;> simp
@[simp]
theorem linkChild_child (v : Option Nat) :
    ((linkChild i v h).ctl j).child = if j = i then v else (h.ctl j).child := by
  unfold linkChild; dsimp only; split <;> split <;> simp
@[simp]
theorem linkChild_cur (v : Option Nat) :
    ((linkChild i v h).ctl j).currentState = (h.ctl j).currentState := by
  unfold linkChild; dsimp only; split <;> split <;> simp
@[simp]
theorem linkChild_cls (v : Option Nat) :
    ((linkChild i v h).ctl j).cls = (h.ctl j).cls := by
  unfold linkChild; dsimp only; split <;> split <;> simp

end access

/-! ## Frames -/

theorem SameCore.rfl_ (a : Controller) : SameCore a a := ⟨rfl, rfl, rfl⟩

theorem SameCore.transCore {a b c : Controller} (h1 : SameCore a b) (h2 : SameCore b c) :
    SameCore a c :=
  ⟨h1.1.trans h2.1, h1.2.1.trans h2.2.1, h1.2.2.trans h2.2.2⟩

theorem Frame.refl_ (h : Heap) (S : List Nat) : Frame h h S :=
  ⟨le_refl _, fun z _ _ => SameCore.rfl_ _, [], by simp, by simp⟩

theorem Frame.trans_ {h h1 h2 : Heap} {S T : List Nat} (f1 : Frame h h1 S) (f2 : Frame h1 h2 T)
    (hT : ∀ y ∈ T, y ∈ S ∨ h.next ≤ y) : Frame h h2 S := by
  obtain ⟨n1, c1, evs1, t1, e1⟩ := f1
  obtain ⟨n2, c2, evs2, t2, e2⟩ := f2
  refine ⟨le_trans n1 n2, ?_, evs1 ++ evs2, by simp [t2, t1], ?_⟩
  · intro z hz hzS
    have hzT : z ∉ T := by
      intro hm
      rcases hT z hm with h' | h'
      · exact hzS h'
      · omega
    exact SameCore.transCore (c2 z (by omega) hzT) (c1 z hz hzS)
  · intro e he
    rcases List.mem_append.mp he with he | he
    · exact e1 e he
    · rcases e2 e he with h' | h'
      · exact hT _ h'
      · right; omega

theorem Frame.mono {h k : Heap} {S T : List Nat} (f : Frame h k S) (hST : ∀ y ∈ S, y ∈ T) :
    Frame h k T := by
  obtain ⟨n1, c1, evs1, t1, e1⟩ := f
  refine ⟨n1, fun z hz hzT => c1 z hz (fun hm => hzT (hST z hm)), evs1, t1, ?_⟩
  intro e he
  rcases e1 e he with h' | h'
  · exact Or.inl (hST _ h')
  · exact Or.inr h'

theorem Hook.run_frame (f : Hook) (x : Nat) (h : Heap) : Frame h (f.run x h).1 [x] := by
  unfold Hook.run
  split
  · refine ⟨by simp, ?_, [], by simp, by simp⟩
    intro z hz hzx
    have h1 : z ≠ x := by simpa using hzx
    have h2 : z ≠ h.next := by omega
    simp [SameCore, h1, h2]
  · exact Frame.refl_ _ _

theorem Hook.run_snd (f : Hook) (x : Nat) (h : Heap) : (f.run x h).2 = f.ret := by
  unfold Hook.run; split <;> rfl

theorem setCurrentState_frame (h : Heap) (x : Nat) (s : State) :
    Frame h (h.setCurrentState x s) [x] := by
  refine ⟨by simp, ?_, [], by simp, by simp⟩
  intro z _ hzx
  have h1 : z ≠ x := by simpa using hzx
  simp [SameCore, h1]

theorem linkChild_frame (h : Heap) (x : Nat) (v : Option Nat) :
    Frame h (linkChild x v h) [x] := by
  refine ⟨by simp, ?_, [], by simp, by simp⟩
  intro z _ hzx
  have h1 : z ≠ x := by simpa using hzx
  simp [SameCore, h1]

theorem record_frame (h : Heap) (x : Nat) (m : String) :
    Frame h (h.record ⟨x, m⟩) [x] := by
  refine ⟨by simp, ?_, [⟨x, m⟩], by simp, by simp⟩
  intro z _ _
  simp [SameCore]

theorem frame_self {h h1 h2 : Heap} {x : Nat} (f1 : Frame h h1 [x]) (f2 : Frame h1 h2 [x]) :
    Frame h h2 [x] :=
  Frame.trans_ f1 f2 (fun _ hy => Or.inl hy)

theorem enter_frame (M : Methods) (x : Nat) (s : State) (h : Heap) :
    Frame h (enter M x s h).1 [x] := by
  unfold enter
  dsimp only
  split
  · exact setCurrentState_frame _ _ _
  · split
    · exact setCurrentState_frame _ _ _
    · exact frame_self (frame_self (setCurrentState_frame _ _ _) (record_frame _ _ _))
        (Hook.run_frame _ _ _)

theorem leave_frame (M : Methods) (x : Nat) (h : Heap) :
    Frame h (leave M x h).1 [x] := by
  unfold leave
  split
  · exact Frame.refl_ _ _
  · split
    · exact Frame.refl_ _ _
    · dsimp only
      split <;> exact frame_self (record_frame _ _ _) (Hook.run_frame _ _ _)

theorem myLeave_frame (M : Methods) (x : Nat) (h : Heap) :
    Frame h (myLeave M x h).1 [x] := by
  unfold myLeave
  split
  · exact frame_self (frame_self (leave_frame M x h) (setCurrentState_frame _ _ _))
      (linkChild_frame _ _ _)
  · exact Frame.refl_ _ _

theorem myEnter_frame (M : Methods) (x : Nat) (s : State) (h : Heap) :
    Frame h (myEnter M x s h).1 [x] := by
  unfold myEnter
  split
  · exact frame_self (setCurrentState_frame _ _ _) (enter_frame _ _ _ _)
  · exact Frame.refl_ _ _

/-! ## What a step does to the controller it runs on -/

theorem Hook.run_self (f : Hook) (x : Nat) (h : Heap) (hx : x < h.next) :
    ((f.run x h).1.ctl x).cls = (h.ctl x).cls ∧
    ((f.run x h).1.ctl x).currentState = (h.ctl x).currentState := by
  have hne : x ≠ h.next := by omega
  unfold Hook.run
  split
  · simp [hne]
  · exact ⟨rfl, rfl⟩

theorem Hook.run_child (f : Hook) (x : Nat) (h : Heap) (hx : x < h.next) (c : Nat)
    (hc : ((f.run x h).1.ctl x).child = some c) :
    ((h.ctl x).child = some c ∧ (f.run x h).1 = h) ∨
    (c = h.next ∧ ((f.run x h).1.ctl c).child = none ∧ c < (f.run x h).1.next) := by
  have hne : h.next ≠ x := by omega
  unfold Hook.run at hc ⊢
  cases hk : f.newChild with
  | some k =>
    right
    simp only [hk] at hc ⊢
    simp at hc
    subst hc
    simp [hne, Controller.new]
  | none =>
    left
    simp only [hk] at hc ⊢
    exact ⟨hc, trivial⟩

theorem enter_self (M : Methods) (x : Nat) (s : State) (h : Heap) (hx : x < h.next) :
    ((enter M x s h).1.ctl x).cls = (h.ctl x).cls ∧
    ((enter M x s h).1.ctl x).currentState = s := by
  unfold enter
  dsimp only
  split
  · simp
  · split
    · simp
    · rename_i m _ _ f _
      have := Hook.run_self f x ((h.setCurrentState x s).record ⟨x, m⟩) (by simpa using hx)
      simpa using this

theorem leave_self (M : Methods) (x : Nat) (h : Heap) (hx : x < h.next) :
    ((leave M x h).1.ctl x).cls = (h.ctl x).cls ∧
    ((leave M x h).1.ctl x).currentState = (h.ctl x).currentState := by
  unfold leave
  split
  · simp
  · split
    · simp
    · rename_i m _ _ f _
      have := Hook.run_self f x (h.record ⟨x, m⟩) (by simpa using hx)
      dsimp only
      split <;> simpa using this

theorem myLeave_falsy (M : Methods) (x : Nat) (h : Heap)
    (hf : (h.ctl x).currentState.truthy = false) : myLeave M x h = (h, .resolved) := by
  unfold myLeave; simp [hf]

theorem myLeave_truthy (M : Methods) (x : Nat) (h : Heap)
    (ht : (h.ctl x).currentState.truthy = true) :
    ((myLeave M x h).1.ctl x).currentState = .null ∧ ((myLeave M x h).1.ctl x).child = none := by
  unfold myLeave; simp [ht]

theorem myLeave_cls (M : Methods) (x : Nat) (h : Heap) (hx : x < h.next) :
    ((myLeave M x h).1.ctl x).cls = (h.ctl x).cls := by
  unfold myLeave
  split
  · simpa using (leave_self M x h hx).1
  · rfl

theorem myEnter_falsy (M : Methods) (x : Nat) (s : State) (h : Heap)
    (hf : s.truthy = false) : myEnter M x s h = (h, .resolved) := by
  unfold myEnter; simp [hf]

theorem myEnter_self (M : Methods) (x : Nat) (s : State) (h : Heap) (hx : x < h.next) :
    ((myEnter M x s h).1.ctl x).cls = (h.ctl x).cls ∧
    (s.truthy = true → ((myEnter M x s h).1.ctl x).currentState = s) := by
  unfold myEnter
  split
  · have := enter_self M x s (h.setCurrentState x s) (by simpa using hx)
    simp at this
    exact ⟨this.1, fun _ => this.2⟩
  · rename_i hf
    exact ⟨rfl, fun ht => absurd ht hf⟩

theorem enter_child (M : Methods) (x : Nat) (s : State) (h : Heap) (hx : x < h.next) (c : Nat)
    (hc : ((enter M x s h).1.ctl x).child = some c) :
    ((h.ctl x).child = some c ∧ ((enter M x s h).1.ctl c).child = (h.ctl c).child) ∨
    (h.next ≤ c ∧ ((enter M x s h).1.ctl c).child = none ∧ c < (enter M x s h).1.next) := by
  unfold enter at hc ⊢
  dsimp only at hc ⊢
  split
  · rename_i hn
    simp only [hn] at hc
    left; simpa using hc
  · rename_i m hn
    simp only [hn] at hc
    split
    · rename_i hm
      simp only [hm] at hc
      left; simpa using hc
    · rename_i f hm
      simp only [hm] at hc
      rcases Hook.run_child f x ((h.setCurrentState x s).record ⟨x, m⟩) (by simpa using hx) c hc
        with ⟨h1, h2⟩ | ⟨h1, h2, h3⟩
      · left
        rw [h2]
        simpa using h1
      · right
        refine ⟨?_, h2, h3⟩
        simp at h1
        omega

theorem myEnter_child (M : Methods) (x : Nat) (s : State) (h : Heap) (hx : x < h.next) (c : Nat)
    (hc : ((myEnter M x s h).1.ctl x).child = some c) :
    ((h.ctl x).child = some c ∧ ((myEnter M x s h).1.ctl c).child = (h.ctl c).child) ∨
    (h.next ≤ c ∧ ((myEnter M x s h).1.ctl c).child = none ∧ c < (myEnter M x s h).1.next) := by
  unfold myEnter at hc ⊢
  split
  · rename_i ht
    simp only [ht, if_true] at hc
    have := enter_child M x s (h.setCurrentState x s) (by simpa using hx) c hc
    simpa using this
  · rename_i hf
    simp only [hf] at hc
    left
    exact ⟨by simpa using hc, rfl⟩

/-! ## The pipeline on a well-formed chain -/

theorem andThen_cases (r : Heap × Outcome) (next : Heap → Heap × Outcome) :
    (r.2 = .resolved ∧ andThen r next = next r.1) ∨ (r.2 ≠ .resolved ∧ andThen r next = r) := by
  unfold andThen
  obtain ⟨k, o⟩ := r
  cases o <;> simp

theorem inThen_resolved {o : Outcome} (ho : o.inThen = .resolved) : o = .resolved := by
  cases o <;> simp [Outcome.inThen] at ho ⊢

theorem WellFormed.tail {h : Heap} {x c : Nat} {q : List Nat} (w : WellFormed h x (c :: q)) :
    (h.ctl x).child = some c ∧ WellFormed h c q ∧ x ∉ c :: q := by
  obtain ⟨hc, hn, ha⟩ := w
  refine ⟨hc.1, ⟨hc.2, (List.nodup_cons.mp hn).2, fun y hy => ha y (List.mem_cons_of_mem _ hy)⟩,
    (List.nodup_cons.mp hn).1⟩

theorem WellFormed.nil_child {h : Heap} {x : Nat} (w : WellFormed h x []) :
    (h.ctl x).child = none := w.1

theorem WellFormed.lt {h : Heap} {x : Nat} {p : List Nat} (w : WellFormed h x p) :
    x < h.next := w.2.2 x (List.mem_cons_self _ _)

theorem WellFormed.single {h : Heap} {c : Nat} (hc : (h.ctl c).child = none) (hl : c < h.next) :
    WellFormed h c [] :=
  ⟨hc, by simp, by simpa using hl⟩

theorem Frame.self_core {h k : Heap} {S : List Nat} {x : Nat} (f : Frame h k S)
    (hx : x < h.next) (hS : x ∉ S) : SameCore (k.ctl x) (h.ctl x) := f.2.1 x hx hS

theorem Matches.child_none {h : Heap} {x : Nat} {s : State} (m : Matches h x [s]) :
    (h.ctl x).child = none := by
  simp [Matches] at m
  exact m.2

theorem childLeave_spec {recur : Nat → List State → Heap → Heap × Outcome}
    (ih : RecurSpec recur) {h : Heap} {x : Nat} {p : List Nat} (w : WellFormed h x p) :
    Frame h (childLeave recur x h).1 p ∧
    ((childLeave recur x h).2 = .resolved → ∀ c, (h.ctl x).child = some c →
      c ∈ p ∧ ((childLeave recur x h).1.ctl c).child = none) := by
  cases p with
  | nil =>
    have hc := w.nil_child
    unfold childLeave
    simp only [hc]
    exact ⟨Frame.refl_ _ _, fun _ c hcc => by simp at hcc⟩
  | cons c q =>
    obtain ⟨hc, wc, _⟩ := w.tail
    unfold childLeave
    simp only [hc]
    obtain ⟨f, m⟩ := ih c [.null] h q wc
    refine ⟨f, fun hr c1 hc1 => ?_⟩
    have hcc : c = c1 := by simpa using hc1
    subst hcc
    exact ⟨List.mem_cons_self _ _, (m (inThen_resolved hr)).child_none⟩

theorem prefix_spec (M : Methods) {recur : Nat → List State → Heap → Heap × Outcome}
    (ih : RecurSpec recur) {h : Heap} {x : Nat} {p : List Nat} (w : WellFormed h x p)
    (st : State) :
    Frame h (andThen (andThen (childLeave recur x h) (myLeave M x)) (myEnter M x st)).1 (x :: p) ∧
    ((andThen (andThen (childLeave recur x h) (myLeave M x)) (myEnter M x st)).2 = .resolved →
      (st.truthy = true →
        ((andThen (andThen (childLeave recur x h) (myLeave M x)) (myEnter M x st)).1.ctl x).currentState
          = st) ∧
      ∀ c, ((andThen (andThen (childLeave recur x h) (myLeave M x)) (myEnter M x st)).1.ctl x).child
          = some c →
        ((andThen (andThen (childLeave recur x h) (myLeave M x)) (myEnter M x st)).1.ctl c).child = none
        ∧ c ≠ x
        ∧ c < (andThen (andThen (childLeave recur x h) (myLeave M x)) (myEnter M x st)).1.next
        ∧ (c ∈ p ∨ h.next ≤ c)) := by
  have hx := w.lt
  have hxp : x ∉ p := (List.nodup_cons.mp w.2.1).1
  obtain ⟨f1, c1⟩ := childLeave_spec ih w
  have f1x : Frame h (childLeave recur x h).1 (x :: p) :=
    f1.mono (fun y hy => List.mem_cons_of_mem _ hy)
  have core1 := f1.self_core hx hxp
  have hx1 : x < (childLeave recur x h).1.next := lt_of_lt_of_le hx f1.1
  rcases andThen_cases (childLeave recur x h) (myLeave M x) with ⟨r1, e1⟩ | ⟨r1, e1⟩
  swap
  · -- the teardown of the child failed
    have e2 : andThen (andThen (childLeave recur x h) (myLeave M x)) (myEnter M x st)
        = childLeave recur x h := by
      rw [e1]
      rcases andThen_cases (childLeave recur x h) (myEnter M x st) with ⟨r, _⟩ | ⟨_, e⟩
      · exact absurd r r1
      · exact e
    rw [e2]
    exact ⟨f1x, fun hr => absurd hr r1⟩
  rw [e1]
  have f2 := myLeave_frame M x (childLeave recur x h).1
  have f2x : Frame h (myLeave M x (childLeave recur x h).1).1 (x :: p) :=
    Frame.trans_ f1x f2 (fun y hy => Or.inl (by simp at hy; simp [hy]))
  have hx2 : x < (myLeave M x (childLeave recur x h).1).1.next := lt_of_lt_of_le hx f2x.1
  -- the child of `x` after its own leave step
  have c2 : ∀ c, ((myLeave M x (childLeave recur x h).1).1.ctl x).child = some c →
      c ∈ p ∧ ((myLeave M x (childLeave recur x h).1).1.ctl c).child = none := by
    intro c hc
    cases ht : ((childLeave recur x h).1.ctl x).currentState.truthy with
    | true =>
      have := (myLeave_truthy M x _ ht).2
      rw [this] at hc
      exact absurd hc (by simp)
    | false =>
      rw [myLeave_falsy M x _ ht] at hc ⊢
      have hc0 : (h.ctl x).child = some c := by rw [← core1.2.2]; exact hc
      exact c1 r1 c hc0
  rcases andThen_cases (myLeave M x (childLeave recur x h).1) (myEnter M x st) with
    ⟨r2, e2⟩ | ⟨r2, e2⟩
  swap
  · rw [e2]
    exact ⟨f2x, fun hr => absurd hr r2⟩
  rw [e2]
  have f3 := myEnter_frame M x st (myLeave M x (childLeave recur x h).1).1
  have f3x : Frame h (myEnter M x st (myLeave M x (childLeave recur x h).1).1).1 (x :: p) :=
    Frame.trans_ f2x f3 (fun y hy => Or.inl (by simp at hy; simp [hy]))
  refine ⟨f3x, fun _ => ⟨(myEnter_self M x st _ hx2).2, fun c hc => ?_⟩⟩
  rcases myEnter_child M x st _ hx2 c hc with ⟨h1, h2⟩ | ⟨h1, h2, h3⟩
  · obtain ⟨hm, hn⟩ := c2 c h1
    have hcx : c ≠ x := fun e => hxp (e ▸ hm)
    have hcl : c < h.next := w.2.2 c (List.mem_cons_of_mem _ hm)
    exact ⟨by rw [h2]; exact hn, hcx, lt_of_lt_of_le hcl f3x.1, Or.inl hm⟩
  · have hle : h.next ≤ c := le_trans f2x.1 h1
    exact ⟨h2, by omega, h3, Or.inr hle⟩

theorem statesEqual_self {s : State} (hv : s.valid = true) : statesEqual s s = .ok true := by
  cases s with
  | null => simp [State.valid] at hv
  | undefined => simp [State.valid] at hv
  | str a => simp [statesEqual, State.isObject, State.strictEq]
  | obj o =>
    simp only [State.valid] at hv
    simp [statesEqual, State.isObject, State.truthy, State.hasIsStateEqual, hv]

theorem State.valid_truthy {s : State} (hv : s.valid = true) : s.truthy = true := by
  cases s <;> simp_all [State.valid, State.truthy]

theorem childEnter_spec {recur : Nat → List State → Heap → Heap × Outcome}
    (ih : RecurSpec recur) {h k : Heap} {x : Nat} {p : List Nat} (args : List State)
    (f : Frame h k (x :: p)) (hx : x < k.next)
    (hc : ∀ c, (k.ctl x).child = some c →
      ∃ q, WellFormed k c q ∧ x ∉ c :: q ∧ ∀ y ∈ c :: q, y ∈ x :: p ∨ h.next ≤ y)
    (hs : ∀ s rest, args = s :: rest → s.valid = true →
      statesEqual (k.ctl x).currentState s = .ok true) :
    Frame h (childEnter recur x args k).1 (x :: p) ∧
    ((childEnter recur x args k).2 = .resolved → Matches (childEnter recur x args k).1 x args) := by
  unfold childEnter
  split
  · rename_i hlen
    cases hch : (k.ctl x).child with
    | none => exact ⟨f, fun hr => by simp at hr⟩
    | some c =>
      dsimp only
      obtain ⟨q, wq, hxq, hsub⟩ := hc c hch
      obtain ⟨fr, mr⟩ := ih c (args.drop 1) k q wq
      refine ⟨Frame.trans_ f fr hsub, fun hr => ?_⟩
      have core := fr.self_core hx hxq
      match args, hlen, hs with
      | s :: s2 :: rest, _, hs =>
        have hm := mr (inThen_resolved hr)
        simp only [List.drop_succ_cons, List.drop_zero] at hm core ⊢
        refine ⟨fun hv => ?_, c, ?_, hm⟩
        · rw [core.2.1]; exact hs s _ rfl hv
        · rw [core.2.2]; exact hch
  · rename_i hlen
    cases hch : (k.ctl x).child with
    | some c => exact ⟨f, fun hr => by simp at hr⟩
    | none =>
      refine ⟨f, fun _ => ?_⟩
      match args, hlen, hs with
      | [], _, _ => exact hch
      | [s], _, hs => exact ⟨fun hv => hs s _ rfl hv, hch⟩
      | _ :: _ :: _, hlen, _ => simp at hlen

theorem state_spec (M : Methods) : ∀ n, RecurSpec (state M n) := by
  intro n
  induction n with
  | zero =>
    intro c args h q _
    exact ⟨Frame.refl_ _ _, fun hr => by simp [state] at hr⟩
  | succ n ih =>
    intro x args h p w
    have hx := w.lt
    unfold state
    cases he : statesEqual (h.ctl x).currentState (args.headD .undefined) with
    | error e => exact ⟨Frame.refl_ _ _, fun hr => by simp at hr⟩
    | ok b =>
      cases b with
      | true =>
        dsimp only
        refine childEnter_spec ih args (Frame.refl_ _ _) hx ?_ ?_
        · intro c hc
          cases p with
          | nil => rw [w.nil_child] at hc; exact absurd hc (by simp)
          | cons c1 q =>
            obtain ⟨h1, h2, h3⟩ := w.tail
            have hcc : c1 = c := by rw [h1] at hc; simpa using hc
            subst hcc
            exact ⟨q, h2, h3, fun y hy => Or.inl (List.mem_cons_of_mem _ hy)⟩
        · intro s rest ha _
          subst ha
          simpa using he
      | false =>
        dsimp only
        obtain ⟨fp, hp⟩ := prefix_spec M ih w (args.headD .undefined)
        rcases andThen_cases
          (andThen (andThen (childLeave (state M n) x h) (myLeave M x))
            (myEnter M x (args.headD .undefined)))
          (childEnter (state M n) x args) with ⟨r, e⟩ | ⟨r, e⟩
        swap
        · rw [e]
          exact ⟨fp, fun hr => absurd hr r⟩
        rw [e]
        obtain ⟨hcur, hchild⟩ := hp r
        refine childEnter_spec ih args fp (lt_of_lt_of_le hx fp.1) ?_ ?_
        · intro c hc
          obtain ⟨h1, h2, h3, h4⟩ := hchild c hc
          refine ⟨[], WellFormed.single h1 h3, by simpa using Ne.symm h2, fun y hy => ?_⟩
          have hyc : y = c := by simpa using hy
          subst hyc
          rcases h4 with h4 | h4
          · exact Or.inl (List.mem_cons_of_mem _ h4)
          · exact Or.inr h4
        · intro s rest ha hv
          subst ha
          have ht := State.valid_truthy hv
          have := hcur (by simpa using ht)
          simp only [List.headD_cons] at this ⊢
          rw [this]
          exact statesEqual_self hv

/-! ## Tearing a chain down -/

theorem andThen_resolved {r : Heap × Outcome} {k : Heap} (hr : r = (k, .resolved))
    (next : Heap → Heap × Outcome) : andThen r next = next k := by
  subst hr; rfl

theorem andThen_failed {r : Heap × Outcome} (hr : r.2 ≠ .resolved)
    (next : Heap → Heap × Outcome) : andThen r next = r := by
  rcases andThen_cases r next with ⟨h1, _⟩ | ⟨_, h2⟩
  · exact absurd h1 hr
  · exact h2

theorem statesEqual_falsy_right (a b : State) (ha : a.truthy = true) (hb : b.truthy = false) :
    statesEqual a b = .ok false := by
  cases a <;> cases b <;> simp_all [statesEqual, State.truthy, State.strictEq]

theorem stateMethodName_truthy (pfx : String) {s : State} (hs : s.truthy = true) :
    ∃ name, stateMethodName pfx s = .ok name := by
  cases s <;> simp_all [stateMethodName, State.truthy]

theorem leaveEvent_congr (M : Methods) {h k : Heap} {y : Nat}
    (c : SameCore (k.ctl y) (h.ctl y)) : leaveEvent M k y = leaveEvent M h y := by
  unfold leaveEvent; rw [c.1, c.2.1]

theorem LeaveOk.congr {M : Methods} {h k : Heap} {y : Nat}
    (c : SameCore (k.ctl y) (h.ctl y)) (l : LeaveOk M h y) : LeaveOk M k y := by
  unfold LeaveOk at l ⊢; rw [c.1, c.2.1]; exact l

theorem myLeave_ok (M : Methods) (x : Nat) (h : Heap) (hx : x < h.next)
    (ht : (h.ctl x).currentState.truthy = true) (l : LeaveOk M h x) :
    ∃ k, myLeave M x h = (k, .resolved) ∧ k.trace = h.trace ++ leaveEvent M h x ∧
      Cleared h k [x] ∧ Frame h k [x] := by
  refine ⟨(myLeave M x h).1, ?_, ?_, ?_, myLeave_frame M x h⟩
  · obtain ⟨name, hn⟩ := stateMethodName_truthy "leave" ht
    refine Prod.ext rfl ?_
    show (myLeave M x h).2 = .resolved
    unfold myLeave leave
    simp only [ht, if_true, hn]
    cases hm : M (h.ctl x).cls name with
    | none => rfl
    | some f =>
      dsimp only
      rw [Hook.run_snd]
      have := l name f hn hm
      cases hr : f.ret <;> simp_all [HookRet.await]
  · obtain ⟨name, hn⟩ := stateMethodName_truthy "leave" ht
    unfold myLeave leave leaveEvent
    simp only [ht, if_true, hn]
    cases hm : M (h.ctl x).cls name with
    | none => simp
    | some f =>
      have ht : ∀ k : Heap, (f.run x k).1.trace = k.trace := by
        intro k; unfold Hook.run; split <;> simp
      dsimp only
      split <;> simp [ht]
  · intro y hy
    have hyx : y = x := by simpa using hy
    subst hyx
    exact ⟨(myLeave_truthy M y h ht).1, (myLeave_truthy M y h ht).2, myLeave_cls M y h hx⟩

theorem ChildrenReady.tailReady {M : Methods} {h : Heap} {x c : Nat} {q : List Nat}
    (r : ChildrenReady M h x (c :: q)) :
    (h.ctl x).child = some c ∧ ChildrenReady M h c q ∧ x ∉ c :: q ∧
      (h.ctl c).currentState.truthy = true ∧ LeaveOk M h c := by
  obtain ⟨w, a⟩ := r
  obtain ⟨h1, h2, h3⟩ := w.tail
  exact ⟨h1, ⟨h2, fun y hy => a y (List.mem_cons_of_mem _ hy)⟩, h3,
    (a c (List.mem_cons_self _ _)).1, (a c (List.mem_cons_self _ _)).2⟩

theorem Cleared.frame {h k k2 : Heap} {S : List Nat} {x : Nat} (c : Cleared h k S)
    (f : Frame k k2 [x]) (hS : ∀ y ∈ S, y < k.next) (hx : x ∉ S) : Cleared h k2 S := by
  intro y hy
  have hyx : y ∉ [x] := by
    intro hm
    have : y = x := by simpa using hm
    exact hx (this ▸ hy)
  obtain ⟨c1, c2, c3⟩ := f.self_core (hS y hy) hyx
  obtain ⟨d1, d2, d3⟩ := c y hy
  exact ⟨c2.trans d1, c3.trans d2, c1.trans d3⟩

theorem teardown (M : Methods) : ∀ (p : List Nat) (x : Nat) (h : Heap) (n : Nat),
    ChildrenReady M h x p → (h.ctl x).currentState.truthy = true → LeaveOk M h x →
    p.length < n →
    ∃ k, state M n x [.null] h = (k, .resolved) ∧
      k.trace = h.trace ++ leaveTrace M h (x :: p) ∧ Cleared h k (x :: p) ∧
      Frame h k (x :: p) := by
  intro p
  induction p with
  | nil =>
    intro x h n r ht l hn
    obtain ⟨m, rfl⟩ : ∃ m, n = m + 1 := ⟨n - 1, by omega⟩
    have hx := r.1.lt
    obtain ⟨k, e2, t2, c2, f2⟩ := myLeave_ok M x h hx ht l
    refine ⟨k, ?_, by simpa [leaveTrace] using t2, c2, f2⟩
    unfold state
    simp only [List.headD_cons, statesEqual_falsy_right _ .null ht rfl]
    have e1 : childLeave (state M m) x h = (h, .resolved) := by
      unfold childLeave; simp only [r.1.nil_child]
    rw [andThen_resolved e1, andThen_resolved e2,
      andThen_resolved (myEnter_falsy M x .null k rfl)]
    unfold childEnter
    simp [(c2 x (List.mem_cons_self _ _)).2.1]
  | cons c q ih =>
    intro x h n r ht l hn
    obtain ⟨m, rfl⟩ : ∃ m, n = m + 1 := ⟨n - 1, by simp at hn; omega⟩
    have hx := r.1.lt
    obtain ⟨hc, rc, hxq, htc, lc⟩ := r.tailReady
    obtain ⟨k1, e1, t1, c1, f1⟩ := ih c h m rc htc lc (by simp at hn; omega)
    have core := f1.self_core hx hxq
    have hx1 : x < k1.next := lt_of_lt_of_le hx f1.1
    obtain ⟨k, e2, t2, c2, f2⟩ := myLeave_ok M x k1 hx1 (by rw [core.2.1]; exact ht)
      (l.congr core)
    have hall : ∀ y ∈ c :: q, y < k1.next := fun y hy =>
      lt_of_lt_of_le (r.1.2.2 y (List.mem_cons_of_mem _ hy)) f1.1
    refine ⟨k, ?_, ?_, ?_, ?_⟩
    · unfold state
      simp only [List.headD_cons, statesEqual_falsy_right _ .null ht rfl]
      have e1 : childLeave (state M m) x h = (k1, .resolved) := by
        unfold childLeave; simp only [hc, e1]; rfl
      rw [andThen_resolved e1, andThen_resolved e2,
        andThen_resolved (myEnter_falsy M x .null k rfl)]
      unfold childEnter
      simp [(c2 x (List.mem_cons_self _ _)).2.1]
    · rw [t2, t1, leaveEvent_congr M core]
      simp [leaveTrace, List.append_assoc]
    · intro y hy
      rcases List.mem_cons.mp hy with hy | hy
      · subst hy
        obtain ⟨d1, d2, d3⟩ := c2 y (List.mem_cons_self _ _)
        exact ⟨d1, d2, d3.trans core.1⟩
      · exact (c1.frame f2 hall hxq) y hy
    · exact Frame.trans_ (f1.mono (fun y hy => List.mem_cons_of_mem _ hy)) f2
        (fun y hy => Or.inl (by simp at hy; simp [hy]))

/-! ## Transitions of a ready controller -/

theorem childLeave_ready (M : Methods) {h : Heap} {x : Nat} {p : List Nat} {n : Nat}
    (r : ChildrenReady M h x p) (hn : p.length ≤ n) :
    ∃ k, childLeave (state M n) x h = (k, .resolved) ∧
      k.trace = h.trace ++ leaveTrace M h p ∧ Cleared h k p ∧ Frame h k p := by
  cases p with
  | nil =>
    refine ⟨h, ?_, by simp [leaveTrace], fun y hy => by simp at hy, Frame.refl_ _ _⟩
    unfold childLeave; simp only [r.1.nil_child]
  | cons c q =>
    obtain ⟨hc, rc, _, htc, lc⟩ := r.tailReady
    obtain ⟨k, e, t, c1, f1⟩ := teardown M q c h n rc htc lc (by simpa using hn)
    refine ⟨k, ?_, t, c1, f1⟩
    unfold childLeave; simp only [hc, e]; rfl

theorem leaveEvent_falsy (M : Methods) {h : Heap} {x : Nat}
    (hf : (h.ctl x).currentState.truthy = false) : leaveEvent M h x = [] := by
  unfold leaveEvent; simp [hf]

theorem leave_phase (M : Methods) {h : Heap} {x : Nat} {p : List Nat} {n : Nat}
    (r : Ready M h x p) (hn : p.length ≤ n) :
    ∃ k, andThen (childLeave (state M n) x h) (myLeave M x) = (k, .resolved) ∧
      AfterLeave M h x p k := by
  obtain ⟨rc, l, hidle⟩ := r
  have hx := rc.1.lt
  have hxp : x ∉ p := (List.nodup_cons.mp rc.1.2.1).1
  obtain ⟨k1, e1, t1, c1, f1⟩ := childLeave_ready M rc hn
  have core := f1.self_core hx hxp
  have hx1 : x < k1.next := lt_of_lt_of_le hx f1.1
  have f1x : Frame h k1 (x :: p) := f1.mono (fun y hy => List.mem_cons_of_mem _ hy)
  rw [andThen_resolved e1]
  cases ht : (h.ctl x).currentState.truthy with
  | true =>
    obtain ⟨k, e2, t2, c2, f2⟩ := myLeave_ok M x k1 hx1 (by rw [core.2.1]; exact ht)
      (l.congr core)
    have f2x : Frame h k (x :: p) :=
      Frame.trans_ f1x f2 (fun y hy => Or.inl (by simp at hy; simp [hy]))
    obtain ⟨d1, d2, d3⟩ := c2 x (List.mem_cons_self _ _)
    refine ⟨k, e2, ?_, d2, d3.trans core.1, by rw [d1]; rfl, lt_of_lt_of_le hx f2x.1, ?_, f2x⟩
    · rw [t2, t1, leaveEvent_congr M core]
      simp [leaveTrace, List.append_assoc]
    · exact c1.frame f2 (fun y hy => lt_of_lt_of_le
        (rc.1.2.2 y (List.mem_cons_of_mem _ hy)) f1.1) hxp
  | false =>
    have hp := hidle ht
    subst hp
    have hk1 : k1 = h := by
      have : childLeave (state M n) x h = (h, .resolved) := by
        unfold childLeave; simp only [rc.1.nil_child]
      rw [this] at e1
      exact (Prod.mk.inj e1).1.symm
    subst hk1
    refine ⟨k1, myLeave_falsy M x k1 ht, ?_, rc.1.nil_child, rfl, ht, hx, c1, f1x⟩
    simp [leaveTrace, leaveEvent_falsy M ht]

theorem transition (M : Methods) {h : Heap} {x : Nat} {p : List Nat} {n : Nat}
    (r : Ready M h x p) (hn : p.length ≤ n) (args : List State)
    (hne : statesEqual (h.ctl x).currentState (args.headD .undefined) = .ok false) :
    ∃ k, AfterLeave M h x p k ∧
      state M (n + 1) x args h =
        andThen (myEnter M x (args.headD .undefined) k) (childEnter (state M n) x args) := by
  obtain ⟨k, e, a⟩ := leave_phase M r hn
  refine ⟨k, a, ?_⟩
  unfold state
  simp only [hne]
  rw [andThen_resolved e]

theorem Hook.run_none {f : Hook} (hf : f.newChild = none) (x : Nat) (h : Heap) :
    f.run x h = (h, f.ret) := by
  unfold Hook.run; simp [hf]

theorem Hook.run_some {f : Hook} {c : Nat} (hf : f.newChild = some c) (x : Nat) (h : Heap) :
    f.run x h = (linkChild x (some h.next) (h.alloc c), f.ret) := by
  unfold Hook.run; simp [hf]

theorem myEnter_missing (M : Methods) {x : Nat} {s : State} {k : Heap} {name : String}
    (ht : s.truthy = true) (hn : stateMethodName "enter" s = .ok name)
    (hm : M (k.ctl x).cls name = none) :
    myEnter M x s k = ((k.setCurrentState x s).setCurrentState x s,
      .rejected ("State method " ++ name ++ " does not exist")) := by
  unfold myEnter enter
  simp [ht, hn, hm, HookRet.await]

theorem myEnter_hook (M : Methods) {x : Nat} {s : State} {k : Heap} {name : String} {f : Hook}
    (ht : s.truthy = true) (hn : stateMethodName "enter" s = .ok name)
    (hm : M (k.ctl x).cls name = some f) :
    myEnter M x s k =
      ((f.run x (((k.setCurrentState x s).setCurrentState x s).record ⟨x, name⟩)).1,
        f.ret.await) := by
  unfold myEnter enter
  simp [ht, hn, hm, Hook.run_snd]

theorem ready_of_idle (M : Methods) {k : Heap} {c : Nat} (hc : (k.ctl c).child = none)
    (hs : (k.ctl c).currentState = .null) (hl : c < k.next) : Ready M k c [] := by
  refine ⟨⟨WellFormed.single hc hl, fun y hy => by simp at hy⟩, ?_, fun _ => rfl⟩
  intro name f hname
  rw [hs] at hname
  simp [stateMethodName] at hname

theorem statesEqual_falsy_left (a b : State) (ha : a.truthy = false) (hb : b.truthy = true) :
    statesEqual a b = .ok false := by
  cases a <;> cases b <;> simp_all [statesEqual, State.truthy, State.strictEq]
  rename_i s
  exact fun e => hb e.symm

theorem Hook.run_trace (f : Hook) (x : Nat) (h : Heap) : (f.run x h).1.trace = h.trace := by
  unfold Hook.run; split <;> simp

theorem myLeave_throws (M : Methods) {x : Nat} {k : Heap} {name e : String} {f : Hook}
    (ht : (k.ctl x).currentState.truthy = true)
    (hn : stateMethodName "leave" (k.ctl x).currentState = .ok name)
    (hm : M (k.ctl x).cls name = some f) (hf : f.ret = .throws e) :
    myLeave M x k =
      (linkChild x none ((f.run x (k.record ⟨x, name⟩)).1.setCurrentState x .null),
        .rejected e) := by
  unfold myLeave leave
  simp [ht, hn, hm, Hook.run_snd, hf, HookRet.await]

theorem childEnter_single_heap (recur : Nat → List State → Heap → Heap × Outcome)
    (x : Nat) (s : State) (k : Heap) : (childEnter recur x [s] k).1 = k := by
  unfold childEnter
  simp only [List.length_singleton, gt_iff_lt, lt_self_iff_false, if_false]
  split <;> rfl

theorem andThen_childEnter_single (r : Heap × Outcome)
    (recur : Nat → List State → Heap → Heap × Outcome) (x : Nat) (s : State) :
    (andThen r (childEnter recur x [s])).1 = r.1 := by
  rcases andThen_cases r (childEnter recur x [s]) with ⟨_, e⟩ | ⟨_, e⟩
  · rw [e, childEnter_single_heap]
  · rw [e]

theorem enter_with_child (M : Methods) {h : Heap} {x : Nat} {p : List Nat} {n : Nat}
    {st : State} {name : String} {f : Hook} {c1 : Nat}
    (r : Ready M h x p) (hn : p.length ≤ n) (s2 : State) (rest : List State)
    (hne : statesEqual (h.ctl x).currentState st = .ok false) (ht : st.truthy = true)
    (hname : stateMethodName "enter" st = .ok name)
    (hm : M (h.ctl x).cls name = some f) (hf : f.newChild = some c1) (hret : f.ret = .value) :
    ∃ k c, state M (n + 1) x (st :: s2 :: rest) h =
        ((state M n c (s2 :: rest) k).1, (state M n c (s2 :: rest) k).2.inThen) ∧
      k.trace = h.trace ++ leaveTrace M h (x :: p) ++ [⟨x, name⟩] ∧
      (k.ctl c).child = none ∧ (k.ctl c).currentState = .null ∧ (k.ctl c).cls = c1 ∧
      c < k.next ∧ h.next ≤ c ∧
      (k.ctl x).child = some c ∧ (k.ctl x).currentState = st := by
  obtain ⟨k, ⟨t, hch, hcls, _, hx, _, fr⟩, e⟩ :=
    transition M r hn (st :: s2 :: rest) (by simpa using hne)
  have hne2 : k.next ≠ x := by omega
  rw [← hcls] at hm
  simp only [List.headD_cons] at e
  rw [myEnter_hook M ht hname hm, Hook.run_some hf, hret] at e
  refine ⟨linkChild x (some k.next)
    ((((k.setCurrentState x st).setCurrentState x st).record ⟨x, name⟩).alloc c1), k.next,
    ?_, ?_, ?_, ?_, ?_, ?_, fr.1, ?_, ?_⟩
  · rw [e]
    simp [andThen, HookRet.await, childEnter]
  · simp [t]
  · simp [hne2, Controller.new]
  · simp [hne2, Controller.new]
  · simp [hne2, Controller.new]
  · simp
  · simp
  · simp [Ne.symm hne2]

theorem enter_last_trace (M : Methods) {h : Heap} {x : Nat} {p : List Nat} {n : Nat}
    {st : State} {name : String} {f : Hook}
    (r : Ready M h x p) (hn : p.length ≤ n)
    (hne : statesEqual (h.ctl x).currentState st = .ok false) (ht : st.truthy = true)
    (hname : stateMethodName "enter" st = .ok name)
    (hm : M (h.ctl x).cls name = some f) :
    (state M (n + 1) x [st] h).1.trace = h.trace ++ leaveTrace M h (x :: p) ++ [⟨x, name⟩] := by
  obtain ⟨k, ⟨t, _, hcls, _, _, _, _⟩, e⟩ := transition M r hn [st] (by simpa using hne)
  rw [← hcls] at hm
  simp only [List.headD_cons] at e
  rw [e, andThen_childEnter_single, myEnter_hook M ht hname hm, Hook.run_trace]
  simp [t]

/-! ## A resolved transition, stage by stage -/

theorem andThen_inv {r : Heap × Outcome} {next : Heap → Heap × Outcome} {k : Heap}
    (h : andThen r next = (k, .resolved)) :
    ∃ k1, r = (k1, .resolved) ∧ next k1 = (k, .resolved) := by
  rcases andThen_cases r next with ⟨h1, e⟩ | ⟨h1, e⟩
  · exact ⟨r.1, Prod.ext rfl h1, by rw [← e]; exact h⟩
  · rw [e] at h
    rw [h] at h1
    exact absurd rfl h1

theorem enter_ne_leave (a b : String) : "enter" ++ a ≠ "leave" ++ b := by
  intro h
  have := congrArg String.data h
  simp at this

theorem stateMethodName_pfx {pfx name : String} {s : State}
    (h : stateMethodName pfx s = .ok name) : ∃ t, name = pfx ++ t := by
  cases s with
  | null => simp [stateMethodName] at h
  | undefined => simp [stateMethodName] at h
  | str a => exact ⟨upperFirst a, by simp [stateMethodName] at h; exact h.symm⟩
  | obj o => exact ⟨upperFirst o.stateName, by simp [stateMethodName] at h; exact h.symm⟩

theorem myLeave_trace (M : Methods) (x : Nat) (k : Heap) :
    ∃ evs, (myLeave M x k).1.trace = k.trace ++ evs ∧ ∀ e ∈ evs, ∃ t, e.method = "leave" ++ t := by
  unfold myLeave
  split
  swap
  · exact ⟨[], by simp, by simp⟩
  unfold leave
  cases hn : stateMethodName "leave" (k.ctl x).currentState with
  | error e => exact ⟨[], by simp, by simp⟩
  | ok name =>
    cases hm : M (k.ctl x).cls name with
    | none => exact ⟨[], by simp [hm], by simp⟩
    | some f =>
      refine ⟨[⟨x, name⟩], ?_, ?_⟩
      · simp only [hm]
        split <;> simp [Hook.run_trace]
      · intro e he
        have : e = ⟨x, name⟩ := by simpa using he
        subst this
        exact stateMethodName_pfx hn

theorem myEnter_resolved (M : Methods) {x : Nat} {s : State} {k k3 : Heap} {name : String}
    (hx : x < k.next) (ht : s.truthy = true) (hn : stateMethodName "enter" s = .ok name)
    (h : myEnter M x s k = (k3, .resolved)) :
    k3.trace = k.trace ++ [⟨x, name⟩] ∧ (k3.ctl x).currentState = s := by
  have hcur := (myEnter_self M x s k hx).2 ht
  rw [h] at hcur
  refine ⟨?_, hcur⟩
  cases hm : M (k.ctl x).cls name with
  | none =>
    rw [myEnter_missing M ht hn hm] at h
    exact absurd (Prod.mk.inj h).2 (by simp)
  | some f =>
    rw [myEnter_hook M ht hn hm] at h
    rw [← (Prod.mk.inj h).1, Hook.run_trace]
    simp

theorem childEnter_single_resolved {recur : Nat → List State → Heap → Heap × Outcome}
    {x : Nat} {s : State} {k k2 : Heap} (h : childEnter recur x [s] k = (k2, .resolved)) :
    k2 = k ∧ (k.ctl x).child = none := by
  unfold childEnter at h
  simp only [List.length_singleton, gt_iff_lt, lt_self_iff_false, if_false] at h
  cases hc : (k.ctl x).child with
  | some c => rw [hc] at h; simp at h
  | none => rw [hc] at h; exact ⟨(Prod.mk.inj h).1.symm, rfl⟩

theorem myLeave_effect (M : Methods) (x : Nat) (h : Heap) (hx : x < h.next)
    (ht : (h.ctl x).currentState.truthy = true) :
    (myLeave M x h).1.trace = h.trace ++ leaveEvent M h x ∧ Cleared h (myLeave M x h).1 [x] := by
  constructor
  · obtain ⟨name, hn⟩ := stateMethodName_truthy "leave" ht
    unfold myLeave leave leaveEvent
    simp only [ht, if_true, hn]
    cases hm : M (h.ctl x).cls name with
    | none => simp
    | some f =>
      dsimp only
      split <;> simp [Hook.run_trace]
  · intro y hy
    have hyx : y = x := by simpa using hy
    subst hyx
    exact ⟨(myLeave_truthy M y h ht).1, (myLeave_truthy M y h ht).2, myLeave_cls M y h hx⟩

theorem teardown_resolved (M : Methods) : ∀ (p : List Nat) (x : Nat) (h : Heap) (n : Nat)
    (k : Heap), WellFormed h x p → (∀ y ∈ x :: p, (h.ctl y).currentState.truthy = true) →
    state M n x [.null] h = (k, .resolved) →
    k.trace = h.trace ++ leaveTrace M h (x :: p) ∧ Cleared h k (x :: p) := by
  intro p
  induction p with
  | nil =>
    intro x h n k w ht hr
    cases n with
    | zero => simp [state] at hr
    | succ n =>
      have hx := w.lt
      have htx := ht x (List.mem_cons_self _ _)
      unfold state at hr
      simp only [List.headD_cons, statesEqual_falsy_right _ .null htx rfl] at hr
      obtain ⟨k3, a3, e4⟩ := andThen_inv hr
      obtain ⟨k2, a2, e3⟩ := andThen_inv a3
      obtain ⟨k1, e1, e2⟩ := andThen_inv a2
      have hk1 : k1 = h := by
        unfold childLeave at e1
        simp only [w.nil_child] at e1
        exact (Prod.mk.inj e1).1.symm
      subst hk1
      rw [myEnter_falsy M x .null k2 rfl] at e3
      have hk3 : k3 = k2 := (Prod.mk.inj e3).1.symm
      subst hk3
      have hk : k = k3 := (childEnter_single_resolved e4).1
      subst hk
      have eff := myLeave_effect M x k1 hx htx
      rw [e2] at eff
      exact ⟨by simpa [leaveTrace] using eff.1, eff.2⟩
  | cons c q ih =>
    intro x h n k w ht hr
    cases n with
    | zero => simp [state] at hr
    | succ n =>
      have hx := w.lt
      have htx := ht x (List.mem_cons_self _ _)
      obtain ⟨hc, wc, hxq⟩ := w.tail
      unfold state at hr
      simp only [List.headD_cons, statesEqual_falsy_right _ .null htx rfl] at hr
      obtain ⟨k3, a3, e4⟩ := andThen_inv hr
      obtain ⟨k2, a2, e3⟩ := andThen_inv a3
      obtain ⟨k1, e1, e2⟩ := andThen_inv a2
      rw [myEnter_falsy M x .null k2 rfl] at e3
      have hk3 : k3 = k2 := (Prod.mk.inj e3).1.symm
      subst hk3
      have hk : k = k3 := (childEnter_single_resolved e4).1
      subst hk
      have ec : state M n c [.null] h = (k1, .resolved) := by
        unfold childLeave at e1
        simp only [hc] at e1
        exact Prod.ext (Prod.mk.inj e1).1 (inThen_resolved (Prod.mk.inj e1).2)
      obtain ⟨t1, c1⟩ := ih c h n k1 wc (fun y hy => ht y (List.mem_cons_of_mem _ hy)) ec
      have f1 : Frame h k1 (c :: q) := by
        have := (state_spec M n c [.null] h q wc).1
        rw [ec] at this
        exact this
      have core := f1.self_core hx hxq
      have hx1 : x < k1.next := lt_of_lt_of_le hx f1.1
      have eff := myLeave_effect M x k1 hx1 (by rw [core.2.1]; exact htx)
      have f2 := myLeave_frame M x k1
      rw [e2] at eff f2
      refine ⟨?_, ?_⟩
      · rw [eff.1, t1, leaveEvent_congr M core]
        simp [leaveTrace, List.append_assoc]
      · intro y hy
        rcases List.mem_cons.mp hy with hy | hy
        · subst hy
          obtain ⟨d1, d2, d3⟩ := eff.2 y (List.mem_cons_self _ _)
          exact ⟨d1, d2, d3.trans core.1⟩
        · exact (c1.frame f2 (fun z hz => lt_of_lt_of_le
            (w.2.2 z (List.mem_cons_of_mem _ hz)) f1.1) hxq) y hy

/-! ## Helper lemmas of the claims -/

theorem matches_list {h : Heap} : ∀ (rest : List State) (s : State) (x : Nat),
    Matches h x (s :: rest) → (∀ t ∈ s :: rest, t.valid = true) →
    ∀ fuel, (s :: rest).length ≤ fuel →
    ∃ l, getChildrenStateList h fuel x = some l ∧
      List.Forall₂ (fun a t => statesEqual a t = .ok true) l (s :: rest) := by
  intro rest
  induction rest with
  | nil =>
    intro s x m hv fuel hf
    obtain ⟨n, rfl⟩ : ∃ n, fuel = n + 1 := ⟨fuel - 1, by simp at hf; omega⟩
    simp only [Matches] at m
    refine ⟨[(h.ctl x).currentState], by simp [getChildrenStateList, m.2], ?_⟩
    exact List.Forall₂.cons (m.1 (hv s (List.mem_cons_self _ _))) List.Forall₂.nil
  | cons s2 rest ih =>
    intro s x m hv fuel hf
    obtain ⟨n, rfl⟩ : ∃ n, fuel = n + 1 := ⟨fuel - 1, by simp at hf; omega⟩
    simp only [Matches] at m
    obtain ⟨m1, c, hc, mc⟩ := m
    obtain ⟨l, hl, hall⟩ := ih s2 c mc (fun t ht => hv t (List.mem_cons_of_mem _ ht)) n
      (by simp at hf ⊢; omega)
    refine ⟨(h.ctl x).currentState :: l, by simp [getChildrenStateList, hc, hl], ?_⟩
    exact List.Forall₂.cons (m1 (hv s (List.mem_cons_self _ _))) hall

theorem sampleHooks_leaveOk (h : Heap) (y : Nat) : LeaveOk sampleHooks h y := by
  intro name f _ hm e
  unfold sampleHooks at hm
  split_ifs at hm <;> simp at hm <;> subst hm <;> simp

theorem sampleChain_wellFormed : WellFormed sampleChain 0 [1, 2] := by
  refine ⟨⟨by decide, by decide, (rfl : (sampleChain.ctl 2).child = none)⟩, by decide, ?_⟩
  intro y hy
  simp at hy
  rcases hy with rfl | rfl | rfl <;> decide

theorem sampleChain_childrenReady : ChildrenReady sampleHooks sampleChain 0 [1, 2] := by
  refine ⟨sampleChain_wellFormed, ?_⟩
  intro y hy
  simp at hy
  rcases hy with rfl | rfl
  · exact ⟨by decide, sampleHooks_leaveOk _ _⟩
  · exact ⟨by decide, sampleHooks_leaveOk _ _⟩

theorem sampleChain_ready : Ready sampleHooks sampleChain 0 [1, 2] :=
  ⟨sampleChain_childrenReady, sampleHooks_leaveOk _ _, fun hf => absurd hf (by decide)⟩

theorem init_ready (M : Methods) : Ready M (Heap.init 1) 0 [] :=
  ready_of_idle M rfl rfl (by decide)

/-! ## The claims -/

/-- C1 (code defect): from three controllers without links, `c0.child = c1`
followed by `c2.child = c1` leaves `c0.child` pointing at `c1` while
`c1.parent` is `c2`: the `child` setter does not detach the new child from the
parent it already had, so parent/child consistency is lost. -/
theorem C1_child_setter_keeps_prior_parent :
    runAssigns [.child 0 (.controller 1), .child 2 (.controller 1)] (Heap.init 3) = .ok twoParents
      ∧ (twoParents.ctl 0).child = some 1 ∧ (twoParents.ctl 1).parent = some 2
      ∧ ¬ Consistent twoParents := by
  refine ⟨rfl, by decide, by decide, ?_⟩
  intro hc
  have h01 := (hc 0 1).mp (by decide)
  revert h01
  decide

/-- C2 (counterexample): on a new controller `state([''])` resolves, and
afterwards `getChildrenStateList()` is `[null]`, which is not equal to the
requested `''` under the state-equality rule: the empty string is falsy, so
`myEnter` skips it. -/
theorem C2_empty_string_not_entered :
    (state noHooks 2 0 [.str ""] (Heap.init 1)).2 = .resolved ∧
    getChildrenStateList (state noHooks 2 0 [.str ""] (Heap.init 1)).1 1 0 = some [.null] ∧
    statesEqual .null (.str "") = .ok false := by
  refine ⟨by decide, by decide, by decide⟩

/-- C2 (amended): for a controller above a finite chain of distinct
controllers and a non-empty requested chain of state identifiers (non-empty
strings, objects implementing `isStateEqual`), if `state(chain)` resolves then
`getChildrenStateList()` terminates with a list as long as the chain whose
i-th element equals the i-th requested state under `statesEqual`. -/
theorem C2_resolved_chain_matches (M : Methods) (n x : Nat) (s : State) (rest : List State)
    (h k : Heap) (p : List Nat) (w : WellFormed h x p)
    (hv : ∀ t ∈ s :: rest, t.valid = true)
    (hr : state M n x (s :: rest) h = (k, .resolved)) :
    ∀ fuel, (s :: rest).length ≤ fuel →
    ∃ l, getChildrenStateList k fuel x = some l ∧ l.length = (s :: rest).length ∧
      List.Forall₂ (fun a t => statesEqual a t = .ok true) l (s :: rest) := by
  intro fuel hf
  have hm := (state_spec M n x (s :: rest) h p w).2 (by rw [hr])
  rw [hr] at hm
  obtain ⟨l, hl, hall⟩ := matches_list rest s x hm hv fuel hf
  exact ⟨l, hl, hall.length_eq, hall⟩

/-- C2 (witness): a new controller of subclass `0` sent to `['a', 'b', 'c']`. -/
theorem C2_resolved_chain_matches_witness :
    ∃ l, getChildrenStateList
        (state sampleHooks 4 0 [.str "a", .str "b", .str "c"] (Heap.init 1)).1 3 0 = some l ∧
      l.length = 3 ∧
      List.Forall₂ (fun a t => statesEqual a t = .ok true) l [.str "a", .str "b", .str "c"] :=
  C2_resolved_chain_matches sampleHooks 4 0 (.str "a") [.str "b", .str "c"] (Heap.init 1) _ []
    ⟨by simp [IsChain, Heap.init, Controller.new], by decide, by decide⟩ (by decide)
    (Prod.ext rfl (by decide)) 3 (by decide)

/-- C3 (counterexample): the chain `0 → 1 → 2` in the states `x`, `y`, `z` is
sent to `['a', 'b', '']`, where subclass `2` has a method `enter`, the name of
the enter hook for `''`. The call resolves and the hook invocations are the
three leave hooks, `enterA` and `enterB`: no enter hook is invoked for the
third requested state, because `myEnter` runs only under `if (state)`. -/
theorem C3_empty_last_state_not_entered :
    stateMethodName "enter" (.str "") = .ok "enter" ∧
    sampleHooksEnter 2 "enter" = some ⟨none, .value⟩ ∧
    (state sampleHooksEnter 4 0 [.str "a", .str "b", .str ""] sampleChain).2 = .resolved ∧
    (state sampleHooksEnter 4 0 [.str "a", .str "b", .str ""] sampleChain).1.trace =
      [⟨2, "leaveZ"⟩, ⟨1, "leaveY"⟩, ⟨0, "leaveX"⟩, ⟨0, "enterA"⟩, ⟨3, "enterB"⟩] ∧
    ((state sampleHooksEnter 4 0 [.str "a", .str "b", .str ""] sampleChain).1.ctl 4).currentState
      = .null := by
  refine ⟨by decide, by decide, by decide, by decide, by decide⟩

/-- C3 (amended): a controller `r` above an active chain `p` (for depth 3, `p = [b, c]`)
is sent to truthy states `[a, b, c]` with `a` different from its current
state, where the enter hooks for `a` and `b` each construct a child and the
hooks complete normally. The hook invocations are then exactly: the leave hooks of the old chain deepest first (`leaveTrace`
lists `c`, `b`, `r` in that order, skipping a controller whose subclass has no
such hook), then `enter(a)` on `r`, `enter(b)` on the child constructed by
`enter(a)`, `enter(c)` on the child constructed by `enter(b)`. -/
theorem C3_hook_order (M : Methods) (h : Heap) (r : Nat) (p : List Nat) (n : Nat)
    (a b c : State) (na nb nc : String) (fa fb fc : Hook) (k1 k2 : Nat)
    (hr : Ready M h r p) (hn : p.length ≤ n) (hn2 : 2 ≤ n)
    (hne : statesEqual (h.ctl r).currentState a = .ok false)
    (ha : a.truthy = true) (hb : b.truthy = true) (hc : c.truthy = true)
    (hna : stateMethodName "enter" a = .ok na) (hnb : stateMethodName "enter" b = .ok nb)
    (hnc : stateMethodName "enter" c = .ok nc)
    (hfa : M (h.ctl r).cls na = some fa) (hka : fa.newChild = some k1) (hra : fa.ret = .value)
    (hfb : M k1 nb = some fb) (hkb : fb.newChild = some k2) (hrb : fb.ret = .value)
    (hfc : M k2 nc = some fc) :
    ∃ b1 c1, h.next ≤ b1 ∧ b1 < c1 ∧
      (state M (n + 1) r [a, b, c] h).1.trace =
        h.trace ++ leaveTrace M h (r :: p) ++ [⟨r, na⟩, ⟨b1, nb⟩, ⟨c1, nc⟩] := by
  obtain ⟨n1, rfl⟩ : ∃ n1, n = n1 + 1 := ⟨n - 1, by omega⟩
  obtain ⟨n2, rfl⟩ : ∃ n2, n1 = n2 + 1 := ⟨n1 - 1, by omega⟩
  obtain ⟨k, b1, e1, t1, hch1, hs1, hcl1, hl1, hge1, _, _⟩ :=
    enter_with_child M hr hn b [c] hne ha hna hfa hka hra
  have rb : Ready M k b1 [] := ready_of_idle M hch1 hs1 hl1
  have hfb1 : M (k.ctl b1).cls nb = some fb := by rw [hcl1]; exact hfb
  obtain ⟨k3, c1, e2, t2, hch2, hs2, hcl2, hl2, hge2, _, _⟩ :=
    enter_with_child M rb (Nat.zero_le (n2 + 1)) c []
      (by rw [hs1]; exact statesEqual_falsy_left _ _ rfl hb) hb hnb hfb1 hkb hrb
  have rc : Ready M k3 c1 [] := ready_of_idle M hch2 hs2 hl2
  have hfc1 : M (k3.ctl c1).cls nc = some fc := by rw [hcl2]; exact hfc
  have t3 := enter_last_trace M rc (Nat.zero_le n2)
    (by rw [hs2]; exact statesEqual_falsy_left _ _ rfl hc) hc hnc hfc1
  refine ⟨b1, c1, hge1, by omega, ?_⟩
  rw [e1]
  dsimp only
  rw [e2]
  dsimp only
  rw [t3, t2, t1]
  simp [leaveTrace, leaveEvent_falsy M (show (k3.ctl c1).currentState.truthy = false by rw [hs2]; rfl),
    leaveEvent_falsy M (show (k.ctl b1).currentState.truthy = false by rw [hs1]; rfl)]

/-- C3 (witness): the chain `0 → 1 → 2` in the states `x`, `y`, `z`, sent to
`['a', 'b', 'c']`: the three leave hooks, innermost first, then the three
enter hooks. -/
theorem C3_hook_order_witness :
    ∃ b1 c1, sampleChain.next ≤ b1 ∧ b1 < c1 ∧
      (state sampleHooks 4 0 [.str "a", .str "b", .str "c"] sampleChain).1.trace =
        [⟨2, "leaveZ"⟩, ⟨1, "leaveY"⟩, ⟨0, "leaveX"⟩,
          ⟨0, "enterA"⟩, ⟨b1, "enterB"⟩, ⟨c1, "enterC"⟩] :=
  C3_hook_order sampleHooks sampleChain 0 [1, 2] 3 (.str "a") (.str "b") (.str "c")
    "enterA" "enterB" "enterC" ⟨some 1, .value⟩ ⟨some 2, .value⟩ ⟨none, .value⟩ 1 2
    sampleChain_ready (by decide) (by decide) (by decide) (by decide) (by decide) (by decide)
    (by decide) (by decide) (by decide) (by decide) rfl rfl (by decide) rfl rfl (by decide)

/-- C4 (counterexample): `state('')` twice on a new controller whose subclass
has a hook under every name: both calls resolve and no hook at all has been
invoked, so the enter hook for the requested state ran zero times, not once. -/
theorem C4_empty_string_never_entered :
    (state allHooks 1 0 [.str ""] (Heap.init 1)).2 = .resolved ∧
    statesEqual (.str "") (.str "") = .ok true ∧
    (state allHooks 1 0 [.str ""] (state allHooks 1 0 [.str ""] (Heap.init 1)).1).2 = .resolved ∧
    (state allHooks 1 0 [.str ""] (state allHooks 1 0 [.str ""] (Heap.init 1)).1).1.trace = [] := by
  refine ⟨by decide, by decide, by decide, by decide⟩

/-- C4 (amended): a controller above a finite chain of distinct controllers
is sent to a truthy state `X` different from its current state, and the call
resolves in the heap `k`. That call invoked the enter hook for `X` on the
controller exactly once, and left it in state `X`. A second call with a state
`X2` equal to `X` under `statesEqual` resolves with the heap unchanged (no
hook is invoked, `currentState` stays), and with a longer chain it is exactly
the dispatch of the chain to the child (`childEnter`) on the unchanged heap. -/
theorem C4_second_call_is_noop (M : Methods) (h k : Heap) (x : Nat) (p : List Nat) (n : Nat)
    (X X2 : State) (name : String)
    (w : WellFormed h x p) (ht : X.truthy = true)
    (hne : statesEqual (h.ctl x).currentState X = .ok false)
    (hname : stateMethodName "enter" X = .ok name)
    (hfirst : state M n x [X] h = (k, .resolved))
    (heq : statesEqual X X2 = .ok true) :
    k.trace.count ⟨x, name⟩ = h.trace.count ⟨x, name⟩ + 1 ∧
    (k.ctl x).currentState = X ∧
    (∀ m, state M (m + 1) x [X2] k = (k, .resolved)) ∧
    (∀ m rest, state M (m + 1) x (X2 :: rest) k = childEnter (state M m) x (X2 :: rest) k) := by
  cases n with
  | zero => simp [state] at hfirst
  | succ n =>
    have hx := w.lt
    have hxp : x ∉ p := (List.nodup_cons.mp w.2.1).1
    unfold state at hfirst
    simp only [List.headD_cons, hne] at hfirst
    obtain ⟨k3, e3, e4⟩ := andThen_inv hfirst
    obtain ⟨k2, e2, e3⟩ := andThen_inv e3
    obtain ⟨k1, e1, e2⟩ := andThen_inv e2
    obtain ⟨hk, hch⟩ := childEnter_single_resolved e4
    subst hk
    -- the teardown of the children records nothing on `x`
    have f1 : Frame h k1 p := by
      have := (childLeave_spec (state_spec M n) w).1
      rw [e1] at this
      exact this
    obtain ⟨n1, _, evs1, t1, m1⟩ := f1
    have c1 : evs1.count ⟨x, name⟩ = 0 := by
      apply List.count_eq_zero_of_not_mem
      intro hm
      rcases m1 _ hm with h1 | h1
      · exact hxp h1
      · simp at h1; omega
    -- the leave hook of `x` is not its enter hook
    obtain ⟨evs2, t2, m2⟩ := myLeave_trace M x k1
    rw [e2] at t2
    have c2 : evs2.count ⟨x, name⟩ = 0 := by
      apply List.count_eq_zero_of_not_mem
      intro hm
      obtain ⟨t, ht2⟩ := m2 _ hm
      obtain ⟨t3, ht3⟩ := stateMethodName_pfx hname
      simp only at ht2
      rw [ht3] at ht2
      exact enter_ne_leave _ _ ht2
    have f2 := myLeave_frame M x k1
    rw [e2] at f2
    have hx2 : x < k2.next := lt_of_lt_of_le (lt_of_lt_of_le hx n1) f2.1
    obtain ⟨t3, hcur⟩ := myEnter_resolved M hx2 ht hname e3
    have hfast : statesEqual (k.ctl x).currentState X2 = .ok true := by rw [hcur]; exact heq
    refine ⟨?_, hcur, fun m => ?_, fun m rest => ?_⟩
    · rw [t3, t2, t1]
      simp [List.count_append, c1, c2]
    · unfold state
      simp only [List.headD_cons, hfast]
      unfold childEnter
      simp [hch]
    · unfold state
      simp only [List.headD_cons, hfast]

/-- C4 (witness): a new controller of subclass `0` entered with one state
object of id `5`, then sent to a distinct object with the same id. -/
theorem C4_second_call_is_noop_witness :
    (state sampleHooks 1 0 [.obj ⟨0, "solo", some "5", true⟩] (Heap.init 1)).1.trace.count
        ⟨0, "enterSolo"⟩ = (Heap.init 1).trace.count ⟨0, "enterSolo"⟩ + 1 ∧
    ((state sampleHooks 1 0 [.obj ⟨0, "solo", some "5", true⟩] (Heap.init 1)).1.ctl 0).currentState
      = .obj ⟨0, "solo", some "5", true⟩ ∧
    (∀ m, state sampleHooks (m + 1) 0 [.obj ⟨1, "solo", some "5", true⟩]
        (state sampleHooks 1 0 [.obj ⟨0, "solo", some "5", true⟩] (Heap.init 1)).1
      = ((state sampleHooks 1 0 [.obj ⟨0, "solo", some "5", true⟩] (Heap.init 1)).1, .resolved)) ∧
    (∀ m rest, state sampleHooks (m + 1) 0 (.obj ⟨1, "solo", some "5", true⟩ :: rest)
        (state sampleHooks 1 0 [.obj ⟨0, "solo", some "5", true⟩] (Heap.init 1)).1
      = childEnter (state sampleHooks m) 0 (.obj ⟨1, "solo", some "5", true⟩ :: rest)
          (state sampleHooks 1 0 [.obj ⟨0, "solo", some "5", true⟩] (Heap.init 1)).1) :=
  C4_second_call_is_noop sampleHooks (Heap.init 1) _ 0 [] 1
    (.obj ⟨0, "solo", some "5", true⟩) (.obj ⟨1, "solo", some "5", true⟩) "enterSolo"
    (WellFormed.single rfl (by decide)) (by decide) (by decide) (by decide)
    (Prod.ext rfl (by decide)) (by decide)

/-- C5: a controller `x` in a state, above a chain `p` of controllers in
states, is sent to `null`. Whenever the promise resolves, the hook invocations
of the call are the leave hooks of the descendants, deepest first, followed by
the leave hook of `x`, and afterwards `x` and every former descendant have
`currentState` null and `child` null. The promise does resolve, given fuel
for the depth of the chain, when no leave hook on the chain throws. -/
theorem C5_leave_tears_down_subtree (M : Methods) (h : Heap) (x : Nat) (p : List Nat)
    (w : WellFormed h x p) (ht : ∀ y ∈ x :: p, (h.ctl y).currentState.truthy = true) :
    (∀ n k, state M n x [.null] h = (k, .resolved) →
      k.trace = h.trace ++ (leaveTrace M h p ++ leaveEvent M h x) ∧
      ∀ y ∈ x :: p, (k.ctl y).currentState = .null ∧ (k.ctl y).child = none) ∧
    ((∀ y ∈ x :: p, LeaveOk M h y) → ∀ n, p.length < n →
      ∃ k, state M n x [.null] h = (k, .resolved)) := by
  constructor
  · intro n k hr
    obtain ⟨t, c⟩ := teardown_resolved M p x h n k w ht hr
    exact ⟨by simpa [leaveTrace] using t, fun y hy => ⟨(c y hy).1, (c y hy).2.1⟩⟩
  · intro l n hn
    have r : ChildrenReady M h x p :=
      ⟨w, fun y hy => ⟨ht y (List.mem_cons_of_mem _ hy), l y (List.mem_cons_of_mem _ hy)⟩⟩
    obtain ⟨k, e, _⟩ := teardown M p x h n r (ht x (List.mem_cons_self _ _))
      (l x (List.mem_cons_self _ _)) hn
    exact ⟨k, e⟩

/-- C5 (witness): `state(null)` on the top of the chain `0 → 1 → 2` resolves,
with the leave hooks innermost first and the three controllers cleared. -/
theorem C5_leave_tears_down_subtree_witness :
    (state sampleHooks 3 0 [.null] sampleChain).1.trace =
      [⟨2, "leaveZ"⟩, ⟨1, "leaveY"⟩, ⟨0, "leaveX"⟩] ∧
    ∀ y ∈ [0, 1, 2],
      ((state sampleHooks 3 0 [.null] sampleChain).1.ctl y).currentState = .null ∧
      ((state sampleHooks 3 0 [.null] sampleChain).1.ctl y).child = none :=
  (C5_leave_tears_down_subtree sampleHooks sampleChain 0 [1, 2] sampleChain_wellFormed
    (by decide)).1 3 _ (Prod.ext rfl (by decide))

/-- C6: for a controller ready for a transition into `a` (a state different
from its current one), `state([a, b])` rejects with the "no child controller
has been set by the state" error when the enter hook for `a` assigns no child,
and `state([a])` rejects with the "state for the child controller is missing"
error when the enter hook for `a` assigns a child; a controller already in a
state equal to `a` gets the same two errors according to whether it has a
child. Whenever a call of `state` resolves, the chain below the controller
has the depth of the requested chain: at every level a child exists exactly
when a further element was requested. -/
theorem C6_chain_depth_must_match (M : Methods) :
    (∀ (h : Heap) (x : Nat) (p : List Nat) (n : Nat) (a b : State) (name : String) (f : Hook),
      Ready M h x p → p.length ≤ n → statesEqual (h.ctl x).currentState a = .ok false →
      a.truthy = true → stateMethodName "enter" a = .ok name →
      M (h.ctl x).cls name = some f → f.newChild = none → f.ret = .value →
      (state M (n + 1) x [a, b] h).2 = .rejected (noChildMsg [a, b])) ∧
    (∀ (h : Heap) (x : Nat) (p : List Nat) (n : Nat) (a : State) (name : String) (f : Hook)
      (c : Nat),
      Ready M h x p → p.length ≤ n → statesEqual (h.ctl x).currentState a = .ok false →
      a.truthy = true → stateMethodName "enter" a = .ok name →
      M (h.ctl x).cls name = some f → f.newChild = some c → f.ret = .value →
      (state M (n + 1) x [a] h).2 = .rejected (missingChildStateMsg [a])) ∧
    (∀ (h : Heap) (x n : Nat) (a b : State),
      statesEqual (h.ctl x).currentState a = .ok true → (h.ctl x).child = none →
      state M (n + 1) x [a, b] h = (h, .rejected (noChildMsg [a, b]))) ∧
    (∀ (h : Heap) (x n c : Nat) (a : State),
      statesEqual (h.ctl x).currentState a = .ok true → (h.ctl x).child = some c →
      state M (n + 1) x [a] h = (h, .rejected (missingChildStateMsg [a]))) ∧
    (∀ (n x : Nat) (args : List State) (h k : Heap) (p : List Nat),
      WellFormed h x p → state M n x args h = (k, .resolved) → Matches k x args) := by
  refine ⟨?_, ?_, ?_, ?_, ?_⟩
  · intro h x p n a b name f r hn hne ht hname hm hf hret
    obtain ⟨k, ⟨_, hch, hcls, _, _, _, _⟩, e⟩ := transition M r hn [a, b] (by simpa using hne)
    rw [← hcls] at hm
    simp only [List.headD_cons] at e
    rw [e, myEnter_hook M ht hname hm, Hook.run_none hf, hret]
    simp [andThen, HookRet.await, childEnter, hch]
  · intro h x p n a name f c r hn hne ht hname hm hf hret
    obtain ⟨k, ⟨_, _, hcls, _, _, _, _⟩, e⟩ := transition M r hn [a] (by simpa using hne)
    rw [← hcls] at hm
    simp only [List.headD_cons] at e
    rw [e, myEnter_hook M ht hname hm, Hook.run_some hf, hret]
    simp [andThen, HookRet.await, childEnter]
  · intro h x n a b he hch
    unfold state
    simp only [List.headD_cons, he]
    simp [childEnter, hch]
  · intro h x n c a he hch
    unfold state
    simp only [List.headD_cons, he]
    simp [childEnter, hch]
  · intro n x args h k p w hr
    have hm := (state_spec M n x args h p w).2 (by rw [hr])
    rw [hr] at hm
    exact hm

/-- C6 (witness): a new controller of subclass `0`; `enterSolo` assigns no
child and `['solo', 'b']` is requested. -/
theorem C6_chain_depth_must_match_witness :
    (state sampleHooks 1 0 [.str "solo", .str "b"] (Heap.init 1)).2 =
      .rejected (noChildMsg [.str "solo", .str "b"]) :=
  (C6_chain_depth_must_match sampleHooks).1 (Heap.init 1) 0 [] 0 (.str "solo") (.str "b")
    "enterSolo" ⟨none, .value⟩ (init_ready _) (by decide) (by decide) (by decide) (by decide)
    (by decide) rfl rfl

/-- C7 (counterexample): a string compared with an object that has no
`isStateEqual` method: both are non-null and one side is an object lacking the
method, yet `statesEqual` returns `false` without an error. -/
theorem C7_primitive_first_no_error :
    statesEqual (.str "a") (.obj plainObject) = .ok false := by
  decide

/-- C7 (amended): `statesEqual(stateA, stateB)` fails, with the
`isStateEqual` message, exactly when both states are truthy, `stateA` is an
object and `stateA` or `stateB` has no `isStateEqual` method; when `stateA` is
an object and both have the method the result is `stateA.isStateEqual(stateB)`;
in every other case, whenever `stateA` is a primitive in particular, the
result is strict equality. -/
theorem C7_statesEqual_cases (a b : State) :
    (∀ e, statesEqual a b = .error e ↔
      (e = "If a state is an object, it must implement a isStateEqual(other) method" ∧
        a.truthy = true ∧ b.truthy = true ∧ a.isObject = true ∧
        (a.hasIsStateEqual = false ∨ b.hasIsStateEqual = false))) ∧
    (a.truthy = true → b.truthy = true → a.isObject = true →
      a.hasIsStateEqual = true → b.hasIsStateEqual = true →
      statesEqual a b = .ok (a.idProp == b.idProp)) ∧
    ((a.truthy = false ∨ b.truthy = false ∨ a.isObject = false) →
      statesEqual a b = .ok (a.strictEq b)) := by
  refine ⟨fun e => ?_, ?_, ?_⟩
  · unfold statesEqual
    constructor
    · intro h
      split at h
      · rename_i hg
        simp only [Bool.and_eq_true] at hg
        split at h
        · rename_i hm
          simp only [Bool.or_eq_true, Bool.not_eq_true'] at hm
          injection h with h
          exact ⟨h.symm, hg.1.1, hg.1.2, hg.2, hm⟩
        · simp at h
      · simp at h
    · rintro ⟨rfl, h1, h2, h3, h4⟩
      have h4' : (!a.hasIsStateEqual || !b.hasIsStateEqual) = true := by
        rcases h4 with h4 | h4 <;> simp [h4]
      simp [h1, h2, h3, h4']
  · intro h1 h2 h3 h4 h5
    simp [statesEqual, h1, h2, h3, h4, h5]
  · intro h
    unfold statesEqual
    rcases h with h | h | h <;> simp [h]

/-- C7 (witness): two `IDWithOptionalTitle`-like objects with the same id are
equal, by `isStateEqual`. -/
theorem C7_statesEqual_cases_witness :
    statesEqual (.obj ⟨0, "5", some "5", true⟩) (.obj ⟨1, "5", some "5", true⟩) = .ok true :=
  (C7_statesEqual_cases (.obj ⟨0, "5", some "5", true⟩) (.obj ⟨1, "5", some "5", true⟩)).2.1
    (by decide) (by decide) (by decide) (by decide) (by decide)

/-- C8 (counterexample): assigning the number `0`, neither a Controller nor
`null`, to `child` of a controller that has a child does not throw, and it
detaches that child: its `parent` link changes from `c0` to `null`. -/
theorem C8_falsy_value_accepted :
    setChild 0 (.num 0) linkedPair = .ok (linkChild 0 none linkedPair) ∧
    (linkedPair.ctl 0).child = some 1 ∧ (linkedPair.ctl 1).parent = some 0 ∧
    ((linkChild 0 none linkedPair).ctl 0).child = none ∧
    ((linkChild 0 none linkedPair).ctl 1).parent = none := by
  refine ⟨rfl, by decide, by decide, by decide, by decide⟩

/-- C8 (amended): for every controller and every truthy value that is not a
Controller, assigning that value to `child` or to `parent` throws at the
guard, before any link is written (the result carries no new heap). -/
theorem C8_truthy_non_controller_throws (this : Nat) (value : Val) (h : Heap)
    (ht : value.truthy = true) (hc : value.isController = false) :
    setChild this value h = .error "value should be a Controller or null" ∧
    setParent this value h = .error "value should be a Controller or null" := by
  simp [setChild, setParent, ht, hc]

/-- C8 (witness): assigning a plain object to `child` and to `parent`. -/
theorem C8_truthy_non_controller_throws_witness :
    setChild 0 (.object 7) linkedPair = .error "value should be a Controller or null" ∧
    setParent 0 (.object 7) linkedPair = .error "value should be a Controller or null" :=
  C8_truthy_non_controller_throws 0 (.object 7) linkedPair (by decide) (by decide)

/-- C9: `enter(state)` throws "State method enter<S> does not exist" when the
subclass has no such method, and otherwise calls the method and hands back
what it returns; a transition of a ready controller into a state without an
enter method rejects with that error. `leave()` without a leave method returns
normally with the heap untouched, which is what it does with an empty leave
method apart from the recorded invocation; leaving a state without a leave
method resolves. -/
theorem C9_enter_required_leave_optional (M : Methods) :
    (∀ (x : Nat) (s : State) (h : Heap) (name : String),
      stateMethodName "enter" s = .ok name →
      (M (h.ctl x).cls name = none →
        enter M x s h =
          (h.setCurrentState x s, .throws ("State method " ++ name ++ " does not exist"))) ∧
      (∀ f, M (h.ctl x).cls name = some f →
        enter M x s h = f.run x ((h.setCurrentState x s).record ⟨x, name⟩))) ∧
    (∀ (h : Heap) (x : Nat) (p : List Nat) (n : Nat) (s : State) (rest : List State)
      (name : String),
      Ready M h x p → p.length ≤ n → statesEqual (h.ctl x).currentState s = .ok false →
      s.truthy = true → stateMethodName "enter" s = .ok name →
      M (h.ctl x).cls name = none →
      (state M (n + 1) x (s :: rest) h).2 =
        .rejected ("State method " ++ name ++ " does not exist")) ∧
    (∀ (x : Nat) (h : Heap) (name : String),
      stateMethodName "leave" (h.ctl x).currentState = .ok name →
      M (h.ctl x).cls name = none →
      leave M x h = (h, .value) ∧
      ∀ N : Methods, N (h.ctl x).cls name = some ⟨none, .value⟩ →
        leave N x h = (h.record ⟨x, name⟩, .value)) ∧
    (∀ (h : Heap) (x : Nat) (p : List Nat) (n : Nat) (name : String),
      ChildrenReady M h x p → (h.ctl x).currentState.truthy = true →
      stateMethodName "leave" (h.ctl x).currentState = .ok name →
      M (h.ctl x).cls name = none → p.length < n →
      ∃ k, state M n x [.null] h = (k, .resolved) ∧
        k.trace = h.trace ++ leaveTrace M h p ∧ (k.ctl x).currentState = .null) := by
  refine ⟨?_, ?_, ?_, ?_⟩
  · intro x s h name hname
    constructor
    · intro hm
      unfold enter
      simp [hname, hm]
    · intro f hm
      unfold enter
      simp [hname, hm]
  · intro h x p n s rest name r hn hne ht hname hm
    obtain ⟨k, ⟨_, _, hcls, _, _, _, _⟩, e⟩ := transition M r hn (s :: rest) (by simpa using hne)
    rw [← hcls] at hm
    simp only [List.headD_cons] at e
    rw [e, myEnter_missing M ht hname hm]
    rfl
  · intro x h name hname hm
    constructor
    · unfold leave
      simp [hname, hm]
    · intro N hN
      unfold leave
      simp [hname, hN, Hook.run]
  · intro h x p n name r ht hname hm hn
    have l : LeaveOk M h x := by
      intro name2 f hn2 hm2
      rw [hname] at hn2
      injection hn2 with hn2
      subst hn2
      rw [hm] at hm2
      exact absurd hm2 (by simp)
    obtain ⟨k, e, t, c, _⟩ := teardown M p x h n r ht l hn
    refine ⟨k, e, ?_, (c x (List.mem_cons_self _ _)).1⟩
    rw [t]
    simp [leaveTrace, leaveEvent, ht, hname, hm]

/-- C9 (witness): a new controller of subclass `0` has no `enterZzz`. -/
theorem C9_enter_required_leave_optional_witness :
    (state sampleHooks 1 0 [.str "zzz"] (Heap.init 1)).2 =
      .rejected ("State method " ++ "enterZzz" ++ " does not exist") :=
  (C9_enter_required_leave_optional sampleHooks).2.1 (Heap.init 1) 0 [] 0 (.str "zzz") []
    "enterZzz" (init_ready _) (by decide) (by decide) (by decide) (by decide) (by decide)

/-- C10: a controller `x` in a state, above an active chain `p`, whose leave
hook for the current state throws `e`, is sent to a different state. The
promise rejects with `e`; the last hook invocation is that leave hook (after
those of the descendants), so neither the enter hook of the requested state
nor any hook of a child runs; afterwards `currentState` and `child` of `x`
are null. -/
theorem C10_leave_failure_clears (M : Methods) (h : Heap) (x : Nat) (p : List Nat) (n : Nat)
    (args : List State) (name e : String) (f : Hook)
    (r : ChildrenReady M h x p) (hn : p.length ≤ n)
    (ht : (h.ctl x).currentState.truthy = true)
    (hne : statesEqual (h.ctl x).currentState (args.headD .undefined) = .ok false)
    (hname : stateMethodName "leave" (h.ctl x).currentState = .ok name)
    (hm : M (h.ctl x).cls name = some f) (hf : f.ret = .throws e) :
    ∃ k, state M (n + 1) x args h = (k, .rejected e) ∧
      k.trace = h.trace ++ leaveTrace M h p ++ [⟨x, name⟩] ∧
      (k.ctl x).currentState = .null ∧ (k.ctl x).child = none := by
  have hx := r.1.lt
  have hxp : x ∉ p := (List.nodup_cons.mp r.1.2.1).1
  obtain ⟨k1, e1, t1, _, f1⟩ := childLeave_ready M r hn
  have core := f1.self_core hx hxp
  rw [← core.2.1] at ht hname
  rw [← core.1] at hm
  have e2 := myLeave_throws M ht hname hm hf
  refine ⟨linkChild x none ((f.run x (k1.record ⟨x, name⟩)).1.setCurrentState x .null),
    ?_, ?_, ?_, ?_⟩
  · unfold state
    simp only [hne]
    rw [andThen_resolved e1, e2]
    rfl
  · simp [Hook.run_trace, t1]
  · simp
  · simp

/-- C10 (witness): the controller in state `bad`, whose `leaveBad` throws,
is sent to `next`. -/
theorem C10_leave_failure_clears_witness :
    ∃ k, state throwingHooks 1 0 [.str "next"] badLeaf = (k, .rejected "boom") ∧
      k.trace = [⟨0, "leaveBad"⟩] ∧
      (k.ctl 0).currentState = .null ∧ (k.ctl 0).child = none :=
  C10_leave_failure_clears throwingHooks badLeaf 0 [] 0 [.str "next"] "leaveBad" "boom"
    ⟨none, .throws "boom"⟩
    ⟨WellFormed.single rfl (by decide), fun y hy => by simp at hy⟩ (by decide) (by decide)
    (by decide) (by decide) (by decide) rfl


/-! ## Helper lemmas: names, links, router, anchor -/

theorem linked_children {h : Heap} : ∀ (p : List Nat) (x : Nat), Linked h x p →
    ∀ fuel, p.length < fuel → getChildrenStateList h fuel x = some (statesOf h (x :: p)) := by
  intro p
  induction p with
  | nil =>
    intro x hl fuel hf
    obtain ⟨n, rfl⟩ : ∃ n, fuel = n + 1 := ⟨fuel - 1, by omega⟩
    have hc : (h.ctl x).child = none := hl
    simp [getChildrenStateList, hc, statesOf]
  | cons c q ih =>
    intro x hl fuel hf
    obtain ⟨n, rfl⟩ : ∃ n, fuel = n + 1 := ⟨fuel - 1, by omega⟩
    obtain ⟨hc, _, hq⟩ := hl
    have := ih c hq n (by simp at hf; omega)
    simp [getChildrenStateList, hc, this, statesOf]

theorem linked_parents_loop {h : Heap} : ∀ (p : List Nat) (x : Nat), Linked h x p →
    ∀ fuel states, getParentsStateListLoop h (fuel + p.length) ((x :: p).getLast (by simp)) states
      = getParentsStateListLoop h fuel x (statesOf h p ++ states) := by
  intro p
  induction p with
  | nil =>
    intro x _ fuel states
    simp [statesOf]
  | cons c q ih =>
    intro x hl fuel states
    obtain ⟨_, hp, hq⟩ := hl
    have h1 := ih c hq (fuel + 1) states
    have e1 : fuel + (c :: q).length = fuel + 1 + q.length := by simp; omega
    have e2 : (x :: c :: q).getLast (by simp) = (c :: q).getLast (by simp) := by
      simp [List.getLast_cons]
    rw [e1, e2, h1]
    simp [getParentsStateListLoop, hp, statesOf]

theorem linked_root {h : Heap} : ∀ (p : List Nat) (x : Nat), Linked h x p →
    ∀ fuel, getRootController h (fuel + p.length) ((x :: p).getLast (by simp))
      = getRootController h fuel x := by
  intro p
  induction p with
  | nil =>
    intro x _ fuel
    simp
  | cons c q ih =>
    intro x hl fuel
    obtain ⟨_, hp, hq⟩ := hl
    have h1 := ih c hq (fuel + 1)
    have e1 : fuel + (c :: q).length = fuel + 1 + q.length := by simp; omega
    have e2 : (x :: c :: q).getLast (by simp) = (c :: q).getLast (by simp) := by
      simp [List.getLast_cons]
    rw [e1, e2, h1]
    simp [getRootController, hp]

theorem splitOnSlash_ne_nil : ∀ cs : List Char, splitOnSlash cs ≠ [] := by
  intro cs
  cases cs with
  | nil => simp [splitOnSlash]
  | cons c t =>
    unfold splitOnSlash
    split
    · simp
    · split <;> simp

theorem splitOnSlash_home (cs : List Char) :
    (((splitOnSlash cs).headD []).isEmpty && (splitOnSlash cs).length == 1) = true ↔ cs = [] := by
  cases cs with
  | nil => simp [splitOnSlash]
  | cons c t =>
    have hne := splitOnSlash_ne_nil t
    unfold splitOnSlash
    split
    · cases ht : splitOnSlash t with
      | nil => exact absurd ht hne
      | cons a b => simp
    · split <;> simp

theorem stripTrailing_nil (rest : List Char) :
    (match rest.reverse with
      | '/' :: r => r.reverse
      | _ => rest) = [] ↔ rest = [] ∨ rest = ['/'] := by
  cases hrev : rest.reverse with
  | nil =>
    have : rest = [] := List.reverse_eq_nil_iff.mp hrev
    simp [this]
  | cons c r =>
    have hrest : rest = r.reverse ++ [c] := by
      have := congrArg List.reverse hrev
      simpa using this
    by_cases hc : c = '/'
    · subst hc
      simp [hrest]
    · have hne : rest ≠ [] := by rw [hrest]; simp
      have : (match c :: r with
        | '/' :: r => r.reverse
        | _ => rest) = rest := by
        split
        · rename_i r2 heq
          exact absurd (List.cons.inj heq).1 hc
        · rfl
      rw [this]
      constructor
      · intro h; exact absurd h hne
      · rintro (h | h)
        · exact absurd h hne
        · rw [h] at hrev
          simp at hrev
          exact absurd hrev.1.symm hc

/-- Nothing is left after stripping exactly for the empty pathname, `/` and
`//`. -/
theorem stripSlashes_nil (cs : List Char) :
    stripSlashes cs = [] ↔ cs = [] ∨ cs = ['/'] ∨ cs = ['/', '/'] := by
  unfold stripSlashes
  dsimp only
  rw [stripTrailing_nil]
  split
  · rename_i r
    simp
  · rename_i hne
    constructor
    · rintro (h | h)
      · exact Or.inl h
      · exact absurd h (by intro h2; exact hne [] h2)
    · rintro (h | h | h)
      · exact Or.inl h
      · exact absurd h (hne [])
      · exact absurd h (hne ['/'])

theorem stripSlashes_home (path : String) :
    stripSlashes path.data = [] ↔ (path = "" ∨ path = "/" ∨ path = "//") := by
  rw [stripSlashes_nil]
  simp only [String.ext_iff]

theorem stringify_some {s : List State} {u : String} (h : stringify s = some u) :
    s = [.str "page", .str "home"] ∧ u = "/" := by
  unfold stringify at h
  split at h
  swap
  · simp at h
  rename_i h1
  split at h
  swap
  · simp at h
  rename_i h2
  simp only [Bool.and_eq_true, beq_iff_eq] at h2
  obtain ⟨h2, h3⟩ := h2
  match s, h1, h2, h3 with
  | [a, b], h1, h2, _ =>
    simp only [List.headD_cons, List.drop_succ_cons, List.drop_zero] at h1 h2
    cases a <;> simp [State.strictEq] at h1
    cases b <;> simp [State.strictEq] at h2
    subst h1 h2
    exact ⟨rfl, by simpa using h.symm⟩

theorem httpSchemeTest_iff (cs : List Char) :
    httpSchemeTest cs = true ↔ ("http://".data <+: cs ∨ "https://".data <+: cs) := by
  constructor
  · intro h
    unfold httpSchemeTest at h
    split at h
    · split at h
      · exact Or.inl ⟨_, rfl⟩
      · exact Or.inr ⟨_, rfl⟩
      · simp at h
    · simp at h
  · rintro (⟨t, rfl⟩ | ⟨t, rfl⟩) <;> rfl

/-! ## Helper lemmas: links without cycles -/

@[simp]
theorem setParentField_parent (h : Heap) (i j : Nat) (v : Option Nat) :
    ((h.setParentField i v).ctl j).parent = if j = i then v else (h.ctl j).parent := by
  unfold Heap.setParentField; dsimp only; split <;> simp_all

@[simp]
theorem setChildField_parent (h : Heap) (i j : Nat) (v : Option Nat) :
    ((h.setChildField i v).ctl j).parent = (h.ctl j).parent := by
  unfold Heap.setChildField; dsimp only; split <;> simp_all

theorem linkChild_parent (h : Heap) (x j : Nat) (v : Option Nat) :
    ((linkChild x v h).ctl j).parent =
      if v = some j then some x else if (h.ctl x).child = some j then none
      else (h.ctl j).parent := by
  unfold linkChild
  cases hc : (h.ctl x).child <;> cases v <;> simp [@eq_comm _ j]

theorem linkParent_parent (h : Heap) (x j : Nat) (v : Option Nat) :
    ((linkParent x v h).ctl j).parent = if j = x then v else (h.ctl j).parent := by
  unfold linkParent
  cases hc : (h.ctl x).parent <;> cases v <;> simp

theorem linkParent_child (h : Heap) (x j : Nat) (v : Option Nat) :
    ((linkParent x v h).ctl j).child =
      if v = some j then some x else if (h.ctl x).parent = some j then none
      else (h.ctl j).child := by
  unfold linkParent
  cases hc : (h.ctl x).parent <;> cases v <;> simp [@eq_comm _ j]

theorem linkChild_child_sub {h : Heap} {x a c : Nat} {v : Option Nat}
    (hc : ((linkChild x v h).ctl a).child = some c) :
    (a = x ∧ v = some c) ∨ (h.ctl a).child = some c := by
  rw [linkChild_child] at hc
  by_cases ha : a = x
  · rw [if_pos ha] at hc
    exact Or.inl ⟨ha, hc⟩
  · rw [if_neg ha] at hc
    exact Or.inr hc

theorem linkChild_parent_sub {h : Heap} {x b q : Nat} {v : Option Nat}
    (hq : ((linkChild x v h).ctl b).parent = some q) :
    (v = some b ∧ q = x) ∨ (h.ctl b).parent = some q := by
  rw [linkChild_parent] at hq
  by_cases h1 : v = some b
  · rw [if_pos h1] at hq
    exact Or.inl ⟨h1, (Option.some.inj hq).symm⟩
  · rw [if_neg h1] at hq
    by_cases h2 : (h.ctl x).child = some b
    · rw [if_pos h2] at hq
      exact absurd hq (by simp)
    · rw [if_neg h2] at hq
      exact Or.inr hq

theorem linkParent_parent_sub {h : Heap} {x a q : Nat} {v : Option Nat}
    (hq : ((linkParent x v h).ctl a).parent = some q) :
    (a = x ∧ v = some q) ∨ (h.ctl a).parent = some q := by
  rw [linkParent_parent] at hq
  by_cases ha : a = x
  · rw [if_pos ha] at hq
    exact Or.inl ⟨ha, hq⟩
  · rw [if_neg ha] at hq
    exact Or.inr hq

theorem linkParent_child_sub {h : Heap} {x b c : Nat} {v : Option Nat}
    (hc : ((linkParent x v h).ctl b).child = some c) :
    (v = some b ∧ c = x) ∨ (h.ctl b).child = some c := by
  rw [linkParent_child] at hc
  by_cases h1 : v = some b
  · rw [if_pos h1] at hc
    exact Or.inl ⟨h1, (Option.some.inj hc).symm⟩
  · rw [if_neg h1] at hc
    by_cases h2 : (h.ctl x).parent = some b
    · rw [if_pos h2] at hc
      exact absurd hc (by simp)
    · rw [if_neg h2] at hc
      exact Or.inr hc

/-- A rank that descends along `R` can be changed to descend along the new
edge `x → y` as well, when `x` is not reached from `y`. -/
theorem rank_insert {R : Nat → Nat → Prop} {r : Nat → Nat}
    (hr : ∀ a b, R a b → r b < r a) {x y : Nat} (hxy : ¬ Relation.ReflTransGen R y x) :
    ∃ r2 : Nat → Nat, r2 y < r2 x ∧ ∀ a b, R a b → r2 b < r2 a := by
  classical
  refine ⟨fun z => r z + if Relation.ReflTransGen R z x then r y + 1 else 0, ?_, ?_⟩
  · simp only [if_neg hxy, if_pos Relation.ReflTransGen.refl]
    omega
  · intro a b hab
    have hlt := hr a b hab
    by_cases hb : Relation.ReflTransGen R b x
    · have ha : Relation.ReflTransGen R a x := Relation.ReflTransGen.head hab hb
      simp only [if_pos hb, if_pos ha]
      omega
    · simp only [if_neg hb]
      split <;> omega

theorem linkChild_parent_self (h : Heap) (x y : Nat) :
    ((linkChild x (some y) h).ctl y).parent = some x := by
  rw [linkChild_parent]
  simp

theorem linkChild_parent_of_ne (h : Heap) (x y : Nat) {b : Nat} (hb : b ≠ y) :
    ((linkChild x (some y) h).ctl b).parent = ((linkChild x none h).ctl b).parent := by
  rw [linkChild_parent, linkChild_parent]
  simp [show ¬ y = b from fun e => hb e.symm]

theorem linkParent_child_self (h : Heap) (x y : Nat) :
    ((linkParent x (some y) h).ctl y).child = some x := by
  rw [linkParent_child]
  simp

theorem linkParent_child_of_ne (h : Heap) (x y : Nat) {b : Nat} (hb : b ≠ y) :
    ((linkParent x (some y) h).ctl b).child = ((linkParent x none h).ctl b).child := by
  rw [linkParent_child, linkParent_child]
  simp [show ¬ y = b from fun e => hb e.symm]

theorem noCycles_linkChild_none {h : Heap} (F : NoCycles h) (x : Nat) :
    NoCycles (linkChild x none h) := by
  obtain ⟨⟨r, hr⟩, ⟨d, hd⟩⟩ := F
  refine ⟨⟨r, fun b q hq => ?_⟩, ⟨d, fun a c hc => ?_⟩⟩
  · rcases linkChild_parent_sub hq with ⟨h1, _⟩ | h1
    · exact absurd h1 (by simp)
    · exact hr b q h1
  · rcases linkChild_child_sub hc with ⟨_, h1⟩ | h1
    · exact absurd h1 (by simp)
    · exact hd a c h1

theorem noCycles_linkParent_none {h : Heap} (F : NoCycles h) (x : Nat) :
    NoCycles (linkParent x none h) := by
  obtain ⟨⟨r, hr⟩, ⟨d, hd⟩⟩ := F
  refine ⟨⟨r, fun a q hq => ?_⟩, ⟨d, fun b c hc => ?_⟩⟩
  · rcases linkParent_parent_sub hq with ⟨_, h1⟩ | h1
    · exact absurd h1 (by simp)
    · exact hr a q h1
  · rcases linkParent_child_sub hc with ⟨h1, _⟩ | h1
    · exact absurd h1 (by simp)
    · exact hd b c h1

theorem noCycles_linkChild {h : Heap} (F : NoCycles h) (x : Nat) (v : Option Nat)
    (hv : ∀ y, v = some y →
      ¬ Relation.ReflTransGen (ChildStep h) y x ∧
      ¬ Relation.ReflTransGen (ParentStep (linkChild x none h)) x y) :
    NoCycles (linkChild x v h) := by
  cases v with
  | none => exact noCycles_linkChild_none F x
  | some y =>
    obtain ⟨⟨r1, hr1⟩, _⟩ := noCycles_linkChild_none F x
    obtain ⟨_, ⟨d, hd⟩⟩ := F
    obtain ⟨hC, hP⟩ := hv y rfl
    obtain ⟨r2, hr2, hr3⟩ :=
      @rank_insert (ParentStep (linkChild x none h)) r1 (fun a b hab => hr1 a b hab) y x hP
    obtain ⟨d2, hd2, hd3⟩ := @rank_insert (ChildStep h) d (fun a b hab => hd a b hab) x y hC
    refine ⟨⟨r2, fun b q hq => ?_⟩, ⟨d2, fun a c hc => ?_⟩⟩
    · by_cases hb : b = y
      · rw [hb, linkChild_parent_self] at hq
        rw [hb, ← Option.some.inj hq]
        exact hr2
      · rw [linkChild_parent_of_ne h x y hb] at hq
        exact hr3 b q hq
    · rcases linkChild_child_sub hc with ⟨h1, h2⟩ | h1
      · obtain rfl : y = c := Option.some.inj h2
        rw [h1]
        exact hd2
      · exact hd3 a c h1

theorem noCycles_linkParent {h : Heap} (F : NoCycles h) (x : Nat) (v : Option Nat)
    (hv : ∀ y, v = some y →
      ¬ Relation.ReflTransGen (ParentStep h) y x ∧
      ¬ Relation.ReflTransGen (ChildStep (linkParent x none h)) x y) :
    NoCycles (linkParent x v h) := by
  cases v with
  | none => exact noCycles_linkParent_none F x
  | some y =>
    obtain ⟨_, ⟨d1, hd1⟩⟩ := noCycles_linkParent_none F x
    obtain ⟨⟨r, hr⟩, _⟩ := F
    obtain ⟨hP, hC⟩ := hv y rfl
    obtain ⟨r2, hr2, hr3⟩ := @rank_insert (ParentStep h) r (fun a b hab => hr a b hab) x y hP
    obtain ⟨d2, hd2, hd3⟩ :=
      @rank_insert (ChildStep (linkParent x none h)) d1 (fun a b hab => hd1 a b hab) y x hC
    refine ⟨⟨r2, fun a q hq => ?_⟩, ⟨d2, fun b c hc => ?_⟩⟩
    · rcases linkParent_parent_sub hq with ⟨h1, h2⟩ | h1
      · obtain rfl : y = q := Option.some.inj h2
        rw [h1]
        exact hr2
      · exact hr3 a q h1
    · by_cases hb : b = y
      · rw [hb, linkParent_child_self] at hc
        rw [hb, ← Option.some.inj hc]
        exact hd2
      · rw [linkParent_child_of_ne h x y hb] at hc
        exact hd3 b c hc

theorem asLink_some {v : Val} {y : Nat} (hv : v.asLink = some y) : v = .controller y := by
  cases v <;> simp_all [Val.asLink]

theorem noCycles_run {h k : Heap} (F : NoCycles h) {a : Assign} (ha : a.ClosesNoCycle h)
    (hk : a.run h = .ok k) : NoCycles k := by
  cases a with
  | child x v =>
    simp only [Assign.run, setChild] at hk
    split at hk
    · simp at hk
    · simp only [Except.ok.injEq] at hk
      rw [← hk]
      exact noCycles_linkChild F x v.asLink (fun y hy => ha y (asLink_some hy))
  | parent x v =>
    simp only [Assign.run, setParent] at hk
    split at hk
    · simp at hk
    · simp only [Except.ok.injEq] at hk
      rw [← hk]
      exact noCycles_linkParent F x v.asLink (fun y hy => ha y (asLink_some hy))

theorem noCycles_runAssigns : ∀ (l : List Assign) (h k : Heap), NoCycles h → NoCycleRun l h →
    runAssigns l h = .ok k → NoCycles k := by
  intro l
  induction l with
  | nil =>
    intro h k F _ hk
    simp only [runAssigns, Except.ok.injEq] at hk
    exact hk ▸ F
  | cons a rest ih =>
    intro h k F hr hk
    obtain ⟨ha, hrest⟩ := hr
    simp only [runAssigns] at hk
    cases h1 : a.run h with
    | error e => rw [h1] at hk; simp at hk
    | ok h2 =>
      rw [h1] at hk
      exact ih h2 k (noCycles_run F ha h1) (hrest h2 h1) hk

theorem noCycles_of_unlinked {h : Heap} (hu : ∀ y, Unlinked h y) : NoCycles h := by
  refine ⟨⟨fun _ => 0, fun x q hq => ?_⟩, ⟨fun _ => 0, fun x c hc => ?_⟩⟩
  · rw [(hu x).2] at hq; simp at hq
  · rw [(hu x).1] at hc; simp at hc

/-- On a cycle of a relation with at most one successor, whatever is reached
from `x` leads back to `x`. -/
theorem cycle_back {R : Nat → Nat → Prop} (hfun : ∀ a b c, R a b → R a c → b = c) {x : Nat}
    (hx : Relation.TransGen R x x) {z : Nat} (hz : Relation.ReflTransGen R x z) :
    Relation.ReflTransGen R z x := by
  induction hz with
  | refl => exact Relation.ReflTransGen.refl
  | tail _ hbc ih =>
    rcases Relation.ReflTransGen.cases_head ih with hbx | ⟨w, hbw, hwx⟩
    · obtain ⟨w, hxw, hwx⟩ := Relation.TransGen.head'_iff.mp hx
      rw [hbx] at hbc
      rw [hfun _ _ _ hbc hxw]
      exact hwx
    · rw [hfun _ _ _ hbc hbw]
      exact hwx

theorem cycle_next {R : Nat → Nat → Prop} (hfun : ∀ a b c, R a b → R a c → b = c) {x : Nat}
    (hx : Relation.TransGen R x x) {z : Nat} (hz : Relation.ReflTransGen R x z) :
    ∃ w, R z w ∧ Relation.ReflTransGen R x w := by
  rcases Relation.ReflTransGen.cases_head (cycle_back hfun hx hz) with hzx | ⟨w, hzw, _⟩
  · obtain ⟨w, hxw, _⟩ := Relation.TransGen.head'_iff.mp hx
    rw [hzx]
    exact ⟨w, hxw, Relation.ReflTransGen.single hxw⟩
  · exact ⟨w, hzw, hz.tail hzw⟩

theorem childStep_fun (h : Heap) : ∀ a b c, ChildStep h a b → ChildStep h a c → b = c := by
  intro a b c h1 h2
  unfold ChildStep at h1 h2
  rw [h1] at h2
  exact Option.some.inj h2

theorem parentStep_fun (h : Heap) : ∀ a b c, ParentStep h a b → ParentStep h a c → b = c := by
  intro a b c h1 h2
  unfold ParentStep at h1 h2
  rw [h1] at h2
  exact Option.some.inj h2

theorem children_on_cycle {h : Heap} {x : Nat} (hx : Relation.TransGen (ChildStep h) x x) :
    ∀ fuel z, Relation.ReflTransGen (ChildStep h) x z → getChildrenStateList h fuel z = none := by
  intro fuel
  induction fuel with
  | zero => intro z _; rfl
  | succ n ih =>
    intro z hz
    obtain ⟨w, hzw, hxw⟩ := cycle_next (childStep_fun h) hx hz
    have hc : (h.ctl z).child = some w := hzw
    simp only [getChildrenStateList, hc, ih w hxw]
    rfl

theorem root_on_cycle {h : Heap} {x : Nat} (hx : Relation.TransGen (ParentStep h) x x) :
    ∀ fuel z, Relation.ReflTransGen (ParentStep h) x z → getRootController h fuel z = none := by
  intro fuel
  induction fuel with
  | zero => intro z _; rfl
  | succ n ih =>
    intro z hz
    obtain ⟨w, hzw, hxw⟩ := cycle_next (parentStep_fun h) hx hz
    have hc : (h.ctl z).parent = some w := hzw
    simp only [getRootController, hc, ih w hxw]

theorem parents_on_cycle {h : Heap} {x : Nat} (hx : Relation.TransGen (ParentStep h) x x) :
    ∀ fuel z states, Relation.ReflTransGen (ParentStep h) x z →
      getParentsStateListLoop h fuel z states = none := by
  intro fuel
  induction fuel with
  | zero => intro z _ _; rfl
  | succ n ih =>
    intro z states hz
    obtain ⟨w, hzw, hxw⟩ := cycle_next (parentStep_fun h) hx hz
    have hc : (h.ctl z).parent = some w := hzw
    simp only [getParentsStateListLoop, hc, ih w _ hxw]

/-- A path to `x` can be taken to stop at its first arrival at `x`. -/
theorem reach_avoiding {R : Nat → Nat → Prop} {x y : Nat} (h : Relation.ReflTransGen R y x) :
    Relation.ReflTransGen (fun a b => R a b ∧ a ≠ x) y x := by
  refine Relation.ReflTransGen.head_induction_on h Relation.ReflTransGen.refl ?_
  intro a c hac _ ih
  by_cases ha : a = x
  · rw [ha]
  · exact Relation.ReflTransGen.head ⟨hac, ha⟩ ih

theorem cycle_of_child_assign {h : Heap} {x y : Nat}
    (hyx : Relation.ReflTransGen (ChildStep h) y x) :
    Relation.TransGen (ChildStep (linkChild x (some y) h)) x x := by
  have hedge : ChildStep (linkChild x (some y) h) x y := by
    unfold ChildStep
    rw [linkChild_child]
    simp
  have hpath : Relation.ReflTransGen (ChildStep (linkChild x (some y) h)) y x := by
    refine Relation.ReflTransGen.mono ?_ (reach_avoiding hyx)
    rintro a b ⟨hab, hne⟩
    unfold ChildStep
    rw [linkChild_child, if_neg hne]
    exact hab
  exact Relation.TransGen.head'_iff.mpr ⟨y, hedge, hpath⟩

theorem cycle_of_parent_assign {h : Heap} {x y : Nat}
    (hyx : Relation.ReflTransGen (ParentStep h) y x) :
    Relation.TransGen (ParentStep (linkParent x (some y) h)) x x := by
  have hedge : ParentStep (linkParent x (some y) h) x y := by
    unfold ParentStep
    rw [linkParent_parent]
    simp
  have hpath : Relation.ReflTransGen (ParentStep (linkParent x (some y) h)) y x := by
    refine Relation.ReflTransGen.mono ?_ (reach_avoiding hyx)
    rintro a b ⟨hab, hne⟩
    unfold ParentStep
    rw [linkParent_parent, if_neg hne]
    exact hab
  exact Relation.TransGen.head'_iff.mpr ⟨y, hedge, hpath⟩

theorem cycle_of_child_assign_up {h : Heap} {x y : Nat}
    (hxy : Relation.ReflTransGen (ParentStep (linkChild x none h)) x y) :
    Relation.TransGen (ParentStep (linkChild x (some y) h)) x x := by
  have hedge : ParentStep (linkChild x (some y) h) y x := linkChild_parent_self h x y
  have hpath : Relation.ReflTransGen (ParentStep (linkChild x (some y) h)) x y := by
    refine Relation.ReflTransGen.mono ?_ (reach_avoiding hxy)
    rintro a b ⟨hab, hne⟩
    unfold ParentStep
    rw [linkChild_parent_of_ne h x y hne]
    exact hab
  exact Relation.TransGen.tail'_iff.mpr ⟨y, hpath, hedge⟩

theorem cycle_of_parent_assign_down {h : Heap} {x y : Nat}
    (hxy : Relation.ReflTransGen (ChildStep (linkParent x none h)) x y) :
    Relation.TransGen (ChildStep (linkParent x (some y) h)) x x := by
  have hedge : ChildStep (linkParent x (some y) h) y x := linkParent_child_self h x y
  have hpath : Relation.ReflTransGen (ChildStep (linkParent x (some y) h)) x y := by
    refine Relation.ReflTransGen.mono ?_ (reach_avoiding hxy)
    rintro a b ⟨hab, hne⟩
    unfold ChildStep
    rw [linkParent_child_of_ne h x y hne]
    exact hab
  exact Relation.TransGen.tail'_iff.mpr ⟨y, hpath, hedge⟩

/-- An assignment that does close a cycle is accepted, and afterwards a walk
from the receiver does not end. -/
theorem closing_assignment_loops (k : Heap) (a : Assign) (hna : ¬ a.ClosesNoCycle k) :
    ∃ k2 x, a.run k = .ok k2 ∧
      ((∀ fuel, getChildrenStateList k2 fuel x = none) ∨
        (∀ fuel, getRootController k2 fuel x = none ∧ getParentsStateList k2 fuel x = none)) := by
  classical
  cases a with
  | child x v =>
    simp only [Assign.ClosesNoCycle] at hna
    push_neg at hna
    obtain ⟨y, rfl, hcyc⟩ := hna
    refine ⟨linkChild x (some y) k, x, rfl, ?_⟩
    by_cases hA : Relation.ReflTransGen (ChildStep k) y x
    · exact Or.inl fun fuel =>
        children_on_cycle (cycle_of_child_assign hA) fuel x Relation.ReflTransGen.refl
    · have hc := cycle_of_child_assign_up (hcyc hA)
      exact Or.inr fun fuel =>
        ⟨root_on_cycle hc fuel x Relation.ReflTransGen.refl,
          parents_on_cycle hc fuel x [] Relation.ReflTransGen.refl⟩
  | parent x v =>
    simp only [Assign.ClosesNoCycle] at hna
    push_neg at hna
    obtain ⟨y, rfl, hcyc⟩ := hna
    refine ⟨linkParent x (some y) k, x, rfl, ?_⟩
    by_cases hA : Relation.ReflTransGen (ParentStep k) y x
    · have hc := cycle_of_parent_assign hA
      exact Or.inr fun fuel =>
        ⟨root_on_cycle hc fuel x Relation.ReflTransGen.refl,
          parents_on_cycle hc fuel x [] Relation.ReflTransGen.refl⟩
    · exact Or.inl fun fuel =>
        children_on_cycle (cycle_of_parent_assign_down (hcyc hA)) fuel x
          Relation.ReflTransGen.refl

/-- From a controller without a child nothing else is reached along child
links. -/
theorem childStep_none {h : Heap} {a b : Nat} (hf : (h.ctl a).child = none)
    (hr : Relation.ReflTransGen (ChildStep h) a b) : a = b := by
  rcases Relation.ReflTransGen.cases_head hr with hab | ⟨c, hac, _⟩
  · exact hab
  · unfold ChildStep at hac
    rw [hf] at hac
    exact absurd hac (by simp)

/-- What is reached along child links is the controller itself or is reached
from its child. -/
theorem childStep_some {h : Heap} {a b c : Nat} (hf : (h.ctl a).child = some c)
    (hr : Relation.ReflTransGen (ChildStep h) a b) :
    a = b ∨ Relation.ReflTransGen (ChildStep h) c b := by
  rcases Relation.ReflTransGen.cases_head hr with hab | ⟨w, haw, hwb⟩
  · exact Or.inl hab
  · unfold ChildStep at haw
    rw [hf] at haw
    rw [Option.some.inj haw]
    exact Or.inr hwb

/-- From a controller without a parent nothing else is reached along parent
links. -/
theorem parentStep_none {h : Heap} {a b : Nat} (hf : (h.ctl a).parent = none)
    (hr : Relation.ReflTransGen (ParentStep h) a b) : a = b := by
  rcases Relation.ReflTransGen.cases_head hr with hab | ⟨c, hac, _⟩
  · exact hab
  · unfold ParentStep at hac
    rw [hf] at hac
    exact absurd hac (by simp)

theorem root_of_rank {h : Heap} {r : Nat → Nat}
    (hr : ∀ x q, (h.ctl x).parent = some q → r q < r x) :
    ∀ (m x : Nat), r x ≤ m → ∃ root, Relation.ReflTransGen (ParentStep h) x root ∧
      (h.ctl root).parent = none ∧
      ∀ fuel, m < fuel → getRootController h fuel x = some root := by
  intro m
  induction m with
  | zero =>
    intro x hx
    cases hp : (h.ctl x).parent with
    | some q => have := hr x q hp; omega
    | none =>
      refine ⟨x, Relation.ReflTransGen.refl, hp, fun fuel hf => ?_⟩
      obtain ⟨n, rfl⟩ : ∃ n, fuel = n + 1 := ⟨fuel - 1, by omega⟩
      simp [getRootController, hp]
  | succ m ih =>
    intro x hx
    cases hp : (h.ctl x).parent with
    | some q =>
      have := hr x q hp
      obtain ⟨root, hreach, hroot, hfuel⟩ := ih q (by omega)
      refine ⟨root, Relation.ReflTransGen.head hp hreach, hroot, fun fuel hf => ?_⟩
      obtain ⟨n, rfl⟩ : ∃ n, fuel = n + 1 := ⟨fuel - 1, by omega⟩
      simp only [getRootController, hp]
      exact hfuel n (by omega)
    | none =>
      refine ⟨x, Relation.ReflTransGen.refl, hp, fun fuel hf => ?_⟩
      obtain ⟨n, rfl⟩ : ∃ n, fuel = n + 1 := ⟨fuel - 1, by omega⟩
      simp [getRootController, hp]

theorem parents_of_rank {h : Heap} {r : Nat → Nat}
    (hr : ∀ x q, (h.ctl x).parent = some q → r q < r x) :
    ∀ (m x : Nat), r x ≤ m → ∀ fuel, m < fuel → ∀ states,
      ∃ l, getParentsStateListLoop h fuel x states = some l := by
  intro m
  induction m with
  | zero =>
    intro x hx fuel hf states
    obtain ⟨n, rfl⟩ : ∃ n, fuel = n + 1 := ⟨fuel - 1, by omega⟩
    cases hp : (h.ctl x).parent with
    | some q => have := hr x q hp; omega
    | none => exact ⟨_, by simp only [getParentsStateListLoop, hp]; rfl⟩
  | succ m ih =>
    intro x hx fuel hf states
    obtain ⟨n, rfl⟩ : ∃ n, fuel = n + 1 := ⟨fuel - 1, by omega⟩
    cases hp : (h.ctl x).parent with
    | some q =>
      have := hr x q hp
      simp only [getParentsStateListLoop, hp]
      exact ih q (by omega) n (by omega) _
    | none => exact ⟨_, by simp only [getParentsStateListLoop, hp]; rfl⟩

theorem children_of_rank {h : Heap} {d : Nat → Nat}
    (hd : ∀ x c, (h.ctl x).child = some c → d c < d x) :
    ∀ (m x : Nat), d x ≤ m → ∀ fuel, m < fuel →
      ∃ l, getChildrenStateList h fuel x = some l := by
  intro m
  induction m with
  | zero =>
    intro x hx fuel hf
    obtain ⟨n, rfl⟩ : ∃ n, fuel = n + 1 := ⟨fuel - 1, by omega⟩
    cases hp : (h.ctl x).child with
    | some q => have := hd x q hp; omega
    | none => exact ⟨_, by simp only [getChildrenStateList, hp]; rfl⟩
  | succ m ih =>
    intro x hx fuel hf
    obtain ⟨n, rfl⟩ : ∃ n, fuel = n + 1 := ⟨fuel - 1, by omega⟩
    cases hp : (h.ctl x).child with
    | some q =>
      have := hd x q hp
      obtain ⟨l, hl⟩ := ih q (by omega) n (by omega)
      exact ⟨_, by simp only [getChildrenStateList, hp, hl]; rfl⟩
    | none => exact ⟨_, by simp only [getChildrenStateList, hp]; rfl⟩

theorem selfLoop_never_ends : ∀ fuel, getRootController selfLoop fuel 0 = none := by
  intro fuel
  induction fuel with
  | zero => rfl
  | succ n ih =>
    have hp : (selfLoop.ctl 0).parent = some 0 := by decide
    simp only [getRootController, hp]
    exact ih

theorem no_cycle_of_rank {R : Nat → Nat → Prop} {r : Nat → Nat}
    (hr : ∀ a b, R a b → r b < r a) {a b : Nat} (hab : Relation.TransGen R a b) :
    r b < r a := by
  induction hab with
  | single h1 => exact hr _ _ h1
  | tail _ h2 ih => exact lt_trans (hr _ _ h2) ih

/-! ## Helper lemmas: how failures surface -/

theorem inThen_not_threw (o : Outcome) (e : String) : o.inThen ≠ .threw e := by
  cases o <;> simp [Outcome.inThen]

theorem await_not_threw (r : HookRet) (e : String) : r.await ≠ .threw e := by
  cases r <;> simp [HookRet.await]

theorem childLeave_not_threw (recur : Nat → List State → Heap → Heap × Outcome) (x : Nat)
    (h : Heap) (e : String) : (childLeave recur x h).2 ≠ .threw e := by
  unfold childLeave
  split
  · exact inThen_not_threw _ _
  · simp

theorem childEnter_not_threw (recur : Nat → List State → Heap → Heap × Outcome) (x : Nat)
    (args : List State) (h : Heap) (e : String) : (childEnter recur x args h).2 ≠ .threw e := by
  unfold childEnter
  split
  · split
    · simp
    · exact inThen_not_threw _ _
  · split <;> simp

theorem myLeave_not_threw (M : Methods) (x : Nat) (h : Heap) (e : String) :
    (myLeave M x h).2 ≠ .threw e := by
  unfold myLeave
  split
  · exact await_not_threw _ _
  · simp

theorem myEnter_not_threw (M : Methods) (x : Nat) (s : State) (h : Heap) (e : String) :
    (myEnter M x s h).2 ≠ .threw e := by
  unfold myEnter
  split
  · exact await_not_threw _ _
  · simp

theorem andThen_not_threw {r : Heap × Outcome} {next : Heap → Heap × Outcome} {e : String}
    (hr : r.2 ≠ .threw e) (hn : ∀ k, (next k).2 ≠ .threw e) : (andThen r next).2 ≠ .threw e := by
  rcases andThen_cases r next with ⟨_, h⟩ | ⟨_, h⟩
  · rw [h]; exact hn _
  · rw [h]; exact hr

theorem state_threw (M : Methods) (n x : Nat) (args : List State) (h : Heap) (e : String)
    (ht : (state M n x args h).2 = .threw e) :
    statesEqual (h.ctl x).currentState (args.headD .undefined) = .error e := by
  cases n with
  | zero => simp [state] at ht
  | succ n =>
    unfold state at ht
    split at ht
    · rename_i e2 he
      simp only [Outcome.threw.injEq] at ht
      rw [he, ht]
    · exact absurd ht (childEnter_not_threw _ _ _ _ _)
    · exact absurd ht (andThen_not_threw (andThen_not_threw (andThen_not_threw
        (childLeave_not_threw _ _ _ _) (fun _ => myLeave_not_threw _ _ _ _))
        (fun _ => myEnter_not_threw _ _ _ _ _)) (fun _ => childEnter_not_threw _ _ _ _ _))

theorem statesEqual_error {a b : State} {e : String} (h : statesEqual a b = .error e) :
    e = "If a state is an object, it must implement a isStateEqual(other) method" ∧
    a.isObject = true ∧ a.truthy = true ∧ b.truthy = true ∧
    (a.hasIsStateEqual = false ∨ b.hasIsStateEqual = false) := by
  unfold statesEqual at h
  split at h
  · rename_i hg
    simp only [Bool.and_eq_true] at hg
    split at h
    · rename_i hm
      simp only [Bool.or_eq_true, Bool.not_eq_true'] at hm
      injection h with h
      exact ⟨h.symm, hg.2, hg.1.1, hg.1.2, hm⟩
    · simp at h
  · simp at h

/-! ## Helper lemmas: the invariant of the data model -/

theorem truthy_ne_null {s : State} (h : s.truthy = true) : s ≠ .null := by
  intro e; subst e; simp [State.truthy] at h

theorem tidy_record {h : Heap} (t : Tidy h) (e : Event) : Tidy (h.record e) := t

theorem tidy_setCurrentState {h : Heap} (t : Tidy h) (x : Nat) {s : State} (hs : s ≠ .null) :
    Tidy (h.setCurrentState x s) := by
  refine ⟨fun y hy => ?_, fun y c hc => ?_⟩
  · simp only [setCurrentState_cur] at hy
    split at hy
    · exact absurd hy hs
    · simpa using t.1 y hy
  · simp only [setCurrentState_child] at hc
    simpa using t.2 y c hc

theorem tidy_hook {h : Heap} (t : Tidy h) (f : Hook) {x : Nat} (hx : x < h.next)
    (hs : (h.ctl x).currentState ≠ .null) : Tidy (f.run x h).1 := by
  unfold Hook.run
  cases hk : f.newChild with
  | none => exact t
  | some k =>
    have hxn : x ≠ h.next := by omega
    refine ⟨fun y hy => ?_, fun y c hc => ?_⟩
    · simp only [linkChild_cur, alloc_ctl] at hy
      simp only [linkChild_child, alloc_ctl]
      by_cases hyx : y = x
      · subst hyx
        rw [if_neg hxn] at hy
        exact absurd hy hs
      · rw [if_neg hyx]
        by_cases hyn : y = h.next
        · rw [if_pos hyn]; rfl
        · rw [if_neg hyn] at hy ⊢
          exact t.1 y hy
    · simp only [linkChild_child, alloc_ctl, linkChild_next, alloc_next] at hc ⊢
      by_cases hyx : y = x
      · rw [if_pos hyx] at hc
        have : h.next = c := by simpa using hc
        omega
      · rw [if_neg hyx] at hc
        by_cases hyn : y = h.next
        · rw [if_pos hyn] at hc
          simp [Controller.new] at hc
        · rw [if_neg hyn] at hc
          have := t.2 y c hc
          omega

theorem tidy_leave (M : Methods) {h : Heap} (t : Tidy h) {x : Nat} (hx : x < h.next)
    (hs : (h.ctl x).currentState ≠ .null) : Tidy (leave M x h).1 := by
  unfold leave
  split
  · exact t
  · split
    · exact t
    · rename_i m _ _ f _
      have := tidy_hook (tidy_record t ⟨x, m⟩) f (by simpa using hx) (by simpa using hs)
      dsimp only
      split <;> exact this

theorem tidy_myLeave (M : Methods) {h : Heap} (t : Tidy h) {x : Nat} (hx : x < h.next) :
    Tidy (myLeave M x h).1 := by
  unfold myLeave
  split
  · rename_i ht
    have tl := tidy_leave M t hx (truthy_ne_null ht)
    refine ⟨fun y hy => ?_, fun y c hc => ?_⟩
    · simp only [linkChild_child, setCurrentState_child]
      simp only [linkChild_cur, setCurrentState_cur] at hy
      by_cases hyx : y = x
      · rw [if_pos hyx]
      · rw [if_neg hyx] at hy ⊢
        exact tl.1 y hy
    · simp only [linkChild_child, setCurrentState_child, linkChild_next,
        setCurrentState_next] at hc ⊢
      by_cases hyx : y = x
      · rw [if_pos hyx] at hc
        exact absurd hc (by simp)
      · rw [if_neg hyx] at hc
        exact tl.2 y c hc
  · exact t

theorem tidy_enter (M : Methods) {h : Heap} (t : Tidy h) {x : Nat} (hx : x < h.next)
    {s : State} (hs : s ≠ .null) : Tidy (enter M x s h).1 := by
  have t1 := tidy_setCurrentState t x hs
  unfold enter
  dsimp only
  split
  · exact t1
  · split
    · exact t1
    · rename_i m _ _ f _
      exact tidy_hook (tidy_record t1 ⟨x, m⟩) f (by simpa using hx) (by simp [hs])

theorem tidy_myEnter (M : Methods) {h : Heap} (t : Tidy h) {x : Nat} (hx : x < h.next)
    (s : State) : Tidy (myEnter M x s h).1 := by
  unfold myEnter
  split
  · rename_i ht
    exact tidy_enter M (tidy_setCurrentState t x (truthy_ne_null ht)) (by simpa using hx)
      (truthy_ne_null ht)
  · exact t

theorem tidy_childLeave {recur : Nat → List State → Heap → Heap × Outcome}
    (ih : KeepsTidy recur) {h : Heap} (t : Tidy h) (x : Nat) :
    Tidy (childLeave recur x h).1 ∧ h.next ≤ (childLeave recur x h).1.next := by
  unfold childLeave
  cases hc : (h.ctl x).child with
  | none => exact ⟨t, le_refl _⟩
  | some c => exact ih c [.null] h t (t.2 x c hc)

theorem tidy_childEnter {recur : Nat → List State → Heap → Heap × Outcome}
    (ih : KeepsTidy recur) {h : Heap} (t : Tidy h) (x : Nat) (args : List State) :
    Tidy (childEnter recur x args h).1 ∧ h.next ≤ (childEnter recur x args h).1.next := by
  unfold childEnter
  split
  · cases hc : (h.ctl x).child with
    | none => exact ⟨t, le_refl _⟩
    | some c => exact ih c (args.drop 1) h t (t.2 x c hc)
  · cases hc : (h.ctl x).child with
    | none => exact ⟨t, le_refl _⟩
    | some c => exact ⟨t, le_refl _⟩

theorem tidy_andThen {r : Heap × Outcome} {next : Heap → Heap × Outcome} {b : Nat}
    (t : Tidy r.1 ∧ b ≤ r.1.next)
    (hn : Tidy r.1 → b ≤ r.1.next → Tidy (next r.1).1 ∧ b ≤ (next r.1).1.next) :
    Tidy (andThen r next).1 ∧ b ≤ (andThen r next).1.next := by
  rcases andThen_cases r next with ⟨_, e⟩ | ⟨_, e⟩
  · rw [e]; exact hn t.1 t.2
  · rw [e]; exact t

theorem tidy_state (M : Methods) : ∀ n, KeepsTidy (state M n) := by
  intro n
  induction n with
  | zero =>
    intro c args h t _
    exact ⟨t, le_refl _⟩
  | succ n ih =>
    intro x args h t hx
    unfold state
    split
    · exact ⟨t, le_refl _⟩
    · exact tidy_childEnter ih t x args
    · refine tidy_andThen (tidy_andThen (tidy_andThen (tidy_childLeave ih t x) ?_) ?_) ?_
      · intro t1 b1
        exact ⟨tidy_myLeave M t1 (by omega), le_trans b1 (myLeave_frame M x _).1⟩
      · intro t2 b2
        exact ⟨tidy_myEnter M t2 (by omega) _, le_trans b2 (myEnter_frame M x _ _).1⟩
      · intro t3 b3
        have := tidy_childEnter ih t3 x args
        exact ⟨this.1, le_trans b3 this.2⟩

/-- C11 (counterexample): a controller in the state `x` (a string) is sent to
a state object that has no `isStateEqual` method: both states are non-null and
a state object lacks the equality method, yet the future resolves. The check
in `statesEqual` only looks for the method when the current state is an
object. -/
theorem C11_primitive_current_state_resolves :
    (soloLeaf.ctl 0).currentState = .str "x" ∧ soloObject.hasIsStateEqual = false ∧
    (state sampleHooks 1 0 [.obj soloObject] soloLeaf).2 = .resolved := by
  refine ⟨by decide, by decide, by decide⟩

/-- C11 (amended): every fatal violation other than the equality error on the
controller `state` is called on ends in a rejection of the returned future.
(1) The call itself throws exactly when the equality check between the current
state of that controller and the requested state fails. (2) For a controller
ready for a transition into a truthy state `s`: a missing enter hook, an enter
hook that throws or rejects, a hook that constructs no child while further
states are requested, and a hook that constructs a child while no further
state is requested, each reject; when the hook constructs a child and further
states are requested, the outcome is that of the call on the child, an
exception of that call turned into a rejection. (3) A leave hook that throws
rejects. (4) For a controller already in the requested state: both depth
errors reject, and otherwise the outcome is that of the call on the child, an
exception turned into a rejection. (5) A failure of the teardown call on the
child rejects. (6) A call made inside the pipeline turns an exception into a
rejection and keeps a rejection. (7) The equality check fails only when the
current state is an object, both states are truthy and one of them has no
`isStateEqual` method. -/
theorem C11_failures_reject (M : Methods) :
    (∀ (n x : Nat) (args : List State) (h : Heap) (e : String),
      (state M (n + 1) x args h).2 = .threw e ↔
        statesEqual (h.ctl x).currentState (args.headD .undefined) = .error e) ∧
    (∀ (h : Heap) (x : Nat) (p : List Nat) (n : Nat) (s : State) (rest : List State)
        (name : String),
      Ready M h x p → p.length ≤ n → statesEqual (h.ctl x).currentState s = .ok false →
      s.truthy = true → stateMethodName "enter" s = .ok name →
      (M (h.ctl x).cls name = none →
        (state M (n + 1) x (s :: rest) h).2 =
          .rejected ("State method " ++ name ++ " does not exist")) ∧
      (∀ f e, M (h.ctl x).cls name = some f → (f.ret = .throws e ∨ f.ret = .rejects e) →
        (state M (n + 1) x (s :: rest) h).2 = .rejected e) ∧
      (∀ f, M (h.ctl x).cls name = some f → f.newChild = none → f.ret = .value →
        rest ≠ [] →
        (state M (n + 1) x (s :: rest) h).2 = .rejected (noChildMsg (s :: rest))) ∧
      (∀ f c, M (h.ctl x).cls name = some f → f.newChild = some c → f.ret = .value →
        rest = [] →
        (state M (n + 1) x (s :: rest) h).2 = .rejected (missingChildStateMsg (s :: rest))) ∧
      (∀ f c, M (h.ctl x).cls name = some f → f.newChild = some c → f.ret = .value →
        rest ≠ [] →
        ∃ k ch, (k.ctl x).child = some ch ∧
          (state M (n + 1) x (s :: rest) h).2 = (state M n ch rest k).2.inThen)) ∧
    (∀ (h : Heap) (x : Nat) (p : List Nat) (n : Nat) (args : List State) (name e : String)
        (f : Hook),
      ChildrenReady M h x p → p.length ≤ n → (h.ctl x).currentState.truthy = true →
      statesEqual (h.ctl x).currentState (args.headD .undefined) = .ok false →
      stateMethodName "leave" (h.ctl x).currentState = .ok name →
      M (h.ctl x).cls name = some f → f.ret = .throws e →
      (state M (n + 1) x args h).2 = .rejected e) ∧
    (∀ (h : Heap) (x n : Nat) (s : State) (rest : List State),
      statesEqual (h.ctl x).currentState s = .ok true →
      ((h.ctl x).child = none → rest ≠ [] →
        state M (n + 1) x (s :: rest) h = (h, .rejected (noChildMsg (s :: rest)))) ∧
      (∀ c, (h.ctl x).child = some c → rest = [] →
        state M (n + 1) x (s :: rest) h = (h, .rejected (missingChildStateMsg (s :: rest)))) ∧
      (∀ c, (h.ctl x).child = some c → rest ≠ [] →
        (state M (n + 1) x (s :: rest) h).2 = (state M n c rest h).2.inThen)) ∧
    (∀ (h : Heap) (x c n : Nat) (args : List State) (e : String),
      statesEqual (h.ctl x).currentState (args.headD .undefined) = .ok false →
      (h.ctl x).child = some c →
      ((state M n c [.null] h).2 = .threw e ∨ (state M n c [.null] h).2 = .rejected e) →
      (state M (n + 1) x args h).2 = .rejected e) ∧
    (∀ e, (Outcome.threw e).inThen = .rejected e ∧ (Outcome.rejected e).inThen = .rejected e) ∧
    (∀ (a b : State) (e : String), statesEqual a b = .error e →
      e = "If a state is an object, it must implement a isStateEqual(other) method" ∧
      a.isObject = true ∧ a.truthy = true ∧ b.truthy = true ∧
      (a.hasIsStateEqual = false ∨ b.hasIsStateEqual = false)) := by
  refine ⟨?_, ?_, ?_, ?_, ?_, fun e => ⟨rfl, rfl⟩, fun a b e he => statesEqual_error he⟩
  · intro n x args h e
    constructor
    · exact state_threw M (n + 1) x args h e
    · intro he
      unfold state
      simp only [he]
  · intro h x p n s rest name r hn hne ht hname
    refine ⟨?_, ?_, ?_, ?_, ?_⟩
    · intro hm
      obtain ⟨k, ⟨_, _, hcls, _, _, _, _⟩, e⟩ :=
        transition M r hn (s :: rest) (by simpa using hne)
      rw [← hcls] at hm
      simp only [List.headD_cons] at e
      rw [e, myEnter_missing M ht hname hm]
      simp [andThen]
    · intro f e hm hf
      obtain ⟨k, ⟨_, _, hcls, _, _, _, _⟩, e1⟩ :=
        transition M r hn (s :: rest) (by simpa using hne)
      rw [← hcls] at hm
      simp only [List.headD_cons] at e1
      rw [e1, myEnter_hook M ht hname hm]
      rcases hf with hf | hf <;> rw [hf] <;> simp [andThen, HookRet.await]
    · intro f hm hf hret hrest
      obtain ⟨s2, r2, rfl⟩ : ∃ s2 r2, rest = s2 :: r2 := by
        cases rest with
        | nil => exact absurd rfl hrest
        | cons s2 r2 => exact ⟨s2, r2, rfl⟩
      obtain ⟨k, ⟨_, hch, hcls, _, _, _, _⟩, e⟩ :=
        transition M r hn (s :: s2 :: r2) (by simpa using hne)
      rw [← hcls] at hm
      simp only [List.headD_cons] at e
      rw [e, myEnter_hook M ht hname hm, Hook.run_none hf, hret]
      simp [andThen, HookRet.await, childEnter, hch]
    · intro f c hm hf hret hrest
      subst hrest
      obtain ⟨k, ⟨_, _, hcls, _, _, _, _⟩, e⟩ := transition M r hn [s] (by simpa using hne)
      rw [← hcls] at hm
      simp only [List.headD_cons] at e
      rw [e, myEnter_hook M ht hname hm, Hook.run_some hf, hret]
      simp [andThen, HookRet.await, childEnter]
    · intro f c hm hf hret hrest
      obtain ⟨s2, r2, rfl⟩ : ∃ s2 r2, rest = s2 :: r2 := by
        cases rest with
        | nil => exact absurd rfl hrest
        | cons s2 r2 => exact ⟨s2, r2, rfl⟩
      obtain ⟨k, ch, e, _, _, _, _, _, _, hxc, _⟩ :=
        enter_with_child M r hn s2 r2 hne ht hname hm hf hret
      exact ⟨k, ch, hxc, by rw [e]⟩
  · intro h x p n args name e f r hn ht hne hname hm hf
    have hx := r.1.lt
    have hxp : x ∉ p := (List.nodup_cons.mp r.1.2.1).1
    obtain ⟨k1, e1, _, _, f1⟩ := childLeave_ready M r hn
    have core := f1.self_core hx hxp
    rw [← core.2.1] at ht hname
    rw [← core.1] at hm
    have e2 := myLeave_throws M ht hname hm hf
    unfold state
    simp only [hne]
    rw [andThen_resolved e1, e2]
    rfl
  · intro h x n s rest he
    refine ⟨?_, ?_, ?_⟩
    · intro hch hrest
      obtain ⟨s2, r2, rfl⟩ : ∃ s2 r2, rest = s2 :: r2 := by
        cases rest with
        | nil => exact absurd rfl hrest
        | cons s2 r2 => exact ⟨s2, r2, rfl⟩
      unfold state
      simp only [List.headD_cons, he]
      simp [childEnter, hch]
    · intro c hch hrest
      subst hrest
      unfold state
      simp only [List.headD_cons, he]
      simp [childEnter, hch]
    · intro c hch hrest
      obtain ⟨s2, r2, rfl⟩ : ∃ s2 r2, rest = s2 :: r2 := by
        cases rest with
        | nil => exact absurd rfl hrest
        | cons s2 r2 => exact ⟨s2, r2, rfl⟩
      rw [state]
      simp only [List.headD_cons, he]
      simp [childEnter, hch]
  · intro h x c n args e hne hch hfail
    rw [state]
    simp only [hne]
    have hcl : (childLeave (state M n) x h).2 = .rejected e := by
      unfold childLeave
      simp only [hch]
      rcases hfail with hf | hf <;> rw [hf] <;> rfl
    have hnr : (childLeave (state M n) x h).2 ≠ .resolved := by rw [hcl]; simp
    rw [andThen_failed hnr, andThen_failed hnr, andThen_failed hnr]
    exact hcl

/-- C11 (witness): the root of the chain `0 → 1` is in the state `x`, its child
in a state object without `isStateEqual`; `state(['x', 'b'])` on the root
rejects with the equality error raised in the child. A new controller sent to
`zzz`, for which its subclass has no enter hook, rejects as well. A controller
whose own current state is that state object, sent to `b`: the call itself
throws the equality error (against `@return {!Promise}` in the docstring of
`state`). -/
theorem C11_failures_reject_witness :
    (state noHooks 2 0 [.str "x", .str "b"]
        ((linkedPair.setCurrentState 0 (.str "x")).setCurrentState 1 (.obj soloObject))).2 =
      .rejected "If a state is an object, it must implement a isStateEqual(other) method" ∧
    (state sampleHooks 1 0 [.str "zzz"] (Heap.init 1)).2 =
      .rejected ("State method " ++ "enterZzz" ++ " does not exist") ∧
    (state noHooks 1 0 [.str "b"] ((Heap.init 1).setCurrentState 0 (.obj soloObject))).2 =
      .threw "If a state is an object, it must implement a isStateEqual(other) method" :=
  ⟨(((C11_failures_reject noHooks).2.2.2.1
      ((linkedPair.setCurrentState 0 (.str "x")).setCurrentState 1 (.obj soloObject))
      0 1 (.str "x") [.str "b"] (by decide)).2.2 1 (by decide) (by simp)).trans (by decide),
    ((C11_failures_reject sampleHooks).2.1 (Heap.init 1) 0 [] 0 (.str "zzz") [] "enterZzz"
      (init_ready _) (by decide) (by decide) (by decide) (by decide)).1 (by decide),
    ((C11_failures_reject noHooks).1 0 0 [.str "b"]
      ((Heap.init 1).setCurrentState 0 (.obj soloObject)) _).mpr (by decide)⟩

/-- C12 (counterexample): a new controller without an `enterZzz` method is sent
to `zzz`: the transition rejects with the missing-hook error and afterwards
`currentState` of that controller is `zzz`, not null. -/
theorem C12_failed_enter_keeps_state :
    (state sampleHooks 1 0 [.str "zzz"] (Heap.init 1)).2 =
      .rejected "State method enterZzz does not exist" ∧
    ((state sampleHooks 1 0 [.str "zzz"] (Heap.init 1)).1.ctl 0).currentState = .str "zzz" := by
  refine ⟨by decide, by decide⟩

/-- C12 (amended): a controller ready for a transition into a truthy state `s`
different from its current one. When the transition fails in its enter stage
or in the dispatch to the child (no enter method, an enter hook that throws or
rejects, a child missing for a further requested state, a child constructed
without a state requested for it), the future rejects and `currentState` of
the failing controller is the requested state `s`; it is not cleared. When
the enter hook constructs a child and further states are requested, the
controller keeps the state `s` and that child however the call on the child
ends. -/
theorem C12_failure_keeps_entered_state (M : Methods) (h : Heap) (x : Nat) (p : List Nat)
    (n : Nat) (s : State) (name : String)
    (r : Ready M h x p) (hn : p.length ≤ n)
    (hne : statesEqual (h.ctl x).currentState s = .ok false) (ht : s.truthy = true)
    (hname : stateMethodName "enter" s = .ok name) :
    (M (h.ctl x).cls name = none → ∀ rest,
      (state M (n + 1) x (s :: rest) h).2 =
        .rejected ("State method " ++ name ++ " does not exist") ∧
      ((state M (n + 1) x (s :: rest) h).1.ctl x).currentState = s) ∧
    (∀ f e, M (h.ctl x).cls name = some f → (f.ret = .throws e ∨ f.ret = .rejects e) →
      ∀ rest, (state M (n + 1) x (s :: rest) h).2 = .rejected e ∧
        ((state M (n + 1) x (s :: rest) h).1.ctl x).currentState = s) ∧
    (∀ f b, M (h.ctl x).cls name = some f → f.newChild = none → f.ret = .value →
      (state M (n + 1) x [s, b] h).2 = .rejected (noChildMsg [s, b]) ∧
      ((state M (n + 1) x [s, b] h).1.ctl x).currentState = s) ∧
    (∀ f c, M (h.ctl x).cls name = some f → f.newChild = some c → f.ret = .value →
      (state M (n + 1) x [s] h).2 = .rejected (missingChildStateMsg [s]) ∧
      ((state M (n + 1) x [s] h).1.ctl x).currentState = s) ∧
    (∀ f c s2 rest, M (h.ctl x).cls name = some f → f.newChild = some c → f.ret = .value →
      ((state M (n + 1) x (s :: s2 :: rest) h).1.ctl x).currentState = s ∧
      ∃ ch, ((state M (n + 1) x (s :: s2 :: rest) h).1.ctl x).child = some ch) := by
  refine ⟨?_, ?_, ?_, ?_, ?_⟩
  · intro hm rest
    obtain ⟨k, ⟨_, _, hcls, _, _, _, _⟩, e⟩ := transition M r hn (s :: rest) (by simpa using hne)
    rw [← hcls] at hm
    simp only [List.headD_cons] at e
    rw [e, myEnter_missing M ht hname hm]
    simp [andThen]
  · intro f e hm hf rest
    obtain ⟨k, ⟨_, _, hcls, _, hx, _, _⟩, e1⟩ :=
      transition M r hn (s :: rest) (by simpa using hne)
    rw [← hcls] at hm
    simp only [List.headD_cons] at e1
    have hcur := (Hook.run_self f x
      (((k.setCurrentState x s).setCurrentState x s).record ⟨x, name⟩) (by simpa using hx)).2
    rw [e1, myEnter_hook M ht hname hm]
    rcases hf with hf | hf <;> rw [hf] <;> simp [andThen, HookRet.await] <;> simpa using hcur
  · intro f b hm hf hret
    obtain ⟨k, ⟨_, hch, hcls, _, _, _, _⟩, e⟩ := transition M r hn [s, b] (by simpa using hne)
    rw [← hcls] at hm
    simp only [List.headD_cons] at e
    rw [e, myEnter_hook M ht hname hm, Hook.run_none hf, hret]
    simp [andThen, HookRet.await, childEnter, hch]
  · intro f c hm hf hret
    obtain ⟨k, ⟨_, _, hcls, _, hx, _, _⟩, e⟩ := transition M r hn [s] (by simpa using hne)
    have hne2 : k.next ≠ x := by omega
    rw [← hcls] at hm
    simp only [List.headD_cons] at e
    rw [e, myEnter_hook M ht hname hm, Hook.run_some hf, hret]
    simp [andThen, HookRet.await, childEnter, Ne.symm hne2]
  · intro f c s2 rest hm hf hret
    have hx := r.1.1.lt
    obtain ⟨k, ch, e, _, hch, _, _, hl, hge, hxc, hxs⟩ :=
      enter_with_child M r hn s2 rest hne ht hname hm hf hret
    have fr := (state_spec M n ch (s2 :: rest) k [] (WellFormed.single hch hl)).1
    have hxk : x < k.next := by omega
    have core := fr.self_core hxk (by simp; omega)
    rw [e]
    exact ⟨core.2.1.trans hxs, ch, core.2.2.trans hxc⟩

/-- C12 (witness): the new controller of subclass `0` sent to `['zzz', 'b']`. -/
theorem C12_failure_keeps_entered_state_witness :
    (state sampleHooks 1 0 [.str "zzz", .str "b"] (Heap.init 1)).2 =
        .rejected ("State method " ++ "enterZzz" ++ " does not exist") ∧
      ((state sampleHooks 1 0 [.str "zzz", .str "b"] (Heap.init 1)).1.ctl 0).currentState
        = .str "zzz" :=
  (C12_failure_keeps_entered_state sampleHooks (Heap.init 1) 0 [] 0 (.str "zzz") "enterZzz"
    (init_ready _) (by decide) (by decide) (by decide) (by decide)).1 (by decide) [.str "b"]

/-- C13: in a controller tree in which every controller without a state has no
child (and child links point at constructed controllers), where hooks only
assign a newly constructed child, every controller still has no child while it
has no state after a call of `state(chain)`, however the call ends. -/
theorem C13_child_only_with_state (M : Methods) (n x : Nat) (args : List State) (h : Heap)
    (hinv : ChildOnlyWithState h) (halloc : ChildrenAllocated h) (hx : x < h.next) :
    ChildOnlyWithState (state M n x args h).1 :=
  (tidy_state M n x args h ⟨hinv, halloc⟩ hx).1.1

/-- C13 (witness): the chain `0 → 1 → 2` sent to `['a']`, a call that rejects
because `enterA` constructs a child for which no state is requested. -/
theorem C13_child_only_with_state_witness :
    (state sampleHooks 4 0 [.str "a"] sampleChain).2 =
      .rejected (missingChildStateMsg [.str "a"]) ∧
    ChildOnlyWithState (state sampleHooks 4 0 [.str "a"] sampleChain).1 :=
  ⟨by decide, C13_child_only_with_state sampleHooks 4 0 [.str "a"] sampleChain
    (by
      intro y hy
      by_cases h0 : y = 0
      · subst h0; simp [sampleChain] at hy
      by_cases h1 : y = 1
      · subst h1; simp [sampleChain] at hy
      by_cases h2 : y = 2
      · subst h2; simp [sampleChain] at hy
      simp [sampleChain, h0, h1, h2, Controller.new])
    (by
      intro y c hc
      by_cases h0 : y = 0
      · subst h0; simp [sampleChain] at hc; subst hc; decide
      by_cases h1 : y = 1
      · subst h1; simp [sampleChain] at hc; subst hc; decide
      by_cases h2 : y = 2
      · subst h2; simp [sampleChain] at hc
      simp [sampleChain, h0, h1, h2, Controller.new] at hc)
    (by decide)⟩

/-- C14: for every prefix and every non-empty string state (first character
`c`, rest `cs`), `stateMethodName` returns the prefix followed by the upper
case of `c` (`toUpperCase`, the Unicode mapping: one character or several)
followed by `cs` unchanged; for an object state the result is that of its
`stateName` string, not of a generic string conversion. The upper case of an
ASCII small letter (`a` is `97`, `z` is `122`) is the letter `32` places before
it, every other ASCII character is unchanged; `('enter', 'foo')` gives `'enterFoo'`, `'élan'` gives
`'enterÉlan'` and `'ßx'` gives `'enterSSx'`. -/
theorem C14_stateMethodName_capitalizes (pfx : String) :
    (∀ (s : String) (c : Char) (cs : List Char), s.data = c :: cs →
      ∃ name, stateMethodName pfx (.str s) = .ok name ∧
        name.data = pfx.data ++ toUpperCase c ++ cs) ∧
    (∀ o : StateObj, stateMethodName pfx (.obj o) = stateMethodName pfx (.str o.stateName)) ∧
    (∀ c : Char, 97 ≤ c.toNat → c.toNat ≤ 122 → toUpperCase c = [Char.ofNat (c.toNat - 32)]) ∧
    (∀ c : Char, c.toNat < 128 → ¬ (97 ≤ c.toNat ∧ c.toNat ≤ 122) → toUpperCase c = [c]) ∧
    stateMethodName "enter" (.str "foo") = .ok "enterFoo" ∧
    stateMethodName "enter" (.str "élan") = .ok "enterÉlan" ∧
    stateMethodName "enter" (.str "ßx") = .ok "enterSSx" := by
  refine ⟨?_, fun o => rfl, ?_, ?_, by decide, by decide, by decide⟩
  · intro s c cs hs
    refine ⟨pfx ++ upperFirst s, rfl, ?_⟩
    simp [upperFirst, hs]
  · intro c h1 h2
    have hn : c.toNat < 128 := by omega
    unfold toUpperCase
    simp only [hn, if_true]
    unfold Char.toUpper
    simp only [ge_iff_le, h1, h2, and_self, if_true]
  · intro c hn h
    unfold toUpperCase
    simp only [hn, if_true]
    unfold Char.toUpper
    simp only [ge_iff_le, h, if_false]

/-- C14 (witness): `('enter', 'élan')` gives `'enterÉlan'`. -/
theorem C14_stateMethodName_capitalizes_witness :
    ∃ name, stateMethodName "enter" (.str "élan") = .ok name ∧
      name.data = "enter".data ++ toUpperCase 'é' ++ ['l', 'a', 'n'] :=
  (C14_stateMethodName_capitalizes "enter").1 "élan" 'é' ['l', 'a', 'n'] rfl

/-- C15 (code defect): for the object of the `@example` in the docstring,
`{abc: 5, stateName: 'enterFoo'}`, `stateMethodName('enter', state)` returns
`'enterEnterFoo'`, not the documented `'enterFoo'`: the prefix is always put in
front of the capitalized `stateName`. -/
theorem C15_docstring_example_differs :
    stateMethodName "enter" (.obj exampleObject) = .ok "enterEnterFoo" ∧
    stateMethodName "enter" (.obj exampleObject) ≠ .ok "enterFoo" := by
  refine ⟨by decide, by decide⟩

/-- C16: on a consistent chain `root → ... → leaf`, `getChildrenStateList()` of
the root returns the states from the root down to the leaf,
`getParentsStateList()` of the leaf returns the same list, `getRootController()`
of the leaf is the root, and so the parents list of the leaf is the children
list of its root controller; each loop ends within as many steps as the chain
has controllers. -/
theorem C16_state_lists_agree (h : Heap) (root : Nat) (p : List Nat)
    (hc : ConsistentChain h root p) (fuel : Nat) (hf : p.length < fuel) :
    getChildrenStateList h fuel root = some (statesOf h (root :: p)) ∧
    getParentsStateList h fuel ((root :: p).getLast (by simp)) = some (statesOf h (root :: p)) ∧
    getRootController h fuel ((root :: p).getLast (by simp)) = some root ∧
    getParentsStateList h fuel ((root :: p).getLast (by simp)) =
      (getRootController h fuel ((root :: p).getLast (by simp))).bind
        (getChildrenStateList h fuel) := by
  obtain ⟨hroot, hl⟩ := hc
  obtain ⟨n, rfl⟩ : ∃ n, fuel = n + 1 + p.length := ⟨fuel - 1 - p.length, by omega⟩
  have h1 := linked_children p root hl (n + 1 + p.length) (by omega)
  have h2 : getParentsStateList h (n + 1 + p.length) ((root :: p).getLast (by simp))
      = some (statesOf h (root :: p)) := by
    unfold getParentsStateList
    rw [linked_parents_loop p root hl (n + 1) []]
    simp [getParentsStateListLoop, hroot, statesOf]
  have h3 : getRootController h (n + 1 + p.length) ((root :: p).getLast (by simp))
      = some root := by
    rw [linked_root p root hl (n + 1)]
    simp [getRootController, hroot]
  refine ⟨h1, h2, h3, ?_⟩
  rw [h2, h3]
  simp [h1]

/-- C16 (witness): the chain `0 → 1 → 2` in the states `x`, `y`, `z`. -/
theorem C16_state_lists_agree_witness :
    getChildrenStateList sampleChain 3 0 = some (statesOf sampleChain [0, 1, 2]) ∧
    getParentsStateList sampleChain 3 2 = some (statesOf sampleChain [0, 1, 2]) ∧
    getRootController sampleChain 3 2 = some 0 ∧
    getParentsStateList sampleChain 3 2 =
      (getRootController sampleChain 3 2).bind (getChildrenStateList sampleChain 3) :=
  C16_state_lists_agree sampleChain 0 [1, 2]
    ⟨rfl, rfl, rfl, rfl, rfl, (rfl : (sampleChain.ctl 2).child = none)⟩ 3 (by decide)

/-- C17 (code defect): a controller in state `x` whose `leaveX` hook returns a
promise that never settles is sent to `a`. The transition resolves and the
enter hook `enterA` is invoked right after `leaveX`: `leave()` drops what the
hook returns, so the pipeline does not wait for it. An enter hook that
returns such a promise does hold the pipeline (the transition to `p` stays
pending). -/
theorem C17_leave_result_not_awaited :
    pendingHooks 0 "leaveX" = some ⟨none, .pending⟩ ∧
    (state pendingHooks 1 0 [.str "a"] soloLeaf).2 = .resolved ∧
    (state pendingHooks 1 0 [.str "a"] soloLeaf).1.trace = [⟨0, "leaveX"⟩, ⟨0, "enterA"⟩] ∧
    (leave pendingHooks 0 soloLeaf).2 = .value ∧
    (state pendingHooks 1 0 [.str "p"] soloLeaf).2 = .pending := by
  refine ⟨by decide, by decide, by decide, by decide, by decide⟩

/-- C18 (counterexample): the URLs `''`, `' '` and `'?a=1'`. Node's `url` module
reports no pathname for them (`pathname` is `null`); `parse` then throws a
TypeError on `.replace` and does not return `['404']`. -/
theorem C18_url_without_pathname_throws :
    jsTrim "" = "" ∧ jsTrim " " = "" ∧ jsTrim "?a=1" = "?a=1" ∧
    (∀ pathname : String → Option String, pathname "" = none →
      parse pathname "" = .error "TypeError: Cannot read properties of null" ∧
      parse pathname " " = .error "TypeError: Cannot read properties of null") ∧
    (∀ pathname : String → Option String, pathname "?a=1" = none →
      parse pathname "?a=1" = .error "TypeError: Cannot read properties of null") := by
  have t1 : jsTrim "" = "" := by decide
  have t2 : jsTrim " " = "" := by decide
  have t3 : jsTrim "?a=1" = "?a=1" := by decide
  refine ⟨t1, t2, t3, fun pathname hp => ⟨?_, ?_⟩, fun pathname hp => ?_⟩
  · unfold parse
    rw [t1, hp]
  · unfold parse
    rw [t2, hp]
  · unfold parse
    rw [t3, hp]

/-- C18 (amended): whatever Node's `url` module reads off URLs (`pathname`),
`stringify` maps exactly the chain `['page', 'home']` to a URL, the URL `/`,
and every other chain to `null`; where the module reads the pathname `/` off
the URL `/`, `parse` maps every URL that `stringify` produces back to its
chain; for a URL with a pathname, `parse` gives `['page', 'home']` when the
pathname is `/` or `//` (or empty) and the sentinel `['404']` for every other
pathname; for a URL without a pathname `parse` throws a TypeError. -/
theorem C18_parse_stringify (pathname : String → Option String) :
    (∀ s u, stringify s = some u ↔ (s = [.str "page", .str "home"] ∧ u = "/")) ∧
    (∀ s, s ≠ [.str "page", .str "home"] → stringify s = none) ∧
    (pathname "/" = some "/" → ∀ s u, stringify s = some u → parse pathname u = .ok s) ∧
    (∀ url path, pathname (jsTrim url) = some path →
      parse pathname url =
        .ok (if path = "" ∨ path = "/" ∨ path = "//" then [.str "page", .str "home"]
          else [.str "404"])) ∧
    (∀ url, pathname (jsTrim url) = none →
      parse pathname url = .error "TypeError: Cannot read properties of null") := by
  have hchar : ∀ url path, pathname (jsTrim url) = some path →
      parse pathname url =
        .ok (if path = "" ∨ path = "/" ∨ path = "//" then [.str "page", .str "home"]
          else [.str "404"]) := by
    intro url path hp
    unfold parse
    simp only [hp]
    by_cases he : stripSlashes path.data = []
    · rw [if_pos ((splitOnSlash_home _).mpr he), if_pos ((stripSlashes_home path).mp he)]
    · rw [if_neg (fun hc => he ((splitOnSlash_home _).mp hc)),
        if_neg (fun hc => he ((stripSlashes_home path).mpr hc))]
  refine ⟨?_, ?_, ?_, hchar, ?_⟩
  · intro s u
    constructor
    · exact stringify_some
    · rintro ⟨rfl, rfl⟩
      decide
  · intro s hs
    cases hst : stringify s with
    | none => rfl
    | some u => exact absurd (stringify_some hst).1 hs
  · intro hroot s u hs
    obtain ⟨rfl, rfl⟩ := stringify_some hs
    have ht : jsTrim "/" = "/" := by decide
    rw [hchar "/" "/" (by rw [ht]; exact hroot)]
    rfl
  · intro url hp
    unfold parse
    rw [hp]

/-- C19: for every non-empty url string assigned to `hrefValue`, the value
written to the `href` attribute begins with `http://` or `https://`: a url that
begins with one of these is written unchanged, any other url is written with
`http://` in front. -/
theorem C19_href_scheme (url : String) (hne : url ≠ "") :
    ("http://".data <+: (hrefValue url).data ∨ "https://".data <+: (hrefValue url).data) ∧
    (("http://".data <+: url.data ∨ "https://".data <+: url.data) → hrefValue url = url) ∧
    (¬ ("http://".data <+: url.data ∨ "https://".data <+: url.data) →
      hrefValue url = "http://" ++ url) := by
  have hu : (url != "") = true := by simpa using hne
  refine ⟨?_, ?_, ?_⟩
  · unfold hrefValue
    cases ht : httpSchemeTest url.data with
    | true =>
      simp only [hu, ht, Bool.not_true, Bool.and_false]
      exact (httpSchemeTest_iff _).mp ht
    | false =>
      simp only [hu, ht, Bool.not_false, Bool.and_true, if_true]
      exact Or.inl ⟨url.data, by simp⟩
  · intro h
    have ht := (httpSchemeTest_iff _).mpr h
    simp [hrefValue, ht]
  · intro h
    have ht : httpSchemeTest url.data = false := by
      cases hc : httpSchemeTest url.data with
      | false => rfl
      | true => exact absurd ((httpSchemeTest_iff _).mp hc) h
    simp [hrefValue, ht, hne]

/-- C19 (witness): `javascript:alert(1)` is written as
`http://javascript:alert(1)`. -/
theorem C19_href_scheme_witness :
    ("http://".data <+: (hrefValue "javascript:alert(1)").data ∨
      "https://".data <+: (hrefValue "javascript:alert(1)").data) ∧
    (("http://".data <+: "javascript:alert(1)".data ∨
      "https://".data <+: "javascript:alert(1)".data) →
      hrefValue "javascript:alert(1)" = "javascript:alert(1)") ∧
    (¬ ("http://".data <+: "javascript:alert(1)".data ∨
      "https://".data <+: "javascript:alert(1)".data) →
      hrefValue "javascript:alert(1)" = "http://" ++ "javascript:alert(1)") :=
  C19_href_scheme "javascript:alert(1)" (by decide)

/-- C20 (counterexample): the assignment `c0.child = c0` is accepted by the
setter and leaves `c0` as its own parent; `getRootController()` on it does not
end, whatever the number of steps allowed. -/
theorem C20_self_child_loops :
    runAssigns [.child 0 (.controller 0)] (Heap.init 1) = .ok selfLoop ∧
    (selfLoop.ctl 0).parent = some 0 ∧
    (selfLoop.ctl 0).child = some 0 ∧
    ∀ fuel, getRootController selfLoop fuel 0 = none :=
  ⟨rfl, by decide, by decide, selfLoop_never_ends⟩

/-- C20 (amended): starting from controllers without links, after any sequence
of `child`/`parent` assignments none of which closes a cycle in the
configuration it runs in (`x.child = y` where `x` is reached from `y` along
child links or `y` from `x` along the parent links that remain once the
previous child of `x` is detached; `x.parent = y` where `x` is reached from `y`
along parent links or `y` from `x` along the child links that remain once `x`
is detached from its previous parent; `y = x` in particular),
`getRootController()` ends on every controller and returns a controller without
parent that is reached from the receiver along `parent` links;
`getChildrenStateList()` and `getParentsStateList()` end as well, and no
controller is reached from itself along `parent` links or along `child`
links. In the configuration reached, every assignment that does close a cycle
is accepted by the setter, and afterwards `getChildrenStateList()` or
`getRootController()` and `getParentsStateList()` on its receiver do not end. -/
theorem C20_acyclic_runs_end (l : List Assign) (h k : Heap)
    (hu : ∀ y, Unlinked h y) (hl : NoCycleRun l h) (hk : runAssigns l h = .ok k)
    (x : Nat) :
    (∃ root n, (∀ fuel, n < fuel → getRootController k fuel x = some root) ∧
      (k.ctl root).parent = none ∧ Relation.ReflTransGen (ParentStep k) x root) ∧
    (∃ n, ∀ fuel, n < fuel → ∃ states, getChildrenStateList k fuel x = some states) ∧
    (∃ n, ∀ fuel, n < fuel → ∃ states, getParentsStateList k fuel x = some states) ∧
    ¬ Relation.TransGen (ParentStep k) x x ∧
    ¬ Relation.TransGen (ChildStep k) x x ∧
    (∀ a : Assign, ¬ a.ClosesNoCycle k →
      ∃ k2 z, a.run k = .ok k2 ∧
        ((∀ fuel, getChildrenStateList k2 fuel z = none) ∨
          (∀ fuel, getRootController k2 fuel z = none ∧
            getParentsStateList k2 fuel z = none))) := by
  obtain ⟨⟨r, hr⟩, ⟨d, hd⟩⟩ := noCycles_runAssigns l h k (noCycles_of_unlinked hu) hl hk
  refine ⟨?_, ⟨d x, fun fuel hf => children_of_rank hd (d x) x le_rfl fuel hf⟩,
    ⟨r x, fun fuel hf => parents_of_rank hr (r x) x le_rfl fuel hf []⟩, ?_, ?_,
    closing_assignment_loops k⟩
  · obtain ⟨root, hreach, hroot, hfuel⟩ := root_of_rank hr (r x) x le_rfl
    exact ⟨root, r x, hfuel, hroot, hreach⟩
  · intro hc
    exact lt_irrefl _ (@no_cycle_of_rank (ParentStep k) r hr x x hc)
  · intro hc
    exact lt_irrefl _ (@no_cycle_of_rank (ChildStep k) d hd x x hc)

/-- C20 (witness): three controllers linked from the bottom up by
`c1.child = c2; c0.child = c1`; the walks from `c2` end. -/
theorem C20_acyclic_runs_end_witness :
    (∃ root n, (∀ fuel, n < fuel → getRootController
        (linkChild 0 (some 1) (linkChild 1 (some 2) (Heap.init 3))) fuel 2 = some root) ∧
      ((linkChild 0 (some 1) (linkChild 1 (some 2) (Heap.init 3))).ctl root).parent = none ∧
      Relation.ReflTransGen
        (ParentStep (linkChild 0 (some 1) (linkChild 1 (some 2) (Heap.init 3)))) 2 root) ∧
    (∃ n, ∀ fuel, n < fuel → ∃ states, getChildrenStateList
      (linkChild 0 (some 1) (linkChild 1 (some 2) (Heap.init 3))) fuel 2 = some states) ∧
    (∃ n, ∀ fuel, n < fuel → ∃ states, getParentsStateList
      (linkChild 0 (some 1) (linkChild 1 (some 2) (Heap.init 3))) fuel 2 = some states) ∧
    ¬ Relation.TransGen
      (ParentStep (linkChild 0 (some 1) (linkChild 1 (some 2) (Heap.init 3)))) 2 2 ∧
    ¬ Relation.TransGen
      (ChildStep (linkChild 0 (some 1) (linkChild 1 (some 2) (Heap.init 3)))) 2 2 ∧
    (∀ a : Assign,
      ¬ a.ClosesNoCycle (linkChild 0 (some 1) (linkChild 1 (some 2) (Heap.init 3))) →
      ∃ k2 z, a.run (linkChild 0 (some 1) (linkChild 1 (some 2) (Heap.init 3))) = .ok k2 ∧
        ((∀ fuel, getChildrenStateList k2 fuel z = none) ∨
          (∀ fuel, getRootController k2 fuel z = none ∧
            getParentsStateList k2 fuel z = none))) :=
  C20_acyclic_runs_end
    [.child 1 (.controller 2), .child 0 (.controller 1)] (Heap.init 3)
    (linkChild 0 (some 1) (linkChild 1 (some 2) (Heap.init 3)))
    (fun _ => ⟨rfl, rfl⟩)
    ⟨fun y hy => by
        obtain rfl : 2 = y := Val.controller.inj hy
        exact ⟨fun hr => absurd (childStep_none (by decide) hr) (by decide),
          fun hr => absurd (parentStep_none (by decide) hr) (by decide)⟩,
      fun k1 hk1 => by
        obtain rfl : linkChild 1 (some 2) (Heap.init 3) = k1 := Except.ok.inj hk1
        refine ⟨fun y hy => ?_, fun _ _ => trivial⟩
        obtain rfl : 1 = y := Val.controller.inj hy
        refine ⟨fun hr => ?_, fun hr => absurd (parentStep_none (by decide) hr) (by decide)⟩
        rcases childStep_some
          (by decide : ((linkChild 1 (some 2) (Heap.init 3)).ctl 1).child = some 2) hr
          with h1 | h1
        · exact absurd h1 (by decide)
        · exact absurd (childStep_none (by decide) h1) (by decide)⟩
    rfl 2

end Dealport
